import Mathlib

/-!
# KinKal: fit-state duality (TData), the looping helix (LHelix) and MoyalDist

A shallow embedding of `BTrk/KinKal/TData.hh`, `KinKal/LHelix.cc` and the class
`MoyalDist` of `MatEnv/ELossDistributions.hh`.
C++ `double`/`float` values are idealised as elements of an exact field
(a generic field for `TData`, the real numbers for `LHelix`), so every
statement below is a statement about exact arithmetic; in particular the
narrowing of a time argument to `float` is the identity here.

The headers `TDataBase.hh`, `LHelix.hh`, `TRange.hh` and `BField.hh` and the
ROOT and CLHEP libraries are not among the sources; what the embedded
functions use from them is introduced by definitions whose comment says so,
or is a parameter (the field source and `speed` in `rangeInTolerance`).
-/

namespace KinKal

/-! ## TDataBase / TData -/

/-- Validity tag carried by `TDataBase`. -/
inductive Status where
  | valid
  | invalid
  deriving DecidableEq

/-- Content tag carried by `TDataBase`: parameters or weights. -/
inductive DataType where
  | param
  | weight
  deriving DecidableEq

/-- The untemplated base class: a content tag and a validity tag. -/
structure TDataBase where
  dtype : DataType
  status : Status
  deriving DecidableEq

/-- Modelled from the spec: the setter `setStatus` of `TDataBase` (the header `TDataBase.hh`
is not among the sources), by which a failed inversion "sets `status` INVALID": it stores
the given status and leaves the content tag alone. -/
def TDataBase.setStatus (b : TDataBase) (s : Status) : TDataBase :=
  { b with status := s }

/-- Modelled from the spec: `TDataBase::invert` (the header `TDataBase.hh` is not among the
sources). The spec says a successful inversion "toggles `mode` between PARAMETER and WEIGHT;
leaves `status` VALID", and the source comment on `TData::invert` says it is "overriding
status". -/
def TDataBase.invert (b : TDataBase) : TDataBase :=
  { dtype := match b.dtype with
      | DataType.param => DataType.weight
      | DataType.weight => DataType.param,
    status := Status.valid }

/-- The matrix type `DMat`: `SMatrix<double,DDIM,DDIM,MatRepSym<double,DDIM>>`, a square
matrix with symmetric storage. -/
def DMat (K : Type) [Field K] (n : Nat) : Type :=
  { M : Matrix (Fin n) (Fin n) K // M.IsSymm }

/-- The vector type `DVec`: `SVector<double,DDIM>`. -/
abbrev DVec (K : Type) (n : Nat) : Type := Fin n → K

/-- Modelled from the spec: `SMatrix::Invert` of the ROOT library (not part of the sources).
It "attempts to invert `matrix` in place" and returns whether it succeeded; in exact
arithmetic it succeeds exactly when the determinant is non-zero, and on failure the matrix is
left as it was. The first component is the returned flag, the second the matrix afterwards. -/
def DMat.Invert {K : Type} [Field K] [DecidableEq K] {n : Nat} (M : DMat K n) :
    Bool × DMat K n :=
  if M.val.det = 0 then (false, M)
  else (true, ⟨M.val.det⁻¹ • M.val.adjugate, by
    have h : M.val.transpose = M.val := M.property
    unfold Matrix.IsSymm
    rw [Matrix.transpose_smul, Matrix.adjugate_transpose, h]⟩)

/-- The class `TData<DDIM>`: base-class tags, data vector and data matrix. -/
structure TData (K : Type) [Field K] (n : Nat) extends TDataBase where
  vec : DVec K n
  mat : DMat K n

/-- The in-place inversion `TData::invert()`: invert the matrix; on success multiply the
vector by the (already inverted) matrix and update the base class, otherwise flag the
state invalid. -/
def TData.invert {K : Type} [Field K] [DecidableEq K] {n : Nat} (d : TData K n) : TData K n :=
  match d.mat.Invert with
  | (true, m) =>
      { toTDataBase := d.toTDataBase.invert, vec := m.val.mulVec d.vec, mat := m }
  | (false, m) =>
      { toTDataBase := d.toTDataBase.setStatus Status.invalid, vec := d.vec, mat := m }

/-- The copy constructor `TData(TData const& other, bool doinvert)`. -/
def TData.copy {K : Type} [Field K] [DecidableEq K] {n : Nat} (other : TData K n)
    (doinvert : Bool) : TData K n :=
  let self : TData K n :=
    { toTDataBase := other.toTDataBase, vec := other.vec, mat := other.mat }
  if doinvert then self.invert else self

/-- The two-object call `self.invert(other)` on distinct objects: `*this = other; invert();`.
The pair is (receiver, other) before and after the call; `other` is taken by const
reference. -/
def TData.invertFrom {K : Type} [Field K] [DecidableEq K] {n : Nat}
    (st : TData K n × TData K n) : TData K n × TData K n :=
  let self : TData K n :=
    { toTDataBase := st.2.toTDataBase, vec := st.2.vec, mat := st.2.mat }
  (self.invert, st.2)

/-- A sample parameter state over the rationals with an invertible covariance matrix. -/
def sampleParams : TData ℚ 2 :=
  { dtype := DataType.param, status := Status.valid, vec := ![1, 2],
    mat := ⟨!![2, 1; 1, 1], by
      unfold Matrix.IsSymm
      ext i j
      fin_cases i <;> fin_cases j <;> rfl⟩ }

/-- A sample weight state over the rationals whose matrix is the all-zero matrix. -/
def sampleSingular : TData ℚ 2 :=
  { dtype := DataType.weight, status := Status.valid, vec := ![1, 2],
    mat := ⟨0, Matrix.isSymm_zero⟩ }

/-! ## Vectors, rotations and C library functions used by LHelix -/

noncomputable section

/-- The constant `CLHEP::c_light`, the speed of light in mm/ns (CLHEP is an external
library). -/
def c_light : ℝ := 299.792458

/-- The C library `atan2(y, x)`: the angle in `(-π, π]` of the point `(x, y)`, and `0` at
the origin. -/
def atan2 (y x : ℝ) : ℝ := Complex.arg ⟨x, y⟩

/-- The C library `copysign(x, y)`: the magnitude of `x` with the sign of `y` (the reals
have no negative zero, so `y = 0` counts as positive). -/
def copysign (x y : ℝ) : ℝ := if 0 ≤ y then |x| else -|x|

/-- The C library `rint(x)` in the default rounding mode: the nearest integer, a tie going
to the even neighbour. -/
def rint (x : ℝ) : ℝ :=
  let f : ℤ := ⌊x⌋
  if x - f < 1 / 2 then f
  else if 1 / 2 < x - f then f + 1
  else if Even f then f else f + 1

/-- The type `Vec3`: a Cartesian 3-vector (`ROOT::Math::XYZVector`). -/
structure Vec3 where
  x : ℝ
  y : ℝ
  z : ℝ

/-- The type `Vec4`: a space-time point (`ROOT::Math::XYZTVector`). -/
structure Vec4 where
  x : ℝ
  y : ℝ
  z : ℝ
  t : ℝ

/-- The type `Mom4`: a 4-momentum stored as momentum components and mass
(`ROOT::Math::PxPyPzMVector`). -/
structure Mom4 where
  px : ℝ
  py : ℝ
  pz : ℝ
  m : ℝ

/-- Scalar product of two 3-vectors. -/
def Vec3.Dot (a b : Vec3) : ℝ := a.x * b.x + a.y * b.y + a.z * b.z

/-- Transverse length `Rho()`. -/
def Vec3.Rho (v : Vec3) : ℝ := Real.sqrt (v.x * v.x + v.y * v.y)

/-- Length `R()`. -/
def Vec3.R (v : Vec3) : ℝ := Real.sqrt (v.x * v.x + v.y * v.y + v.z * v.z)

/-- Azimuth `Phi()`. -/
def Vec3.Phi (v : Vec3) : ℝ := atan2 v.y v.x

/-- Polar angle `Theta()`. -/
def Vec3.Theta (v : Vec3) : ℝ := atan2 v.Rho v.z

/-- Scaling of a 3-vector, `v * a`. -/
def Vec3.scale (v : Vec3) (a : ℝ) : Vec3 := ⟨v.x * a, v.y * a, v.z * a⟩

/-- Difference of two 3-vectors. -/
def Vec3.sub (a b : Vec3) : Vec3 := ⟨a.x - b.x, a.y - b.y, a.z - b.z⟩

/-- The method `Unit()`: the vector divided by its length, or the vector itself when the
length is zero. -/
def Vec3.Unit (v : Vec3) : Vec3 :=
  if v.R = 0 then v else ⟨v.x / v.R, v.y / v.R, v.z / v.R⟩

/-- Transverse momentum `Pt()`. -/
def Mom4.Pt (p : Mom4) : ℝ := Real.sqrt (p.px * p.px + p.py * p.py)

/-- Momentum azimuth `Phi()`. -/
def Mom4.Phi (p : Mom4) : ℝ := atan2 p.py p.px

/-- Spatial part `Vect()`. -/
def Mom4.Vect (p : Mom4) : Vec3 := ⟨p.px, p.py, p.pz⟩

/-- The type `Rotation3D`: nine matrix components, row by row. -/
structure Rotation3D where
  xx : ℝ
  xy : ℝ
  xz : ℝ
  yx : ℝ
  yy : ℝ
  yz : ℝ
  zx : ℝ
  zy : ℝ
  zz : ℝ

/-- The default-constructed `Rotation3D`, the identity. -/
def Rotation3D.identity : Rotation3D := ⟨1, 0, 0, 0, 1, 0, 0, 0, 1⟩

/-- Construction `Rotation3D(AxisAngle(axis, angle))`: the axis is normalised and the
matrix is the rotation by `angle` about it. (The angle rectification of `AxisAngle` only
shifts the angle by multiples of `2π`, which `sin` and `cos` do not see.) -/
def Rotation3D.ofAxisAngle (axis : Vec3) (angle : ℝ) : Rotation3D :=
  let u := axis.Unit
  let sinDelta := Real.sin angle
  let cosDelta := Real.cos angle
  let oneMinusCosDelta := 1 - cosDelta
  { xx := oneMinusCosDelta * u.x * u.x + cosDelta
    xy := oneMinusCosDelta * u.x * u.y - sinDelta * u.z
    xz := oneMinusCosDelta * u.x * u.z + sinDelta * u.y
    yx := oneMinusCosDelta * u.y * u.x + sinDelta * u.z
    yy := oneMinusCosDelta * u.y * u.y + cosDelta
    yz := oneMinusCosDelta * u.y * u.z - sinDelta * u.x
    zx := oneMinusCosDelta * u.z * u.x - sinDelta * u.y
    zy := oneMinusCosDelta * u.z * u.y + sinDelta * u.x
    zz := oneMinusCosDelta * u.z * u.z + cosDelta }

/-- The method `Inverse()`: the transposed matrix. -/
def Rotation3D.Inverse (r : Rotation3D) : Rotation3D :=
  ⟨r.xx, r.yx, r.zx, r.xy, r.yy, r.zy, r.xz, r.yz, r.zz⟩

/-- Application of a rotation to a 3-vector. -/
def Rotation3D.apply (r : Rotation3D) (v : Vec3) : Vec3 :=
  ⟨r.xx * v.x + r.xy * v.y + r.xz * v.z,
   r.yx * v.x + r.yy * v.y + r.yz * v.z,
   r.zx * v.x + r.zy * v.y + r.zz * v.z⟩

/-- Application of a rotation to a space-time point: the spatial part is rotated, the time
is kept. -/
def Rotation3D.applyVec4 (r : Rotation3D) (v : Vec4) : Vec4 :=
  let w := r.apply ⟨v.x, v.y, v.z⟩
  ⟨w.x, w.y, w.z, v.t⟩

/-- Application of a rotation to a 4-momentum: the momentum is rotated and the energy is
carried over, which in exact arithmetic gives back the same mass. -/
def Rotation3D.applyMom4 (r : Rotation3D) (p : Mom4) : Mom4 :=
  let w := r.apply p.Vect
  ⟨w.x, w.y, w.z, p.m⟩

/-- The property that a `Rotation3D` holds an orthogonal matrix (its transpose times it is
the identity), as every rotation does. -/
def Rotation3D.IsOrthogonal (r : Rotation3D) : Prop :=
  r.xx * r.xx + r.yx * r.yx + r.zx * r.zx = 1 ∧
  r.xy * r.xy + r.yy * r.yy + r.zy * r.zy = 1 ∧
  r.xz * r.xz + r.yz * r.yz + r.zz * r.zz = 1 ∧
  r.xx * r.xy + r.yx * r.yy + r.zx * r.zy = 0 ∧
  r.xx * r.xz + r.yx * r.yz + r.zx * r.zz = 0 ∧
  r.xy * r.xz + r.yy * r.yz + r.zy * r.zz = 0

/-! ## LHelix -/

/-- The type `TRange`: a time interval. -/
structure TRange where
  low : ℝ
  high : ℝ

/-- The enumeration `ParamIndex`, in the order of the parameter name table: radius,
wavelength, centre x, centre y, azimuth at z=0, time at z=0. -/
inductive ParamIndex where
  | rad_
  | lam_
  | cx_
  | cy_
  | phi0_
  | t0_
  deriving DecidableEq

/-- The selector `MDir` of `momDeriv`; `unrecognized` stands for any other value the
enumeration variable can hold. -/
inductive MDir where
  | theta1
  | theta2
  | momdir
  | unrecognized (code : ℤ)

/-- The two `std::invalid_argument` errors thrown in `LHelix.cc`: "BField Error" and
"Invalid direction". -/
inductive InvalidArgument where
  | bfieldError
  | invalidDirection
  deriving DecidableEq

/-- The parameter vector, and the derivative vector `PDER`, indexed by `ParamIndex`. -/
abbrev PDER : Type := ParamIndex → ℝ

/-- The class `LHelix`: the members read or written by the embedded functions. The
parameter payload `pars_` is represented by its parameter vector; its covariance is not
touched by these functions. -/
structure LHelix where
  mass : ℝ
  charge : ℤ
  trange : TRange
  pars : PDER
  bnom : Vec3
  needsrot : Bool
  brot : Rotation3D
  mbar : ℝ

/-- Accessor `rad()`. -/
def LHelix.rad (h : LHelix) : ℝ := h.pars ParamIndex.rad_
/-- Accessor `lam()`. -/
def LHelix.lam (h : LHelix) : ℝ := h.pars ParamIndex.lam_
/-- Accessor `cx()`. -/
def LHelix.cx (h : LHelix) : ℝ := h.pars ParamIndex.cx_
/-- Accessor `cy()`. -/
def LHelix.cy (h : LHelix) : ℝ := h.pars ParamIndex.cy_
/-- Accessor `phi0()`. -/
def LHelix.phi0 (h : LHelix) : ℝ := h.pars ParamIndex.phi0_
/-- Accessor `t0()`. -/
def LHelix.t0 (h : LHelix) : ℝ := h.pars ParamIndex.t0_

/-- Modelled from the spec: `pbar()` of the header `LHelix.hh`, which is not among the
sources: the momentum in length units, `sqrt(radius^2 + wavelength^2)`. -/
def LHelix.pbar (h : LHelix) : ℝ := Real.sqrt (h.rad * h.rad + h.lam * h.lam)

/-- Modelled from the spec: `ebar()` of the header `LHelix.hh`, which is not among the
sources: the total-energy term `sqrt(radius^2 + wavelength^2 + mbar^2)`. -/
def LHelix.ebar (h : LHelix) : ℝ :=
  Real.sqrt (h.rad * h.rad + h.lam * h.lam + h.mbar * h.mbar)

/-- Modelled from the spec: `omega()` of the header `LHelix.hh`, which is not among the
sources: the angular velocity `copysign(c_light, mbar) / sqrt(R^2 + lambda^2 + mbar^2)`. -/
def LHelix.omega (h : LHelix) : ℝ := copysign c_light h.mbar / h.ebar

/-- Modelled from the spec: `beta()` of the header `LHelix.hh`, which is not among the
sources: `beta^2 = (R^2 + lambda^2) / (R^2 + lambda^2 + mbar^2)`, that is `pbar / ebar`. -/
def LHelix.beta (h : LHelix) : ℝ := h.pbar / h.ebar

/-- Modelled from the spec: `dphi(t)` of the header `LHelix.hh`, which is not among the
sources: `dphi(t) = angularVelocity * (t - t0)`. -/
def LHelix.dphi (h : LHelix) (t : ℝ) : ℝ := h.omega * (t - h.t0)

/-- Modelled from the spec: `phi(t)` of the header `LHelix.hh`, which is not among the
sources: the azimuthal phase `phi0 + dphi(t)`. -/
def LHelix.phi (h : LHelix) (t : ℝ) : ℝ := h.dphi t + h.phi0

/-- Write access `param(index) = value`. -/
def LHelix.setParam (h : LHelix) (i : ParamIndex) (v : ℝ) : LHelix :=
  { h with pars := Function.update h.pars i v }

/-- The rotation built by the constructor for a tilted field: by the field's polar angle
about the axis `(sin Phi, -cos Phi, 0)`. -/
def LHelix.fieldRotation (bnom : Vec3) : Rotation3D :=
  Rotation3D.ofAxisAngle ⟨Real.sin bnom.Phi, -Real.cos bnom.Phi, 0⟩ bnom.Theta

/-- The part of the phase-space constructor after the frame change (`LHelix.cc` lines
46 to 67), given the position and momentum in the working frame and the members already
initialised. -/
def LHelix.setParameters (h0 : LHelix) (pos : Vec4) (mom : Mom4) : LHelix :=
  let twopi : ℝ := 2 * Real.pi
  let pt := mom.Pt
  let phibar := mom.Phi
  let momToRad := 1000.0 / ((h0.charge : ℝ) * h0.bnom.R * c_light)
  let h1 : LHelix := { h0 with mbar := -h0.mass * momToRad }
  let h2 := h1.setParam ParamIndex.rad_ (-pt * momToRad)
  let h3 := h2.setParam ParamIndex.lam_ (-mom.pz * momToRad)
  let om := h3.omega
  let h4 := h3.setParam ParamIndex.t0_ (pos.t - pos.z / (om * h3.lam))
  let nwind := rint ((pos.z / h4.lam - phibar) / twopi)
  let h5 := h4.setParam ParamIndex.phi0_ (phibar - om * (pos.t - h4.t0) + twopi * nwind)
  let h6 := h5.setParam ParamIndex.cx_ (pos.x + mom.py * momToRad)
  h6.setParam ParamIndex.cy_ (pos.y - mom.px * momToRad)

/-- The phase-space constructor `LHelix::LHelix(pos0, mom0, charge, bnom, trange)` (a
definition cannot carry the name of its own structure). The result is
an error when the constructor throws `invalid_argument("BField Error")`. -/
def LHelix.construct (pos0 : Vec4) (mom0 : Mom4) (charge : ℤ) (bnom : Vec3) (trange : TRange) :
    Except InvalidArgument LHelix :=
  let init : LHelix :=
    { mass := mom0.m, charge := charge, trange := trange, pars := fun _ => 0, bnom := bnom,
      needsrot := false, brot := Rotation3D.identity, mbar := 0 }
  if |bnom.Theta| > 1.0e-6 then
    let rot := LHelix.fieldRotation bnom
    let test := rot.apply bnom
    if |test.Theta| > 1.0e-6 then Except.error InvalidArgument.bfieldError
    else
      Except.ok (LHelix.setParameters { init with needsrot := true, brot := rot.Inverse }
        (rot.applyVec4 pos0) (rot.applyMom4 mom0))
  else Except.ok (LHelix.setParameters init pos0 mom0)

/-- The members as the constructor leaves them before it computes the parameters: mass,
charge, range and field from the arguments, and the rotation flag and cached inverse
rotation according to the field's polar angle. -/
def LHelix.initMembers (mom0 : Mom4) (charge : ℤ) (bnom : Vec3) (trange : TRange) : LHelix :=
  { mass := mom0.m, charge := charge, trange := trange, pars := fun _ => 0, bnom := bnom,
    needsrot := decide (|bnom.Theta| > 1.0e-6),
    brot := if |bnom.Theta| > 1.0e-6 then (LHelix.fieldRotation bnom).Inverse
      else Rotation3D.identity,
    mbar := 0 }

/-- The input position in the working frame of the constructor, in which z is along the
field: rotated when the field's polar angle exceeds the threshold. -/
def LHelix.workingPos (pos0 : Vec4) (bnom : Vec3) : Vec4 :=
  if |bnom.Theta| > 1.0e-6 then (LHelix.fieldRotation bnom).applyVec4 pos0 else pos0

/-- The input momentum in the working frame of the constructor, in which z is along the
field: rotated when the field's polar angle exceeds the threshold. -/
def LHelix.workingMom (mom0 : Mom4) (bnom : Vec3) : Mom4 :=
  if |bnom.Theta| > 1.0e-6 then (LHelix.fieldRotation bnom).applyMom4 mom0 else mom0

/-- The scale factor `momToRad` of the constructor, from momentum in MeV/c to curvature
radius in mm. -/
def LHelix.momToRad (charge : ℤ) (bnom : Vec3) : ℝ :=
  1000.0 / ((charge : ℝ) * bnom.R * c_light)

/-- A sample field of 1 Tesla along z. -/
def sampleField : Vec3 := ⟨0, 0, 1⟩

/-- A sample space-time point. -/
def samplePos : Vec4 := ⟨1, 2, 3, 4⟩

/-- A sample electron momentum: transverse momentum 100 MeV/c, longitudinal momentum
50 MeV/c, mass 0.511 MeV/c^2. -/
def sampleMom : Mom4 := ⟨100, 0, 50, 0.511⟩

/-- A sample validity range. -/
def sampleRange : TRange := ⟨0, 10⟩

/-- A momentum along the field: no transverse component. -/
def alongFieldMom : Mom4 := ⟨0, 0, 50, 0.511⟩

/-- The helix computed by the constructor for a negative particle moving along the sample
field. -/
def alongFieldHelix : LHelix :=
  LHelix.setParameters (LHelix.initMembers alongFieldMom (-1) sampleField sampleRange)
    (LHelix.workingPos samplePos sampleField) (LHelix.workingMom alongFieldMom sampleField)

/-- A space-time point half a wavelength turn up the z axis for `windingMom` in the sample
field. -/
def windingPos : Vec4 := ⟨0, 0, 1000 * Real.pi / c_light, 0⟩

/-- A momentum with azimuth zero. -/
def windingMom : Mom4 := ⟨1, 0, 1, 1⟩

/-- The helix computed by the constructor for a negative particle starting at `windingPos`
with momentum `windingMom` in the sample field. -/
def windingHelix : LHelix :=
  LHelix.setParameters (LHelix.initMembers windingMom (-1) sampleField sampleRange)
    (LHelix.workingPos windingPos sampleField) (LHelix.workingMom windingMom sampleField)

/-- The helix computed by the constructor for the sample electron in the sample field. -/
def sampleHelix : LHelix :=
  LHelix.setParameters (LHelix.initMembers sampleMom (-1) sampleField sampleRange)
    (LHelix.workingPos samplePos sampleField) (LHelix.workingMom sampleMom sampleField)

/-- A field of 1 Tesla along the lab x axis, tilted by a right angle against z. -/
def tiltedField : Vec3 := ⟨1, 0, 0⟩

/-- The origin at time zero. -/
def tiltedPos : Vec4 := ⟨0, 0, 0, 0⟩

/-- A lab-frame momentum with components along and across the tilted field. -/
def tiltedMom : Mom4 := ⟨1, 0, -1, 1⟩

/-- The helix computed by the constructor for a negative particle at the origin with
momentum `tiltedMom` in the tilted field. -/
def tiltedHelix : LHelix :=
  LHelix.setParameters (LHelix.initMembers tiltedMom (-1) tiltedField sampleRange)
    (LHelix.workingPos tiltedPos tiltedField) (LHelix.workingMom tiltedMom tiltedField)

/-- The constructor taking the field magnitude: the field is along z. -/
def LHelix.constructScalarField (pos0 : Vec4) (mom0 : Mom4) (charge : ℤ) (bnom : ℝ)
    (trange : TRange) : Except InvalidArgument LHelix :=
  LHelix.construct pos0 mom0 charge ⟨0.0, 0.0, bnom⟩ trange

/-- The query `position(time, pos)`. -/
def LHelix.position (h : LHelix) (time : ℝ) : Vec3 :=
  let df := h.dphi time
  let phival := df + h.phi0
  let pos : Vec3 :=
    ⟨h.cx + h.rad * Real.sin phival, h.cy - h.rad * Real.cos phival, df * h.lam⟩
  if h.needsrot then h.brot.apply pos else pos

/-- The query `momentum(time, mom)`. -/
def LHelix.momentum (h : LHelix) (time : ℝ) : Mom4 :=
  let phival := h.phi time
  let factor := h.mass / h.mbar
  let mom : Mom4 :=
    ⟨factor * h.rad * Real.cos phival, factor * h.rad * Real.sin phival, factor * h.lam,
     h.mass⟩
  if h.needsrot then h.brot.applyMom4 mom else mom

/-- The query `direction(time, dir)`. -/
def LHelix.direction (h : LHelix) (time : ℝ) : Vec3 :=
  let mom := h.momentum time
  let dir := mom.Vect.Unit
  if h.needsrot then h.brot.apply dir else dir

/-- The query `momDeriv(mdir, time, pder, unit)`: the derivative vector and the unit
direction, or the error thrown for an unrecognised selector. -/
def LHelix.momDeriv (h : LHelix) (mdir : MDir) (time : ℝ) :
    Except InvalidArgument (PDER × Vec3) :=
  let bval := h.beta
  let omval := h.omega
  let pb := h.pbar
  let dt := time - h.t0
  let phival := omval * dt + h.phi0
  let norm := 1.0 / copysign h.pbar h.mbar
  let rotate : PDER × Vec3 → PDER × Vec3 := fun r =>
    if h.needsrot then (r.1, h.brot.apply r.2) else r
  match mdir with
  | MDir.theta1 =>
      let pder : PDER := fun i =>
        match i with
        | ParamIndex.rad_ => h.lam
        | ParamIndex.lam_ => -h.rad
        | ParamIndex.t0_ => -dt * h.rad / h.lam
        | ParamIndex.phi0_ => -omval * dt * h.rad / h.lam
        | ParamIndex.cx_ => -h.lam * Real.sin phival
        | ParamIndex.cy_ => h.lam * Real.cos phival
      let unit : Vec3 := ⟨h.lam * Real.cos phival, h.lam * Real.sin phival, -h.rad⟩
      Except.ok (rotate (pder, unit.scale norm))
  | MDir.theta2 =>
      let pder : PDER := fun i =>
        match i with
        | ParamIndex.rad_ => 0.0
        | ParamIndex.lam_ => 0.0
        | ParamIndex.t0_ => 0.0
        | ParamIndex.phi0_ => copysign 1.0 omval * pb / h.rad
        | ParamIndex.cx_ => -copysign 1.0 omval * pb * Real.cos phival
        | ParamIndex.cy_ => -copysign 1.0 omval * pb * Real.sin phival
      let unit : Vec3 := ⟨-Real.sin phival, Real.cos phival, 0.0⟩
      Except.ok (rotate (pder, unit))
  | MDir.momdir =>
      let pder : PDER := fun i =>
        match i with
        | ParamIndex.rad_ => h.rad
        | ParamIndex.lam_ => h.lam
        | ParamIndex.t0_ => dt * (1.0 - bval * bval)
        | ParamIndex.phi0_ => omval * dt
        | ParamIndex.cx_ => -h.rad * Real.sin phival
        | ParamIndex.cy_ => h.rad * Real.cos phival
      Except.ok (rotate (pder, h.direction time))
  | MDir.unrecognized _ => Except.error InvalidArgument.invalidDirection

/-- Division of a 3-vector by a scalar, `v / a`. -/
def Vec3.div (v : Vec3) (a : ℝ) : Vec3 := ⟨v.x / a, v.y / a, v.z / a⟩

/-- Modelled from the spec: `TRange::range()` of the header `TRange.hh`, which is not among
the sources: the length of the time interval, `high - low`. -/
def TRange.range (r : TRange) : ℝ := r.high - r.low

/-- Modelled from the spec: `Q()`, declared in a header that is not among the sources. The
spec scales the velocity by `speedOfLight / |charge * totalEnergyOverC|`, so `Q()` is the
charge. -/
def LHelix.Q (h : LHelix) : ℝ := (h.charge : ℝ)

/-- Accessor `range()`: the helix's own validity range. -/
def LHelix.range (h : LHelix) : TRange := h.trange

/-- The query `velocity(time, vel)`. -/
def LHelix.velocity (h : LHelix) (time : ℝ) : Vec3 :=
  let mom := h.momentum time
  let vel := (mom.Vect.scale c_light).div |h.Q * h.ebar|
  if h.needsrot then h.brot.apply vel else vel

/-- The local state of the loop of `rangeInTolerance`: the accumulated distortion `dx` and
the range `drange` being extended. -/
structure RangeState where
  dx : ℝ
  drange : TRange

/-- The loop condition of `rangeInTolerance`: the distortion is below the position tolerance
and the range has not reached the helix's own range limit. -/
abbrev LHelix.rangeCond (h : LHelix) (ptol : ℝ) (s : RangeState) : Prop :=
  |s.dx| < ptol ∧ s.drange.high < h.range.high

/-- One pass through the loop body of `rangeInTolerance`: sample the field at the position
at `drange.high()`, accumulate the distortion, advance `drange.high()` by `tstep`. The field
source `bfield.fieldVect` is the function `fieldVect`. -/
def LHelix.rangeStep (h : LHelix) (fieldVect : Vec3 → Vec3) (sfac tstep : ℝ)
    (s : RangeState) : RangeState :=
  let tpos := h.position s.drange.high
  let bvec := fieldVect tpos
  let dbvec := bvec.sub h.bnom
  { dx := s.dx + sfac * s.drange.range * tstep * dbvec.R
    drange := { s.drange with high := s.drange.high + tstep } }

/-- The `while` loop of `rangeInTolerance`, run for at most `fuel` passes: `some` of the
state in which the loop condition fails, or `none` when the passes allowed are used up with
the condition still true. -/
def LHelix.rangeLoop (h : LHelix) (fieldVect : Vec3 → Vec3) (ptol sfac tstep : ℝ) :
    ℕ → RangeState → Option RangeState
  | 0, s => if h.rangeCond ptol s then none else some s
  | fuel + 1, s =>
      if h.rangeCond ptol s then
        LHelix.rangeLoop h fieldVect ptol sfac tstep fuel (h.rangeStep fieldVect sfac tstep s)
      else some s

/-- The step size `tstep` of `rangeInTolerance`. -/
def LHelix.tstep (h : LHelix) (dtol : ℝ) : ℝ := dtol * h.ebar / c_light

/-- The function `rangeInTolerance(drange, bfield, dtol, ptol)`, with its local state on
return (the final `dx` and the updated `drange`), run for at most `fuel` loop passes. The
method `speed(t)` is declared in a header that is not among the sources and the spec does
not describe it, so it is the parameter `speed`; the field source is the parameter
`fieldVect`. -/
def LHelix.rangeInToleranceState (h : LHelix) (speed : ℝ → ℝ) (fieldVect : Vec3 → Vec3)
    (drange : TRange) (dtol ptol : ℝ) (fuel : ℕ) : Option RangeState :=
  let spd := speed drange.low
  let sfac := spd * spd / (h.bnom.R * h.pbar)
  let tstep := dtol * h.ebar / c_light
  let dx : ℝ := 0.0
  LHelix.rangeLoop h fieldVect ptol sfac tstep fuel ⟨dx, drange⟩

/-- The range `drange` left by `rangeInTolerance`, when the loop ends within `fuel`
passes. -/
def LHelix.rangeInTolerance (h : LHelix) (speed : ℝ → ℝ) (fieldVect : Vec3 → Vec3)
    (drange : TRange) (dtol ptol : ℝ) (fuel : ℕ) : Option TRange :=
  (h.rangeInToleranceState speed fieldVect drange dtol ptol fuel).map RangeState.drange

/-- A momentum with transverse momentum 3, longitudinal momentum 4 and mass 12. -/
def tripleMom : Mom4 := ⟨3, 0, 4, 12⟩

/-- The helix computed by the constructor for a negative particle at the origin with
momentum `tripleMom` in the sample field. -/
def tripleHelix : LHelix :=
  LHelix.setParameters (LHelix.initMembers tripleMom (-1) sampleField sampleRange)
    (LHelix.workingPos tiltedPos sampleField) (LHelix.workingMom tripleMom sampleField)

/-- A momentum with mass zero. -/
def masslessMom : Mom4 := ⟨100, 0, 50, 0⟩

/-- The helix computed by the constructor for a negative particle of mass zero in the
sample field. -/
def masslessHelix : LHelix :=
  LHelix.setParameters (LHelix.initMembers masslessMom (-1) sampleField sampleRange)
    (LHelix.workingPos samplePos sampleField) (LHelix.workingMom masslessMom sampleField)

/-- A field source equal to the sample field everywhere. -/
def uniformField : Vec3 → Vec3 := fun _ => sampleField

/-- A field source of 2 Tesla along z everywhere, 1 Tesla above the sample field. -/
def offsetField : Vec3 → Vec3 := fun _ => ⟨0, 0, 2⟩

/-- A value for the `speed` parameter: the speed `c_light * beta` of `tripleHelix` at all
times. -/
def tripleSpeed : ℝ → ℝ := fun _ => c_light * tripleHelix.beta

/-- The working-frame position at time `t` of the helix `h` with its parameter vector
replaced by `p` (mass, charge, field and `mbar` kept, no rotation applied): the function of
the six parameters whose first-order change the derivative vectors of `momDeriv` are
about. -/
def LHelix.positionOfPars (h : LHelix) (p : PDER) (t : ℝ) : Vec3 :=
  ({ h with pars := p, needsrot := false } : LHelix).position t

/-- The parameter vector of `h` moved by `ε` times the derivative vector `pder`. -/
def LHelix.shiftedPars (h : LHelix) (pder : PDER) (ε : ℝ) : PDER :=
  fun i => h.pars i + ε * pder i

/-! ## MoyalDist -/

/-- The argument type `MoyalDist::ModeSigma`: most probable value and sigma. -/
structure MoyalDist.ModeSigma where
  mpv_ : ℝ
  xi_ : ℝ

/-- The argument type `MoyalDist::MeanRMS`: mean and rms. -/
structure MoyalDist.MeanRMS where
  Mean_ : ℝ
  RMS_ : ℝ

/-- The class `MoyalDist`: the members `_mode`, `_mean`, `_sigma`, `_rms` and `_kmax`. The
coefficient table `_coeff` is filled by `setCoeffs`, whose body is not among the sources,
and is not read by the embedded accessors. -/
structure MoyalDist where
  mode : ℝ
  mean : ℝ
  sigma : ℝ
  rms : ℝ
  kmax : ℤ

/-- The constant `MoyalDist::EG`, the Euler-gamma constant as written in the source. -/
def MoyalDist.EG : ℝ := 0.577215664901532860606

/-- The constant `MoyalDist::MFACTOR = EG + M_LN2`, with `M_LN2` the natural logarithm
of 2. -/
def MoyalDist.MFACTOR : ℝ := MoyalDist.EG + Real.log 2

/-- The constructor `MoyalDist(ModeSigma const& modesigma, int max)`; `std::pow(x, 2)` is
the square and `M_PI` is `π`. -/
def MoyalDist.fromModeSigma (modesigma : MoyalDist.ModeSigma) (max : ℤ) : MoyalDist :=
  let mode := modesigma.mpv_
  let sigma := modesigma.xi_
  { mode := mode
    sigma := sigma
    kmax := max
    mean := mode + sigma * MoyalDist.MFACTOR
    rms := 0.5 * (Real.pi * sigma) ^ 2 }

/-- The constructor `MoyalDist(MeanRMS const& meanrms, int max)`, whose comment reads
"Variance of moyal = (pi * sigma)^2 /2". -/
def MoyalDist.fromMeanRMS (meanrms : MoyalDist.MeanRMS) (max : ℤ) : MoyalDist :=
  let mean := meanrms.Mean_
  let rms := meanrms.RMS_
  let sigma := Real.sqrt 2.0 * rms / Real.pi
  { mean := mean
    rms := rms
    kmax := max
    sigma := sigma
    mode := mean - sigma * MoyalDist.MFACTOR }

/-- Accessor `getMean()`. -/
def MoyalDist.getMean (d : MoyalDist) : ℝ := d.mean

/-- Accessor `getSigma()`. -/
def MoyalDist.getSigma (d : MoyalDist) : ℝ := d.sigma

/-- Accessor `getRMS()`. -/
def MoyalDist.getRMS (d : MoyalDist) : ℝ := d.rms

/-- The second distribution of the round trip: built by the mean/rms constructor from the
mean and rms reported by the first. -/
def MoyalDist.rebuild (first : MoyalDist) (max : ℤ) : MoyalDist :=
  MoyalDist.fromMeanRMS ⟨first.getMean, first.getRMS⟩ max

end

/-! ## Theorems: TData -/

section TDataTheorems

variable {K : Type} [Field K] [DecidableEq K] {n : Nat}

/-- On a matrix with non-zero determinant the library inversion reports success and leaves
the inverse matrix. -/
theorem DMat.Invert_of_det_ne_zero (M : DMat K n) (h : M.val.det ≠ 0) :
    M.Invert.1 = true ∧ M.Invert.2.val = M.val⁻¹ := by
  unfold DMat.Invert
  rw [if_neg h]
  refine ⟨rfl, ?_⟩
  show M.val.det⁻¹ • M.val.adjugate = M.val⁻¹
  rw [Matrix.inv_def, Ring.inverse_eq_inv]

/-- On a matrix with zero determinant the library inversion reports failure and leaves the
matrix as it was. -/
theorem DMat.Invert_of_det_eq_zero (M : DMat K n) (h : M.val.det = 0) :
    M.Invert = (false, M) := by
  unfold DMat.Invert
  rw [if_pos h]

/-- Successful branch of `TData.invert`, field by field. -/
theorem TData.invert_of_det_ne_zero (d : TData K n) (h : d.mat.val.det ≠ 0) :
    d.invert.mat.val = d.mat.val⁻¹ ∧
    d.invert.vec = (d.mat.val⁻¹).mulVec d.vec ∧
    d.invert.toTDataBase = d.toTDataBase.invert := by
  obtain ⟨h1, h2⟩ := DMat.Invert_of_det_ne_zero d.mat h
  unfold TData.invert
  rcases hI : d.mat.Invert with ⟨b, m⟩
  rw [hI] at h1 h2
  simp only at h1 h2
  subst h1
  simp only [h2, and_self]

/-- Failing branch of `TData.invert`. -/
theorem TData.invert_of_det_eq_zero (d : TData K n) (h : d.mat.val.det = 0) :
    d.invert = { d with status := Status.invalid } := by
  unfold TData.invert
  rw [DMat.Invert_of_det_eq_zero d.mat h]
  rfl

omit [DecidableEq K] in
/-- A state with an invertible matrix has a non-zero determinant. -/
theorem TData.det_ne_zero_of_isUnit (d : TData K n) (h : IsUnit d.mat.val) :
    d.mat.val.det ≠ 0 :=
  ((Matrix.isUnit_iff_isUnit_det _).mp h).ne_zero

/-- The sample parameter state has an invertible matrix. -/
theorem sampleParams_isUnit : IsUnit sampleParams.mat.val := by
  rw [Matrix.isUnit_iff_isUnit_det]
  have h : sampleParams.mat.val.det = 1 := by
    show (!![2, 1; 1, 1] : Matrix (Fin 2) (Fin 2) ℚ).det = 1
    rw [Matrix.det_fin_two_of]
    norm_num
  rw [h]
  exact isUnit_one

/-- The sample singular state has a matrix that is not invertible. -/
theorem sampleSingular_not_isUnit : ¬ IsUnit sampleSingular.mat.val := by
  rw [Matrix.isUnit_iff_isUnit_det]
  have h : sampleSingular.mat.val.det = 0 := by
    show (0 : Matrix (Fin 2) (Fin 2) ℚ).det = 0
    exact Matrix.det_zero ⟨0⟩
  rw [h]
  exact not_isUnit_zero

/-- The inversion evaluated on the sample parameter state: covariance `[[2, 1], [1, 1]]` and
parameters `(1, 2)` become weight matrix `[[1, -1], [-1, 2]]` and weight vector `(-1, 3)`. -/
theorem sampleParams_invert :
    sampleParams.invert.vec = ![-1, 3] ∧ sampleParams.invert.mat.val = !![1, -1; -1, 2] := by
  have h := TData.invert_of_det_ne_zero sampleParams
    (TData.det_ne_zero_of_isUnit _ sampleParams_isUnit)
  have hinv : sampleParams.mat.val⁻¹ = !![1, -1; -1, 2] := by
    show (!![2, 1; 1, 1] : Matrix (Fin 2) (Fin 2) ℚ)⁻¹ = _
    rw [Matrix.inv_def, Matrix.det_fin_two_of, Matrix.adjugate_fin_two_of]
    norm_num
  rw [h.2.1, h.1, hinv]
  constructor
  · show (!![1, -1; -1, 2] : Matrix (Fin 2) (Fin 2) ℚ).mulVec ![1, 2] = _
    ext i
    fin_cases i <;> simp [Matrix.mulVec, Matrix.dotProduct, Fin.sum_univ_two] <;> norm_num
  · rfl

/-- C1: for every fit state whose matrix `M` is invertible, `invert()` succeeds: afterwards
the matrix is `M⁻¹` (a two-sided inverse of `M`), the vector is the newly inverted matrix
times the old vector, i.e. `M⁻¹ * v_old`, the mode is toggled between PARAMETER and WEIGHT,
and the status is VALID. -/
theorem TData.invert_success (d : TData K n) (h : IsUnit d.mat.val) :
    d.invert.mat.val = d.mat.val⁻¹ ∧
    d.mat.val * d.invert.mat.val = 1 ∧
    d.invert.mat.val * d.mat.val = 1 ∧
    d.invert.vec = d.invert.mat.val.mulVec d.vec ∧
    d.invert.vec = (d.mat.val⁻¹).mulVec d.vec ∧
    (d.dtype = DataType.param → d.invert.dtype = DataType.weight) ∧
    (d.dtype = DataType.weight → d.invert.dtype = DataType.param) ∧
    d.invert.status = Status.valid := by
  have hdet : IsUnit d.mat.val.det := (Matrix.isUnit_iff_isUnit_det _).mp h
  obtain ⟨hm, hv, hb⟩ := TData.invert_of_det_ne_zero d (TData.det_ne_zero_of_isUnit d h)
  have hdt : d.invert.dtype = d.toTDataBase.invert.dtype := by rw [← hb]
  have hst : d.invert.status = d.toTDataBase.invert.status := by rw [← hb]
  refine ⟨hm, ?_, ?_, ?_, hv, ?_, ?_, ?_⟩
  · rw [hm]; exact Matrix.mul_nonsing_inv _ hdet
  · rw [hm]; exact Matrix.nonsing_inv_mul _ hdet
  · rw [hv, hm]
  · intro hp; rw [hdt]; simp only [TDataBase.invert, hp]
  · intro hw; rw [hdt]; simp only [TDataBase.invert, hw]
  · rw [hst]; rfl

/-- Witness for C1 at the sample parameter state. -/
theorem TData.invert_success_witness :
    IsUnit sampleParams.mat.val ∧
    sampleParams.invert.mat.val = sampleParams.mat.val⁻¹ ∧
    sampleParams.invert.vec = (sampleParams.mat.val⁻¹).mulVec sampleParams.vec ∧
    sampleParams.invert.dtype = DataType.weight ∧
    sampleParams.invert.status = Status.valid :=
  have h := TData.invert_success sampleParams sampleParams_isUnit
  ⟨sampleParams_isUnit, h.1, h.2.2.2.2.1, h.2.2.2.2.2.1 rfl, h.2.2.2.2.2.2.2⟩

/-- C2: for every fit state whose matrix is singular, `invert()` sets the status to INVALID
and leaves the vector, the matrix and the mode exactly as they were; the call is total, it
raises no error. -/
theorem TData.invert_singular (d : TData K n) (h : ¬ IsUnit d.mat.val) :
    d.invert.status = Status.invalid ∧
    d.invert.vec = d.vec ∧
    d.invert.mat = d.mat ∧
    d.invert.dtype = d.dtype := by
  have hdet : d.mat.val.det = 0 := by
    by_contra hne
    exact h ((Matrix.isUnit_iff_isUnit_det _).mpr (isUnit_iff_ne_zero.mpr hne))
  rw [TData.invert_of_det_eq_zero d hdet]
  exact ⟨rfl, rfl, rfl, rfl⟩

/-- Witness for C2 at the all-zero matrix. -/
theorem TData.invert_singular_witness :
    ¬ IsUnit sampleSingular.mat.val ∧
    sampleSingular.invert.status = Status.invalid ∧
    sampleSingular.invert.vec = ![1, 2] ∧
    sampleSingular.invert.mat.val = 0 ∧
    sampleSingular.invert.dtype = DataType.weight :=
  have h := TData.invert_singular sampleSingular sampleSingular_not_isUnit
  ⟨sampleSingular_not_isUnit, h.1, h.2.1, congrArg Subtype.val h.2.2.1, h.2.2.2⟩

/-- C3: duality round trip. For every fit state with an invertible matrix, applying
`invert()` twice reproduces the vector and the matrix exactly, returns the mode to its
original value, and leaves the status VALID. -/
theorem TData.invert_invert (d : TData K n) (h : IsUnit d.mat.val) :
    d.invert.invert.vec = d.vec ∧
    d.invert.invert.mat = d.mat ∧
    d.invert.invert.dtype = d.dtype ∧
    d.invert.invert.status = Status.valid := by
  have hdet : IsUnit d.mat.val.det := (Matrix.isUnit_iff_isUnit_det _).mp h
  obtain ⟨hm, hv, hb⟩ := TData.invert_of_det_ne_zero d (TData.det_ne_zero_of_isUnit d h)
  have h1 : IsUnit d.invert.mat.val := by
    rw [hm]; exact (Matrix.isUnit_nonsing_inv_iff).mpr h
  obtain ⟨hm2, hv2, hb2⟩ :=
    TData.invert_of_det_ne_zero d.invert (TData.det_ne_zero_of_isUnit d.invert h1)
  have hmm : d.invert.invert.mat.val = d.mat.val := by
    rw [hm2, hm]; exact Matrix.nonsing_inv_nonsing_inv _ hdet
  have hdt : d.invert.invert.dtype = d.invert.toTDataBase.invert.dtype := by rw [← hb2]
  have hst : d.invert.invert.status = d.invert.toTDataBase.invert.status := by rw [← hb2]
  refine ⟨?_, Subtype.ext hmm, ?_, ?_⟩
  · rw [hv2, hv, hm, Matrix.nonsing_inv_nonsing_inv _ hdet, Matrix.mulVec_mulVec,
      Matrix.mul_nonsing_inv _ hdet, Matrix.one_mulVec]
  · rw [hdt, hb]
    cases hd : d.dtype <;> simp only [TDataBase.invert, hd]
  · rw [hst]; rfl

/-- Witness for C3 at the sample parameter state. -/
theorem TData.invert_invert_witness :
    IsUnit sampleParams.mat.val ∧
    sampleParams.invert.invert.vec = ![1, 2] ∧
    sampleParams.invert.invert.mat = sampleParams.mat ∧
    sampleParams.invert.invert.dtype = DataType.param ∧
    sampleParams.invert.invert.status = Status.valid :=
  ⟨sampleParams_isUnit, TData.invert_invert sampleParams sampleParams_isUnit⟩

/-- C4: for every receiver state and every fit state `other` (a distinct object),
`invert(other)` leaves `other` unchanged and leaves the receiver in exactly the state
produced by copy-constructing from `other` with `doinvert = true`, which is the state of a
copy of `other` after `invert()`; the receiver's previous content has no influence. -/
theorem TData.invertFrom_eq_copy (self other : TData K n) :
    (TData.invertFrom (self, other)).2 = other ∧
    (TData.invertFrom (self, other)).1 = TData.copy other true ∧
    (TData.invertFrom (self, other)).1 = (TData.copy other false).invert ∧
    (TData.copy other false = other) ∧
    ∀ prev : TData K n,
      (TData.invertFrom (prev, other)).1 = (TData.invertFrom (self, other)).1 := by
  refine ⟨rfl, rfl, rfl, rfl, fun _ => rfl⟩

end TDataTheorems

/-! ## Theorems: C library functions and rotations -/

/-- The speed of light is positive. -/
theorem c_light_pos : 0 < c_light := by
  unfold c_light
  norm_num

/-- Cosine of `atan2 y x` away from the origin. -/
theorem cos_atan2 (y x : ℝ) (h : x ≠ 0 ∨ y ≠ 0) :
    Real.cos (atan2 y x) = x / Real.sqrt (x * x + y * y) := by
  have hne : (⟨x, y⟩ : ℂ) ≠ 0 := by
    intro h0
    have h1 := congrArg Complex.re h0
    have h2 := congrArg Complex.im h0
    simp only [Complex.zero_re, Complex.zero_im] at h1 h2
    rcases h with h | h
    · exact h h1
    · exact h h2
  unfold atan2
  rw [Complex.cos_arg hne, Complex.abs_apply, Complex.normSq_mk]

/-- Sine of `atan2 y x`. -/
theorem sin_atan2 (y x : ℝ) :
    Real.sin (atan2 y x) = y / Real.sqrt (x * x + y * y) := by
  unfold atan2
  rw [Complex.sin_arg, Complex.abs_apply, Complex.normSq_mk]

/-- On the non-negative x axis `atan2` is zero. -/
theorem atan2_zero_of_nonneg (x : ℝ) (h : 0 ≤ x) : atan2 0 x = 0 := by
  unfold atan2
  have : (⟨x, 0⟩ : ℂ) = ((x : ℝ) : ℂ) := rfl
  rw [this, Complex.arg_ofReal_of_nonneg h]

/-- The rotation axis `(sin a, -cos a, 0)` is already a unit vector. -/
theorem Vec3.Unit_axis (a : ℝ) :
    (Vec3.mk (Real.sin a) (-Real.cos a) 0).Unit = Vec3.mk (Real.sin a) (-Real.cos a) 0 := by
  have hR : (Vec3.mk (Real.sin a) (-Real.cos a) 0).R = 1 := by
    unfold Vec3.R
    have : Real.sin a * Real.sin a + -Real.cos a * -Real.cos a + 0 * 0 = 1 := by
      have := Real.sin_sq_add_cos_sq a
      nlinarith
    rw [this, Real.sqrt_one]
  unfold Vec3.Unit
  rw [hR]
  simp

/-- The components of the rotation about `(sin a, -cos a, 0)` by the angle `th`. -/
theorem Rotation3D.ofAxisAngle_axis (a th : ℝ) :
    Rotation3D.ofAxisAngle ⟨Real.sin a, -Real.cos a, 0⟩ th =
      { xx := (1 - Real.cos th) * Real.sin a * Real.sin a + Real.cos th
        xy := (1 - Real.cos th) * Real.sin a * (-Real.cos a)
        xz := Real.sin th * (-Real.cos a)
        yx := (1 - Real.cos th) * (-Real.cos a) * Real.sin a
        yy := (1 - Real.cos th) * (-Real.cos a) * (-Real.cos a) + Real.cos th
        yz := -(Real.sin th * Real.sin a)
        zx := -(Real.sin th * (-Real.cos a))
        zy := Real.sin th * Real.sin a
        zz := Real.cos th } := by
  unfold Rotation3D.ofAxisAngle
  rw [Vec3.Unit_axis]
  simp

/-- The rotation about `(sin a, -cos a, 0)` is orthogonal. -/
theorem Rotation3D.ofAxisAngle_axis_isOrthogonal (a th : ℝ) :
    (Rotation3D.ofAxisAngle ⟨Real.sin a, -Real.cos a, 0⟩ th).IsOrthogonal := by
  rw [Rotation3D.ofAxisAngle_axis]
  unfold Rotation3D.IsOrthogonal
  have h1 := Real.sin_sq_add_cos_sq a
  have h2 := Real.sin_sq_add_cos_sq th
  generalize Real.sin a = sa at *
  generalize Real.cos a = ca at *
  generalize Real.sin th = s at *
  generalize Real.cos th = c at *
  simp only
  refine ⟨?_, ?_, ?_, ?_, ?_, ?_⟩
  · linear_combination ((1 - c) ^ 2 * sa ^ 2 + s ^ 2) * h1 + (1 - sa ^ 2) * h2
  · linear_combination ((1 - c) ^ 2 * ca ^ 2 + s ^ 2) * h1 + (1 - ca ^ 2) * h2
  · linear_combination s ^ 2 * h1 + h2
  · linear_combination (-((1 - c) ^ 2 * sa * ca)) * h1 + sa * ca * h2
  · ring
  · ring

/-- The inverse of the rotation about `(sin a, -cos a, 0)` is the rotation by the opposite
angle. -/
theorem Rotation3D.ofAxisAngle_axis_Inverse (a th : ℝ) :
    (Rotation3D.ofAxisAngle ⟨Real.sin a, -Real.cos a, 0⟩ th).Inverse =
      Rotation3D.ofAxisAngle ⟨Real.sin a, -Real.cos a, 0⟩ (-th) := by
  rw [Rotation3D.ofAxisAngle_axis, Rotation3D.ofAxisAngle_axis]
  unfold Rotation3D.Inverse
  rw [Rotation3D.mk.injEq]
  simp only [Real.sin_neg, Real.cos_neg]
  refine ⟨trivial, ?_, ?_, ?_, trivial, ?_, ?_, ?_, trivial⟩ <;> ring

/-- An orthogonal rotation is undone by its inverse. -/
theorem Rotation3D.Inverse_apply_apply (r : Rotation3D) (h : r.IsOrthogonal) (v : Vec3) :
    r.Inverse.apply (r.apply v) = v := by
  obtain ⟨h1, h2, h3, h4, h5, h6⟩ := h
  obtain ⟨x, y, z⟩ := v
  unfold Rotation3D.Inverse Rotation3D.apply
  simp only [Vec3.mk.injEq]
  refine ⟨?_, ?_, ?_⟩
  · linear_combination x * h1 + y * h4 + z * h5
  · linear_combination x * h4 + y * h2 + z * h6
  · linear_combination x * h5 + y * h6 + z * h3

/-- An orthogonal rotation preserves scalar products. -/
theorem Rotation3D.Dot_apply (r : Rotation3D) (h : r.IsOrthogonal) (u v : Vec3) :
    (r.apply u).Dot (r.apply v) = u.Dot v := by
  obtain ⟨h1, h2, h3, h4, h5, h6⟩ := h
  unfold Rotation3D.apply Vec3.Dot
  simp only
  linear_combination (u.x * v.x) * h1 + (u.y * v.y) * h2 + (u.z * v.z) * h3 +
    (u.x * v.y + u.y * v.x) * h4 + (u.x * v.z + u.z * v.x) * h5 + (u.y * v.z + u.z * v.y) * h6

/-- The field rotation is orthogonal. -/
theorem LHelix.fieldRotation_isOrthogonal (b : Vec3) :
    (LHelix.fieldRotation b).IsOrthogonal :=
  Rotation3D.ofAxisAngle_axis_isOrthogonal _ _

/-- The inverse of the field rotation is orthogonal. -/
theorem LHelix.fieldRotation_Inverse_isOrthogonal (b : Vec3) :
    (LHelix.fieldRotation b).Inverse.IsOrthogonal := by
  unfold LHelix.fieldRotation
  rw [Rotation3D.ofAxisAngle_axis_Inverse]
  exact Rotation3D.ofAxisAngle_axis_isOrthogonal _ _

/-- The field rotation maps the field onto the positive z axis. -/
theorem LHelix.fieldRotation_apply_bnom (b : Vec3) :
    (LHelix.fieldRotation b).apply b = ⟨0, 0, b.R⟩ := by
  unfold LHelix.fieldRotation
  rw [Rotation3D.ofAxisAngle_axis]
  have hrho0 : 0 ≤ b.x * b.x + b.y * b.y :=
    add_nonneg (mul_self_nonneg _) (mul_self_nonneg _)
  have hrho : b.Rho * b.Rho = b.x * b.x + b.y * b.y := by
    unfold Vec3.Rho
    exact Real.mul_self_sqrt hrho0
  have hr0 : 0 ≤ b.x * b.x + b.y * b.y + b.z * b.z :=
    add_nonneg hrho0 (mul_self_nonneg _)
  have hr : b.R * b.R = b.x * b.x + b.y * b.y + b.z * b.z := by
    unfold Vec3.R
    exact Real.mul_self_sqrt hr0
  have hRz : Real.sqrt (b.z * b.z + b.Rho * b.Rho) = b.R := by
    unfold Vec3.R
    rw [hrho]
    congr 1
    ring
  have hsinth : Real.sin b.Theta = b.Rho / b.R := by
    unfold Vec3.Theta
    rw [sin_atan2, hRz]
  have hsinph : Real.sin b.Phi = b.y / b.Rho := by
    unfold Vec3.Phi Vec3.Rho
    rw [sin_atan2]
  unfold Rotation3D.apply
  simp only [Vec3.mk.injEq]
  by_cases hz : b.Rho = 0
  · -- the field is along the z axis (or zero)
    have hsum : b.x * b.x + b.y * b.y = 0 := by rw [← hrho, hz]; ring
    have hx : b.x = 0 := by nlinarith [mul_self_nonneg b.x, mul_self_nonneg b.y]
    have hy : b.y = 0 := by nlinarith [mul_self_nonneg b.x, mul_self_nonneg b.y]
    have hs0 : Real.sin b.Theta = 0 := by rw [hsinth, hz]; simp
    have hRabs : b.R = |b.z| := by
      unfold Vec3.R
      rw [hx, hy]
      simp only [mul_zero, zero_add]
      exact Real.sqrt_mul_self_eq_abs b.z
    have hcz : Real.cos b.Theta * b.z = b.R := by
      rcases le_or_lt 0 b.z with hpos | hneg
      · have hth : b.Theta = 0 := by
          unfold Vec3.Theta
          rw [hz]
          exact atan2_zero_of_nonneg _ hpos
        rw [hth, Real.cos_zero, hRabs, abs_of_nonneg hpos]
        ring
      · have hcos : Real.cos b.Theta = b.z / b.R := by
          unfold Vec3.Theta
          rw [cos_atan2 _ _ (Or.inl (ne_of_lt hneg)), hRz]
        rw [hcos, hRabs, abs_of_neg hneg]
        have : b.z ≠ 0 := ne_of_lt hneg
        field_simp
    rw [hx, hy, hs0]
    refine ⟨by ring, by ring, ?_⟩
    linear_combination hcz
  · -- the field has a transverse component
    have hRne : b.R ≠ 0 := by
      intro h0
      have : b.Rho * b.Rho + b.z * b.z = 0 := by rw [hrho, ← hr, h0]; ring
      have : b.Rho = 0 := by nlinarith [mul_self_nonneg b.Rho, mul_self_nonneg b.z]
      exact hz this
    have hcosth : Real.cos b.Theta = b.z / b.R := by
      unfold Vec3.Theta
      rw [cos_atan2 _ _ (Or.inr hz), hRz]
    have hxy : b.x ≠ 0 ∨ b.y ≠ 0 := by
      by_contra hcon
      push_neg at hcon
      apply hz
      have : b.Rho * b.Rho = 0 := by rw [hrho, hcon.1, hcon.2]; ring
      exact mul_self_eq_zero.mp this
    have hcosph : Real.cos b.Phi = b.x / b.Rho := by
      unfold Vec3.Phi Vec3.Rho
      rw [cos_atan2 _ _ hxy]
    rw [hsinth, hcosth, hsinph, hcosph]
    refine ⟨?_, ?_, ?_⟩
    · field_simp
      ring
    · field_simp
      ring
    · field_simp
      linear_combination (-(b.Rho * b.R)) * hr

/-! ## Theorems: the phase-space constructor -/

/-- The constructor never throws: it returns the helix whose parameters are computed from
the working-frame position and momentum. -/
theorem LHelix.construct_eq (pos0 : Vec4) (mom0 : Mom4) (charge : ℤ) (bnom : Vec3)
    (trange : TRange) :
    LHelix.construct pos0 mom0 charge bnom trange =
      Except.ok (LHelix.setParameters (LHelix.initMembers mom0 charge bnom trange)
        (LHelix.workingPos pos0 bnom) (LHelix.workingMom mom0 bnom)) := by
  have htest : ¬ (|((LHelix.fieldRotation bnom).apply bnom).Theta| > 1.0e-6) := by
    rw [LHelix.fieldRotation_apply_bnom]
    have h0 : (Vec3.mk 0 0 bnom.R).Theta = 0 := by
      unfold Vec3.Theta Vec3.Rho
      simp only [mul_zero, add_zero, Real.sqrt_zero]
      exact atan2_zero_of_nonneg _ (Real.sqrt_nonneg _)
    rw [h0]
    norm_num
  unfold LHelix.construct LHelix.initMembers LHelix.workingPos LHelix.workingMom
  by_cases hrot : |bnom.Theta| > 1.0e-6
  · simp only [if_pos hrot, if_neg htest, decide_eq_true hrot]
  · simp only [if_neg hrot, decide_eq_false hrot]

/-- The members and parameters left by the parameter computation of the constructor. -/
theorem LHelix.setParameters_members (h0 : LHelix) (pos : Vec4) (mom : Mom4) (h : LHelix)
    (hh : h = LHelix.setParameters h0 pos mom) :
    h.mass = h0.mass ∧ h.charge = h0.charge ∧ h.trange = h0.trange ∧ h.bnom = h0.bnom ∧
    h.needsrot = h0.needsrot ∧ h.brot = h0.brot ∧
    h.mbar = -h0.mass * LHelix.momToRad h0.charge h0.bnom ∧
    h.rad = -mom.Pt * LHelix.momToRad h0.charge h0.bnom ∧
    h.lam = -mom.pz * LHelix.momToRad h0.charge h0.bnom ∧
    h.t0 = pos.t - pos.z / (h.omega * h.lam) ∧
    h.phi0 = mom.Phi - h.omega * (pos.t - h.t0) +
      2 * Real.pi * rint ((pos.z / h.lam - mom.Phi) / (2 * Real.pi)) ∧
    h.cx = pos.x + mom.py * LHelix.momToRad h0.charge h0.bnom ∧
    h.cy = pos.y - mom.px * LHelix.momToRad h0.charge h0.bnom := by
  subst hh
  simp [LHelix.setParameters, LHelix.setParam, LHelix.momToRad, LHelix.rad, LHelix.lam,
    LHelix.t0, LHelix.phi0, LHelix.cx, LHelix.cy, LHelix.omega, LHelix.ebar, Function.update]

/-- The scale factor is non-zero for a non-zero charge and a non-zero field. -/
theorem LHelix.momToRad_ne_zero (charge : ℤ) (bnom : Vec3) (hq : charge ≠ 0)
    (hb : bnom.R ≠ 0) : LHelix.momToRad charge bnom ≠ 0 := by
  unfold LHelix.momToRad
  have hq2 : (charge : ℝ) ≠ 0 := Int.cast_ne_zero.mpr hq
  have hc : c_light ≠ 0 := ne_of_gt c_light_pos
  have hden : (charge : ℝ) * bnom.R * c_light ≠ 0 := mul_ne_zero (mul_ne_zero hq2 hb) hc
  exact div_ne_zero (by norm_num) hden

/-- The value of `rint` is an integer. -/
theorem rint_eq_intCast (x : ℝ) : ∃ n : ℤ, rint x = (n : ℝ) := by
  unfold rint
  simp only
  split_ifs
  · exact ⟨⌊x⌋, rfl⟩
  · exact ⟨⌊x⌋ + 1, by push_cast; ring⟩
  · exact ⟨⌊x⌋, rfl⟩
  · exact ⟨⌊x⌋ + 1, by push_cast; ring⟩

/-- The angular velocity is non-zero when the wavelength is. -/
theorem LHelix.omega_ne_zero (h : LHelix) (hl : h.lam ≠ 0) : h.omega ≠ 0 := by
  unfold LHelix.omega
  have he : 0 < h.rad * h.rad + h.lam * h.lam + h.mbar * h.mbar := by
    have := mul_self_pos.mpr hl
    nlinarith [mul_self_nonneg h.rad, mul_self_nonneg h.mbar]
  have hebar : h.ebar ≠ 0 := by
    unfold LHelix.ebar
    exact ne_of_gt (Real.sqrt_pos.mpr he)
  have hcs : copysign c_light h.mbar ≠ 0 := by
    unfold copysign
    have := abs_pos.mpr (ne_of_gt c_light_pos)
    split_ifs
    · exact ne_of_gt this
    · exact ne_of_lt (by linarith)
  exact div_ne_zero hcs hebar

/-- Sine and cosine of the momentum azimuth, for a non-zero transverse momentum. -/
theorem Mom4.sin_cos_Phi (p : Mom4) (hpt : p.Pt ≠ 0) :
    Real.sin p.Phi = p.py / p.Pt ∧ Real.cos p.Phi = p.px / p.Pt := by
  have hxy : p.px ≠ 0 ∨ p.py ≠ 0 := by
    by_contra hcon
    push_neg at hcon
    apply hpt
    unfold Mom4.Pt
    rw [hcon.1, hcon.2]
    simp
  unfold Mom4.Phi Mom4.Pt
  exact ⟨sin_atan2 _ _, cos_atan2 _ _ hxy⟩

/-- Working-frame reconstruction: at the input time the helix built by the parameter
computation passes through the input position with the input momentum. -/
theorem LHelix.setParameters_reproduces (h0 : LHelix) (pos : Vec4) (mom : Mom4) (h : LHelix)
    (hh : h = LHelix.setParameters h0 pos mom)
    (hm : h0.mass ≠ 0) (hq : h0.charge ≠ 0) (hb : h0.bnom.R ≠ 0)
    (hpt : mom.Pt ≠ 0) (hpz : mom.pz ≠ 0) :
    h.cx + h.rad * Real.sin (h.dphi pos.t + h.phi0) = pos.x ∧
    h.cy - h.rad * Real.cos (h.dphi pos.t + h.phi0) = pos.y ∧
    h.dphi pos.t * h.lam = pos.z ∧
    h.mass / h.mbar * h.rad * Real.cos (h.phi pos.t) = mom.px ∧
    h.mass / h.mbar * h.rad * Real.sin (h.phi pos.t) = mom.py ∧
    h.mass / h.mbar * h.lam = mom.pz := by
  obtain ⟨hmass, -, -, -, -, -, hmbar, hrad, hlam, ht0, hphi0, hcx, hcy⟩ :=
    LHelix.setParameters_members h0 pos mom h hh
  have hk : LHelix.momToRad h0.charge h0.bnom ≠ 0 := LHelix.momToRad_ne_zero _ _ hq hb
  generalize LHelix.momToRad h0.charge h0.bnom = k at *
  have hlam0 : h.lam ≠ 0 := by rw [hlam]; exact mul_ne_zero (neg_ne_zero.mpr hpz) hk
  have hom : h.omega ≠ 0 := LHelix.omega_ne_zero h hlam0
  have hdphi : h.dphi pos.t = pos.z / h.lam := by
    unfold LHelix.dphi
    rw [ht0]
    field_simp
    ring
  obtain ⟨n, hn⟩ := rint_eq_intCast ((pos.z / h.lam - mom.Phi) / (2 * Real.pi))
  have hphase : h.dphi pos.t + h.phi0 = mom.Phi + n * (2 * Real.pi) := by
    rw [hphi0, hn]
    have : h.omega * (pos.t - h.t0) = h.dphi pos.t := rfl
    rw [this]
    ring
  have hsin : Real.sin (h.dphi pos.t + h.phi0) = mom.py / mom.Pt := by
    rw [hphase, Real.sin_add_int_mul_two_pi]
    exact (Mom4.sin_cos_Phi mom hpt).1
  have hcos : Real.cos (h.dphi pos.t + h.phi0) = mom.px / mom.Pt := by
    rw [hphase, Real.cos_add_int_mul_two_pi]
    exact (Mom4.sin_cos_Phi mom hpt).2
  have hphi : h.phi pos.t = h.dphi pos.t + h.phi0 := rfl
  rw [hphi, hsin, hcos, hdphi, hcx, hcy, hrad, hlam, hmbar, hmass]
  refine ⟨?_, ?_, ?_, ?_, ?_, ?_⟩ <;> field_simp <;> ring

/-- Lab-frame reconstruction for the helix computed by the constructor: at the input time
it passes through the input position with the input momentum. -/
theorem LHelix.setParameters_lab (pos0 : Vec4) (mom0 : Mom4) (charge : ℤ) (bnom : Vec3)
    (trange : TRange) (h : LHelix)
    (hh : h = LHelix.setParameters (LHelix.initMembers mom0 charge bnom trange)
      (LHelix.workingPos pos0 bnom) (LHelix.workingMom mom0 bnom))
    (hm : mom0.m ≠ 0) (hq : charge ≠ 0) (hb : bnom.R ≠ 0)
    (hpt : (LHelix.workingMom mom0 bnom).Pt ≠ 0) (hpz : (LHelix.workingMom mom0 bnom).pz ≠ 0) :
    h.position pos0.t = ⟨pos0.x, pos0.y, pos0.z⟩ ∧ h.momentum pos0.t = mom0 := by
  obtain ⟨hmass, -, -, -, hrotflag, hbrot, -⟩ :=
    LHelix.setParameters_members _ _ _ h hh
  have ht : (LHelix.workingPos pos0 bnom).t = pos0.t := by
    unfold LHelix.workingPos Rotation3D.applyVec4
    split_ifs <;> rfl
  obtain ⟨hx, hy, hz, hpx, hpy, hpz2⟩ :=
    LHelix.setParameters_reproduces _ _ _ h hh hm hq hb hpt hpz
  rw [ht] at hx hy hz hpx hpy
  have hmass2 : h.mass = mom0.m := hmass
  rw [hmass2] at hpx hpy hpz2
  unfold LHelix.position LHelix.momentum
  simp only [hx, hy, hz, hpx, hpy, hpz2, hmass2, hrotflag, hbrot]
  unfold LHelix.initMembers LHelix.workingPos LHelix.workingMom
  by_cases hrot : |bnom.Theta| > 1.0e-6
  · simp only [if_pos hrot, decide_eq_true hrot, if_true]
    have horth := LHelix.fieldRotation_isOrthogonal bnom
    constructor
    · exact Rotation3D.Inverse_apply_apply _ horth ⟨pos0.x, pos0.y, pos0.z⟩
    · have := Rotation3D.Inverse_apply_apply _ horth mom0.Vect
      unfold Rotation3D.applyMom4
      simp only [Mom4.Vect] at this ⊢
      rw [this]
  · simp only [if_neg hrot, decide_eq_false hrot]
    exact ⟨rfl, rfl⟩

/-- The sample field has polar angle zero and length one. -/
theorem sampleField_Theta_R : sampleField.Theta = 0 ∧ sampleField.R = 1 := by
  unfold sampleField Vec3.Theta Vec3.Rho Vec3.R
  simp only [mul_zero, add_zero, zero_add, mul_one, Real.sqrt_zero, Real.sqrt_one]
  exact ⟨atan2_zero_of_nonneg 1 zero_le_one, trivial⟩

/-- Along the sample field the working frame is the lab frame. -/
theorem sampleField_working (pos0 : Vec4) (mom0 : Mom4) :
    LHelix.workingPos pos0 sampleField = pos0 ∧ LHelix.workingMom mom0 sampleField = mom0 := by
  have hrot : ¬ (|sampleField.Theta| > 1.0e-6) := by
    rw [sampleField_Theta_R.1]
    norm_num
  unfold LHelix.workingPos LHelix.workingMom
  simp only [if_neg hrot, and_self]

/-- The sample momentum has transverse momentum 100. -/
theorem sampleMom_Pt : sampleMom.Pt = 100 := by
  unfold sampleMom Mom4.Pt
  have : (100 : ℝ) * 100 + 0 * 0 = 100 * 100 := by ring
  simp only [this]
  exact Real.sqrt_mul_self (by norm_num)

/-- C5: trajectory reconstruction fidelity. For every lab-frame 4-position `(x, y, z, T)`,
every 4-momentum with non-zero mass and with non-zero transverse and longitudinal momentum
(taken, as everywhere in the helix, relative to the field direction), every non-zero
integer charge and every non-zero nominal field vector, aligned with z or tilted, the
phase-space constructor returns a helix whose `position(T)` is `(x, y, z)` and whose
`momentum(T)` is the input momentum (same px, py, pz and mass). -/
theorem LHelix.construct_reconstruction (pos0 : Vec4) (mom0 : Mom4) (charge : ℤ)
    (bnom : Vec3) (trange : TRange)
    (hm : mom0.m ≠ 0) (hq : charge ≠ 0) (hb : bnom.R ≠ 0)
    (hpt : (LHelix.workingMom mom0 bnom).Pt ≠ 0) (hpz : (LHelix.workingMom mom0 bnom).pz ≠ 0) :
    ∃ h : LHelix, LHelix.construct pos0 mom0 charge bnom trange = Except.ok h ∧
      h.position pos0.t = ⟨pos0.x, pos0.y, pos0.z⟩ ∧ h.momentum pos0.t = mom0 :=
  ⟨_, LHelix.construct_eq pos0 mom0 charge bnom trange,
    LHelix.setParameters_lab pos0 mom0 charge bnom trange _ rfl hm hq hb hpt hpz⟩

/-- Witness for C5: an electron with transverse momentum 100 and longitudinal momentum 50
in a field of 1 Tesla along z. -/
theorem LHelix.construct_reconstruction_witness :
    (sampleMom.m ≠ 0 ∧ (-1 : ℤ) ≠ 0 ∧ sampleField.R ≠ 0 ∧
      (LHelix.workingMom sampleMom sampleField).Pt ≠ 0 ∧
      (LHelix.workingMom sampleMom sampleField).pz ≠ 0) ∧
    ∃ h : LHelix, LHelix.construct samplePos sampleMom (-1) sampleField sampleRange =
        Except.ok h ∧
      h.position samplePos.t = ⟨samplePos.x, samplePos.y, samplePos.z⟩ ∧
      h.momentum samplePos.t = sampleMom := by
  have h1 : sampleMom.m ≠ 0 := by unfold sampleMom; norm_num
  have h2 : (-1 : ℤ) ≠ 0 := by decide
  have h3 : sampleField.R ≠ 0 := by rw [sampleField_Theta_R.2]; exact one_ne_zero
  have h4 : (LHelix.workingMom sampleMom sampleField).Pt ≠ 0 := by
    rw [(sampleField_working samplePos sampleMom).2, sampleMom_Pt]
    norm_num
  have h5 : (LHelix.workingMom sampleMom sampleField).pz ≠ 0 := by
    rw [(sampleField_working samplePos sampleMom).2]
    unfold sampleMom
    norm_num
  exact ⟨⟨h1, h2, h3, h4, h5⟩,
    LHelix.construct_reconstruction samplePos sampleMom (-1) sampleField sampleRange
      h1 h2 h3 h4 h5⟩

/-- The constructor stores the zero radius for a momentum along the field, although the
charge is negative: C6 as stated ("the radius is positive exactly when the charge is
negative", for every input with non-zero charge and field) fails there. -/
theorem LHelix.construct_radius_sign_counterexample :
    LHelix.construct samplePos alongFieldMom (-1) sampleField sampleRange =
      Except.ok alongFieldHelix ∧
    (-1 : ℤ) ≠ 0 ∧ sampleField.R ≠ 0 ∧
    alongFieldHelix.rad = 0 ∧
    ¬ (0 < alongFieldHelix.rad ↔ (-1 : ℤ) < 0) := by
  have hrad : alongFieldHelix.rad = 0 := by
    have h := (LHelix.setParameters_members _ _ _ alongFieldHelix rfl).2.2.2.2.2.2.2.1
    rw [h, (sampleField_working samplePos alongFieldMom).2]
    unfold alongFieldMom Mom4.Pt
    simp
  refine ⟨LHelix.construct_eq _ _ _ _ _, by decide, ?_, hrad, ?_⟩
  · rw [sampleField_Theta_R.2]; exact one_ne_zero
  · rw [hrad]
    intro hiff
    exact lt_irrefl (0 : ℝ) (hiff.mpr (by decide))

/-- C6 (amended): for every input with non-zero charge and non-zero field the constructor
returns a helix storing, with `k = 1000 / (charge * |B| * c_light)` and `(px, py, pz)`
the momentum and `(x, y)` the position in the field-aligned frame: `radius = -pt * k`,
`wavelength = -pz * k`, `mbar = -mass * k`, `centerX = x + py * k`,
`centerY = y - px * k`. The radius has magnitude `pt * 1000 / (|charge| * |B| * c_light)`
and is positive exactly when the charge is negative and the transverse momentum is
non-zero. -/
theorem LHelix.construct_parameters (pos0 : Vec4) (mom0 : Mom4) (charge : ℤ)
    (bnom : Vec3) (trange : TRange) (hq : charge ≠ 0) (hb : bnom.R ≠ 0) :
    ∃ h : LHelix, LHelix.construct pos0 mom0 charge bnom trange = Except.ok h ∧
      h.rad = -(LHelix.workingMom mom0 bnom).Pt * (1000 / ((charge : ℝ) * bnom.R * c_light)) ∧
      h.lam = -(LHelix.workingMom mom0 bnom).pz * (1000 / ((charge : ℝ) * bnom.R * c_light)) ∧
      h.mbar = -mom0.m * (1000 / ((charge : ℝ) * bnom.R * c_light)) ∧
      h.cx = (LHelix.workingPos pos0 bnom).x +
        (LHelix.workingMom mom0 bnom).py * (1000 / ((charge : ℝ) * bnom.R * c_light)) ∧
      h.cy = (LHelix.workingPos pos0 bnom).y -
        (LHelix.workingMom mom0 bnom).px * (1000 / ((charge : ℝ) * bnom.R * c_light)) ∧
      |h.rad| = (LHelix.workingMom mom0 bnom).Pt * 1000 / (|(charge : ℝ)| * bnom.R * c_light) ∧
      (0 < h.rad ↔ charge < 0 ∧ (LHelix.workingMom mom0 bnom).Pt ≠ 0) := by
  refine ⟨_, LHelix.construct_eq pos0 mom0 charge bnom trange, ?_⟩
  obtain ⟨-, -, -, -, -, -, hmbar, hrad, hlam, -, -, hcx, hcy⟩ :=
    LHelix.setParameters_members _ _ _ _
      (rfl : LHelix.setParameters (LHelix.initMembers mom0 charge bnom trange)
        (LHelix.workingPos pos0 bnom) (LHelix.workingMom mom0 bnom) = _)
  have hk : LHelix.momToRad charge bnom = 1000 / ((charge : ℝ) * bnom.R * c_light) := by
    unfold LHelix.momToRad
    norm_num
  have hinit : (LHelix.initMembers mom0 charge bnom trange).charge = charge ∧
      (LHelix.initMembers mom0 charge bnom trange).bnom = bnom ∧
      (LHelix.initMembers mom0 charge bnom trange).mass = mom0.m := ⟨rfl, rfl, rfl⟩
  rw [hinit.1, hinit.2.1, hk] at hmbar hrad hlam hcx hcy
  rw [hinit.2.2] at hmbar
  have hR : 0 < bnom.R := lt_of_le_of_ne (Real.sqrt_nonneg _) (Ne.symm hb)
  have hpt0 : 0 ≤ (LHelix.workingMom mom0 bnom).Pt := Real.sqrt_nonneg _
  have hc := c_light_pos
  have hqr : (charge : ℝ) ≠ 0 := Int.cast_ne_zero.mpr hq
  refine ⟨hrad, hlam, hmbar, hcx, hcy, ?_, ?_⟩
  · rw [hrad, abs_mul, abs_neg, abs_of_nonneg hpt0, abs_div, abs_mul, abs_mul,
      abs_of_pos hR, abs_of_pos hc]
    have : |(1000 : ℝ)| = 1000 := abs_of_pos (by norm_num)
    rw [this]
    ring
  · rw [hrad]
    rcases lt_or_gt_of_ne hq with hneg | hpos
    · have hqneg : (charge : ℝ) < 0 := Int.cast_lt_zero.mpr hneg
      have hkneg : 1000 / ((charge : ℝ) * bnom.R * c_light) < 0 := by
        apply div_neg_of_pos_of_neg (by norm_num)
        exact mul_neg_of_neg_of_pos (mul_neg_of_neg_of_pos hqneg hR) hc
      constructor
      · intro hpos
        refine ⟨hneg, ?_⟩
        intro h0
        rw [h0] at hpos
        simp at hpos
      · rintro ⟨-, hne⟩
        have hptpos : 0 < (LHelix.workingMom mom0 bnom).Pt := lt_of_le_of_ne hpt0 (Ne.symm hne)
        nlinarith
    · have hqpos : (0 : ℝ) < charge := Int.cast_pos.mpr hpos
      have hkpos : 0 < 1000 / ((charge : ℝ) * bnom.R * c_light) := by
        apply div_pos (by norm_num)
        exact mul_pos (mul_pos hqpos hR) hc
      constructor
      · intro hp
        exfalso
        nlinarith
      · rintro ⟨hneg, -⟩
        exact absurd hneg (not_lt.mpr (le_of_lt hpos))

/-- Witness for C6: charge -1, field (0, 0, 1), transverse momentum 100 and longitudinal
momentum 50 give the positive radius `100 * 1000 / c_light`. -/
theorem LHelix.construct_parameters_witness :
    ((-1 : ℤ) ≠ 0 ∧ sampleField.R ≠ 0) ∧
    ∃ h : LHelix, LHelix.construct samplePos sampleMom (-1) sampleField sampleRange =
        Except.ok h ∧
      h.rad = 100 * 1000 / c_light ∧ 0 < h.rad := by
  have h2 : (-1 : ℤ) ≠ 0 := by decide
  have h3 : sampleField.R ≠ 0 := by rw [sampleField_Theta_R.2]; exact one_ne_zero
  obtain ⟨h, hc, hrad, -, -, -, -, -, hsign⟩ :=
    LHelix.construct_parameters samplePos sampleMom (-1) sampleField sampleRange h2 h3
  rw [(sampleField_working samplePos sampleMom).2, sampleMom_Pt] at hrad hsign
  refine ⟨⟨h2, h3⟩, h, hc, ?_, hsign.mpr ⟨by decide, by norm_num⟩⟩
  rw [hrad, sampleField_Theta_R.2]
  have hc0 : c_light ≠ 0 := ne_of_gt c_light_pos
  push_cast
  field_simp

/-! ## Theorems: winding correction -/

/-- The distance from a number to its `rint`: at most one half either way, and exactly
plus one half only at an even integer plus one half (a tie is rounded down to the even
neighbour). -/
theorem rint_sub_bounds (x : ℝ) :
    -(1 / 2) ≤ x - rint x ∧ x - rint x ≤ 1 / 2 ∧
    (x - rint x = 1 / 2 ↔ ∃ m : ℤ, x = 2 * (m : ℝ) + 1 / 2) := by
  have hf := Int.floor_le x
  have hf2 := Int.lt_floor_add_one x
  have key : ∀ m : ℤ, x = 2 * (m : ℝ) + 1 / 2 → ⌊x⌋ = 2 * m ∧ x - (⌊x⌋ : ℝ) = 1 / 2 := by
    intro m hm
    have hfl : ⌊x⌋ = 2 * m := by
      rw [Int.floor_eq_iff]
      push_cast
      constructor <;> linarith
    refine ⟨hfl, ?_⟩
    rw [hfl]
    push_cast
    linarith
  unfold rint
  simp only
  split_ifs with h1 h2 h3
  · refine ⟨by linarith, by linarith, ?_⟩
    constructor
    · intro h; linarith
    · rintro ⟨m, hm⟩
      have := (key m hm).2
      linarith
  · refine ⟨by linarith, by linarith, ?_⟩
    constructor
    · intro h; linarith
    · rintro ⟨m, hm⟩
      have := (key m hm).2
      linarith
  · have heq : x - (⌊x⌋ : ℝ) = 1 / 2 := le_antisymm (not_lt.mp h2) (not_lt.mp h1)
    refine ⟨by linarith, by linarith, ?_⟩
    constructor
    · intro _
      obtain ⟨m, hm⟩ := h3
      refine ⟨m, ?_⟩
      have hc : (⌊x⌋ : ℝ) = (m : ℝ) + (m : ℝ) := by rw [hm]; push_cast; ring
      linarith
    · intro _
      exact heq
  · have heq : x - (⌊x⌋ : ℝ) = 1 / 2 := le_antisymm (not_lt.mp h2) (not_lt.mp h1)
    refine ⟨by linarith, by linarith, ?_⟩
    constructor
    · intro h; linarith
    · rintro ⟨m, hm⟩
      exfalso
      apply h3
      rw [(key m hm).1]
      exact even_two_mul m

/-- The azimuth stored by the parameter computation, for a non-zero wavelength and angular
velocity: the winding correction leaves it in the closed interval from `-π` to `π`, and at
`-π` exactly when `(z / lambda - phibar) / (2π)` is an even integer plus one half. -/
theorem LHelix.setParameters_phi0 (h0 : LHelix) (pos : Vec4) (mom : Mom4) (h : LHelix)
    (hh : h = LHelix.setParameters h0 pos mom) (hl : h.lam ≠ 0) (ho : h.omega ≠ 0) :
    h.phi0 = mom.Phi - pos.z / h.lam +
      2 * Real.pi * rint ((pos.z / h.lam - mom.Phi) / (2 * Real.pi)) ∧
    -Real.pi ≤ h.phi0 ∧ h.phi0 ≤ Real.pi ∧
    (h.phi0 = -Real.pi ↔
      ∃ m : ℤ, (pos.z / h.lam - mom.Phi) / (2 * Real.pi) = 2 * (m : ℝ) + 1 / 2) := by
  obtain ⟨-, -, -, -, -, -, -, -, -, ht0, hphi0, -, -⟩ :=
    LHelix.setParameters_members h0 pos mom h hh
  have hpi := Real.pi_pos
  have hturn : h.omega * (pos.t - h.t0) = pos.z / h.lam := by
    rw [ht0]
    field_simp
    ring
  rw [hturn] at hphi0
  obtain ⟨hlo, hhi, hiff⟩ := rint_sub_bounds ((pos.z / h.lam - mom.Phi) / (2 * Real.pi))
  have hu : pos.z / h.lam - mom.Phi =
      2 * Real.pi * ((pos.z / h.lam - mom.Phi) / (2 * Real.pi)) := by
    field_simp
    ring
  generalize (pos.z / h.lam - mom.Phi) / (2 * Real.pi) = u at *
  have hval : h.phi0 = -(2 * Real.pi * (u - rint u)) := by
    rw [hphi0]
    linear_combination -hu
  refine ⟨?_, ?_, ?_, ?_⟩
  · rw [hphi0]
  · rw [hval]; nlinarith
  · rw [hval]; nlinarith
  · rw [← hiff, hval]
    constructor
    · intro he
      have : Real.pi * (2 * (u - rint u) - 1) = 0 := by linarith
      rcases mul_eq_zero.mp this with hp | hp
      · exact absurd hp (ne_of_gt hpi)
      · linarith
    · intro he
      rw [he]
      ring

/-- The wavelength of a helix computed in the sample field for charge -1. -/
theorem sampleField_lam (pos0 : Vec4) (mom0 : Mom4) (trange : TRange) :
    (LHelix.setParameters (LHelix.initMembers mom0 (-1) sampleField trange)
      (LHelix.workingPos pos0 sampleField) (LHelix.workingMom mom0 sampleField)).lam =
      mom0.pz * 1000 / c_light := by
  have h := (LHelix.setParameters_members _ _ _ _
    (rfl : LHelix.setParameters (LHelix.initMembers mom0 (-1) sampleField trange)
      (LHelix.workingPos pos0 sampleField) (LHelix.workingMom mom0 sampleField) = _)).2.2.2.2.2.2.2.2.1
  rw [h, (sampleField_working pos0 mom0).2]
  have hk : LHelix.momToRad (LHelix.initMembers mom0 (-1) sampleField trange).charge
      (LHelix.initMembers mom0 (-1) sampleField trange).bnom = -(1000 / c_light) := by
    show LHelix.momToRad (-1) sampleField = _
    unfold LHelix.momToRad
    rw [sampleField_Theta_R.2]
    have hc0 : c_light ≠ 0 := ne_of_gt c_light_pos
    push_cast
    rw [mul_one, neg_one_mul, div_neg]
    norm_num
  rw [hk]
  ring

/-- The constructor stores `phi0 = -π` for a start point half a turn up the helix: C7 as
stated (phi0 in the half-open interval from `-π` exclusive to `π` inclusive) fails
there. -/
theorem LHelix.construct_phi0_counterexample :
    LHelix.construct windingPos windingMom (-1) sampleField sampleRange =
      Except.ok windingHelix ∧
    windingHelix.lam ≠ 0 ∧ windingHelix.omega ≠ 0 ∧
    windingHelix.phi0 = -Real.pi ∧
    ¬ (-Real.pi < windingHelix.phi0 ∧ windingHelix.phi0 ≤ Real.pi) := by
  have hc0 : c_light ≠ 0 := ne_of_gt c_light_pos
  have hpi : Real.pi ≠ 0 := ne_of_gt Real.pi_pos
  have hlam : windingHelix.lam = 1000 / c_light := by
    unfold windingHelix
    rw [sampleField_lam]
    unfold windingMom
    ring
  have hl : windingHelix.lam ≠ 0 := by
    rw [hlam]
    exact div_ne_zero (by norm_num) hc0
  have ho : windingHelix.omega ≠ 0 := LHelix.omega_ne_zero _ hl
  have hphi : windingHelix.phi0 = -Real.pi := by
    refine (LHelix.setParameters_phi0 _ _ _ windingHelix rfl hl ho).2.2.2.mpr ⟨0, ?_⟩
    rw [hlam, (sampleField_working windingPos windingMom).1,
      (sampleField_working windingPos windingMom).2]
    have hPhi : windingMom.Phi = 0 := by
      unfold windingMom Mom4.Phi
      exact atan2_zero_of_nonneg 1 zero_le_one
    rw [hPhi]
    unfold windingPos
    simp only
    field_simp
    ring
  refine ⟨LHelix.construct_eq _ _ _ _ _, hl, ho, hphi, ?_⟩
  rw [hphi]
  intro hcon
  exact lt_irrefl _ hcon.1

/-- C7 (amended): winding disambiguation. For every input position and momentum for which
the helix returned by the phase-space constructor has non-zero wavelength and angular
velocity, the stored azimuth
`phi0 = phibar - omega * (T - t0) + 2π * rint((z / lambda - phibar) / (2π))`, with
`t0 = T - z / (omega * lambda)`, lies in the closed interval from `-π` to `π`; it takes
the value `-π` exactly when `(z / lambda - phibar) / (2π)` is an even integer plus one
half, and otherwise lies in the half-open interval that excludes `-π`. -/
theorem LHelix.construct_phi0_range (pos0 : Vec4) (mom0 : Mom4) (charge : ℤ) (bnom : Vec3)
    (trange : TRange) (h : LHelix)
    (hc : LHelix.construct pos0 mom0 charge bnom trange = Except.ok h)
    (hl : h.lam ≠ 0) (ho : h.omega ≠ 0) :
    h.t0 = pos0.t - (LHelix.workingPos pos0 bnom).z / (h.omega * h.lam) ∧
    h.phi0 = (LHelix.workingMom mom0 bnom).Phi - h.omega * (pos0.t - h.t0) +
      2 * Real.pi * rint (((LHelix.workingPos pos0 bnom).z / h.lam -
        (LHelix.workingMom mom0 bnom).Phi) / (2 * Real.pi)) ∧
    -Real.pi ≤ h.phi0 ∧ h.phi0 ≤ Real.pi ∧
    (h.phi0 = -Real.pi ↔
      ∃ m : ℤ, ((LHelix.workingPos pos0 bnom).z / h.lam -
        (LHelix.workingMom mom0 bnom).Phi) / (2 * Real.pi) = 2 * (m : ℝ) + 1 / 2) ∧
    ((¬ ∃ m : ℤ, ((LHelix.workingPos pos0 bnom).z / h.lam -
        (LHelix.workingMom mom0 bnom).Phi) / (2 * Real.pi) = 2 * (m : ℝ) + 1 / 2) →
      -Real.pi < h.phi0 ∧ h.phi0 ≤ Real.pi) := by
  rw [LHelix.construct_eq] at hc
  have hh : h = LHelix.setParameters (LHelix.initMembers mom0 charge bnom trange)
      (LHelix.workingPos pos0 bnom) (LHelix.workingMom mom0 bnom) := by
    injection hc with hc
    exact hc.symm
  have ht : (LHelix.workingPos pos0 bnom).t = pos0.t := by
    unfold LHelix.workingPos Rotation3D.applyVec4
    split_ifs <;> rfl
  obtain ⟨-, -, -, -, -, -, -, -, -, ht0, hphi0, -, -⟩ :=
    LHelix.setParameters_members _ _ _ h hh
  obtain ⟨-, hlo, hhi, hiff⟩ := LHelix.setParameters_phi0 _ _ _ h hh hl ho
  rw [ht] at ht0 hphi0
  refine ⟨ht0, hphi0, hlo, hhi, hiff, ?_⟩
  intro hnot
  refine ⟨lt_of_le_of_ne hlo ?_, hhi⟩
  intro heq
  exact hnot (hiff.mp heq.symm)

/-- Witness for C7: the sample electron helix. -/
theorem LHelix.construct_phi0_range_witness :
    (LHelix.construct samplePos sampleMom (-1) sampleField sampleRange = Except.ok sampleHelix ∧
      sampleHelix.lam ≠ 0 ∧ sampleHelix.omega ≠ 0) ∧
    -Real.pi ≤ sampleHelix.phi0 ∧ sampleHelix.phi0 ≤ Real.pi := by
  have hc0 : c_light ≠ 0 := ne_of_gt c_light_pos
  have hl : sampleHelix.lam ≠ 0 := by
    unfold sampleHelix
    rw [sampleField_lam]
    unfold sampleMom
    exact div_ne_zero (by norm_num) hc0
  have ho : sampleHelix.omega ≠ 0 := LHelix.omega_ne_zero _ hl
  have hc := LHelix.construct_eq samplePos sampleMom (-1) sampleField sampleRange
  have h := LHelix.construct_phi0_range samplePos sampleMom (-1) sampleField sampleRange
    sampleHelix hc hl ho
  exact ⟨⟨hc, hl, ho⟩, h.2.2.1, h.2.2.2.1⟩

/-! ## Theorems: momentum, direction and momDeriv -/

/-- The cached rotation of every helix computed by the constructor is orthogonal. -/
theorem LHelix.construct_brot_isOrthogonal (pos0 : Vec4) (mom0 : Mom4) (charge : ℤ)
    (bnom : Vec3) (trange : TRange) (h : LHelix)
    (hc : LHelix.construct pos0 mom0 charge bnom trange = Except.ok h) :
    h.brot.IsOrthogonal := by
  rw [LHelix.construct_eq] at hc
  injection hc with hc
  have hb := (LHelix.setParameters_members _ _ _ h hc.symm).2.2.2.2.2.1
  rw [hb]
  unfold LHelix.initMembers
  simp only
  split_ifs
  · exact LHelix.fieldRotation_Inverse_isOrthogonal bnom
  · unfold Rotation3D.identity Rotation3D.IsOrthogonal
    norm_num

/-- The spatial part of a rotated 4-momentum is the rotated spatial part. -/
theorem Rotation3D.applyMom4_Vect (r : Rotation3D) (p : Mom4) :
    (r.applyMom4 p).Vect = r.apply p.Vect := rfl

/-- In the working frame the theta1 and theta2 directions of `momDeriv` are orthogonal to
the momentum. -/
theorem LHelix.working_orthogonal (nrm f rad lam ph : ℝ) :
    (Vec3.scale ⟨lam * Real.cos ph, lam * Real.sin ph, -rad⟩ nrm).Dot
      (Mom4.Vect ⟨f * rad * Real.cos ph, f * rad * Real.sin ph, f * lam, 0⟩) = 0 ∧
    (Vec3.mk (-Real.sin ph) (Real.cos ph) 0.0).Dot
      (Mom4.Vect ⟨f * rad * Real.cos ph, f * rad * Real.sin ph, f * lam, 0⟩) = 0 := by
  unfold Vec3.scale Vec3.Dot Mom4.Vect
  simp only
  constructor
  · linear_combination (nrm * f * lam * rad) * Real.sin_sq_add_cos_sq ph
  · norm_num
    ring

/-- The result of `momDeriv` for the theta1 selector: some derivative vector and the
working-frame direction, rotated once when the helix carries a rotation. -/
theorem LHelix.momDeriv_theta1_unit (h : LHelix) (t : ℝ) :
    ∃ pder : PDER, h.momDeriv MDir.theta1 t = Except.ok (pder,
      if h.needsrot = true then
        h.brot.apply (Vec3.scale ⟨h.lam * Real.cos (h.omega * (t - h.t0) + h.phi0),
          h.lam * Real.sin (h.omega * (t - h.t0) + h.phi0), -h.rad⟩
          (1.0 / copysign h.pbar h.mbar))
      else Vec3.scale ⟨h.lam * Real.cos (h.omega * (t - h.t0) + h.phi0),
          h.lam * Real.sin (h.omega * (t - h.t0) + h.phi0), -h.rad⟩
          (1.0 / copysign h.pbar h.mbar)) := by
  unfold LHelix.momDeriv
  simp only
  split_ifs <;> exact ⟨_, rfl⟩

/-- The result of `momDeriv` for the theta2 selector: some derivative vector and the
working-frame direction, rotated once when the helix carries a rotation. -/
theorem LHelix.momDeriv_theta2_unit (h : LHelix) (t : ℝ) :
    ∃ pder : PDER, h.momDeriv MDir.theta2 t = Except.ok (pder,
      if h.needsrot = true then
        h.brot.apply ⟨-Real.sin (h.omega * (t - h.t0) + h.phi0),
          Real.cos (h.omega * (t - h.t0) + h.phi0), 0.0⟩
      else ⟨-Real.sin (h.omega * (t - h.t0) + h.phi0),
          Real.cos (h.omega * (t - h.t0) + h.phi0), 0.0⟩) := by
  unfold LHelix.momDeriv
  simp only
  split_ifs <;> exact ⟨_, rfl⟩

/-- The result of `momDeriv` for the momdir selector: some derivative vector and the
output of `direction`, rotated once more when the helix carries a rotation. -/
theorem LHelix.momDeriv_momdir_unit (h : LHelix) (t : ℝ) :
    ∃ pder : PDER, h.momDeriv MDir.momdir t = Except.ok (pder,
      if h.needsrot = true then h.brot.apply (h.direction t) else h.direction t) := by
  unfold LHelix.momDeriv
  simp only
  split_ifs <;> exact ⟨_, rfl⟩

/-- The spatial momentum returned by `momentum`: the working-frame momentum, rotated once
when the helix carries a rotation. -/
theorem LHelix.momentum_Vect (h : LHelix) (t : ℝ) :
    (h.momentum t).Vect =
      if h.needsrot = true then
        h.brot.apply (Mom4.Vect ⟨h.mass / h.mbar * h.rad * Real.cos (h.omega * (t - h.t0) + h.phi0),
          h.mass / h.mbar * h.rad * Real.sin (h.omega * (t - h.t0) + h.phi0),
          h.mass / h.mbar * h.lam, 0⟩)
      else Mom4.Vect ⟨h.mass / h.mbar * h.rad * Real.cos (h.omega * (t - h.t0) + h.phi0),
          h.mass / h.mbar * h.rad * Real.sin (h.omega * (t - h.t0) + h.phi0),
          h.mass / h.mbar * h.lam, 0⟩ := by
  unfold LHelix.momentum LHelix.phi LHelix.dphi
  simp only
  split_ifs <;> rfl

/-- C8: for every helix, rotated or not (the cached rotation being a rotation, that is
orthogonal), and every time `t`, `momDeriv` returns for the theta1 (polar-bend) and the
theta2 (azimuthal-bend) selectors direction vectors whose dot product with the momentum
vector returned by `momentum(t)` is zero. -/
theorem LHelix.momDeriv_theta_orthogonal (h : LHelix) (t : ℝ)
    (hrot : h.needsrot = true → h.brot.IsOrthogonal) :
    ∃ (pder1 : PDER) (unit1 : Vec3) (pder2 : PDER) (unit2 : Vec3),
      h.momDeriv MDir.theta1 t = Except.ok (pder1, unit1) ∧
      h.momDeriv MDir.theta2 t = Except.ok (pder2, unit2) ∧
      unit1.Dot (h.momentum t).Vect = 0 ∧
      unit2.Dot (h.momentum t).Vect = 0 := by
  obtain ⟨p1, h1⟩ := LHelix.momDeriv_theta1_unit h t
  obtain ⟨p2, h2⟩ := LHelix.momDeriv_theta2_unit h t
  have hw := LHelix.working_orthogonal (1.0 / copysign h.pbar h.mbar) (h.mass / h.mbar)
      h.rad h.lam (h.omega * (t - h.t0) + h.phi0)
  refine ⟨p1, _, p2, _, h1, h2, ?_, ?_⟩
  · rw [LHelix.momentum_Vect]
    by_cases hn : h.needsrot = true
    · rw [if_pos hn, if_pos hn, Rotation3D.Dot_apply _ (hrot hn)]
      exact hw.1
    · rw [if_neg hn, if_neg hn]
      exact hw.1
  · rw [LHelix.momentum_Vect]
    by_cases hn : h.needsrot = true
    · rw [if_pos hn, if_pos hn, Rotation3D.Dot_apply _ (hrot hn)]
      exact hw.2
    · rw [if_neg hn, if_neg hn]
      exact hw.2

/-- The tilted field has polar angle `π/2`, azimuth zero and length one. -/
theorem tiltedField_angles :
    tiltedField.Theta = Real.pi / 2 ∧ tiltedField.Phi = 0 ∧ tiltedField.R = 1 := by
  unfold tiltedField Vec3.Theta Vec3.Phi Vec3.Rho Vec3.R
  simp only [mul_zero, add_zero, mul_one, Real.sqrt_one]
  refine ⟨?_, atan2_zero_of_nonneg 1 zero_le_one, trivial⟩
  unfold atan2
  exact Complex.arg_I

/-- The tilted field exceeds the rotation threshold. -/
theorem tiltedField_needsrot : |tiltedField.Theta| > 1.0e-6 := by
  rw [tiltedField_angles.1, abs_of_pos (by positivity)]
  have := Real.pi_gt_three
  norm_num
  linarith

/-- The rotation built for the tilted field. -/
theorem tiltedField_rotation :
    LHelix.fieldRotation tiltedField = ⟨0, 0, -1, 0, 1, 0, 1, 0, 0⟩ := by
  unfold LHelix.fieldRotation
  rw [Rotation3D.ofAxisAngle_axis, tiltedField_angles.1, tiltedField_angles.2.1]
  simp only [Real.sin_zero, Real.cos_zero, Real.sin_pi_div_two, Real.cos_pi_div_two]
  norm_num

/-- The tilted sample helix carries the rotation flag and the inverse rotation, and its
working-frame momentum is `(1, 0, 1)`. -/
theorem tiltedHelix_members :
    tiltedHelix.needsrot = true ∧ tiltedHelix.brot = ⟨0, 0, 1, 0, 1, 0, -1, 0, 0⟩ ∧
    LHelix.workingMom tiltedMom tiltedField = ⟨1, 0, 1, 1⟩ := by
  obtain ⟨-, -, -, -, hflag, hbrot, -⟩ := LHelix.setParameters_members _ _ _ tiltedHelix rfl
  refine ⟨?_, ?_, ?_⟩
  · rw [hflag]
    exact decide_eq_true tiltedField_needsrot
  · rw [hbrot]
    unfold LHelix.initMembers
    simp only [if_pos tiltedField_needsrot]
    rw [tiltedField_rotation]
    rfl
  · unfold LHelix.workingMom
    rw [if_pos tiltedField_needsrot, tiltedField_rotation]
    unfold Rotation3D.applyMom4 Rotation3D.apply tiltedMom Mom4.Vect
    norm_num

/-- The tilted sample helix reproduces its input momentum at time zero. -/
theorem tiltedHelix_momentum : tiltedHelix.momentum 0 = tiltedMom := by
  have hm : tiltedMom.m ≠ 0 := by unfold tiltedMom; norm_num
  have hb : tiltedField.R ≠ 0 := by rw [tiltedField_angles.2.2]; exact one_ne_zero
  have hpt : (LHelix.workingMom tiltedMom tiltedField).Pt ≠ 0 := by
    rw [tiltedHelix_members.2.2]
    unfold Mom4.Pt
    norm_num
  have hpz : (LHelix.workingMom tiltedMom tiltedField).pz ≠ 0 := by
    rw [tiltedHelix_members.2.2]
    norm_num
  exact (LHelix.setParameters_lab tiltedPos tiltedMom (-1) tiltedField sampleRange
    tiltedHelix rfl hm (by decide) hb hpt hpz).2

/-- Witness for C8: the tilted sample helix, whose cached rotation is orthogonal. -/
theorem LHelix.momDeriv_theta_orthogonal_witness :
    (tiltedHelix.needsrot = true → tiltedHelix.brot.IsOrthogonal) ∧
    ∃ (pder1 : PDER) (unit1 : Vec3) (pder2 : PDER) (unit2 : Vec3),
      tiltedHelix.momDeriv MDir.theta1 0 = Except.ok (pder1, unit1) ∧
      tiltedHelix.momDeriv MDir.theta2 0 = Except.ok (pder2, unit2) ∧
      unit1.Dot (tiltedHelix.momentum 0).Vect = 0 ∧
      unit2.Dot (tiltedHelix.momentum 0).Vect = 0 :=
  have hrot : tiltedHelix.needsrot = true → tiltedHelix.brot.IsOrthogonal := fun _ =>
    LHelix.construct_brot_isOrthogonal tiltedPos tiltedMom (-1) tiltedField sampleRange
      tiltedHelix (LHelix.construct_eq _ _ _ _ _)
  ⟨hrot, LHelix.momDeriv_theta_orthogonal tiltedHelix 0 hrot⟩

/-- What `direction` returns: the unit vector of the (already lab-frame) momentum, rotated
by the cached rotation once more when the helix carries a rotation. -/
theorem LHelix.direction_eq (h : LHelix) (t : ℝ) :
    h.direction t =
      if h.needsrot = true then h.brot.apply (h.momentum t).Vect.Unit
      else (h.momentum t).Vect.Unit := by
  unfold LHelix.direction
  simp only

/-- For a helix without rotation `direction` is the unit vector of `momentum`, and the
momdir direction of `momDeriv` is the same vector. -/
theorem LHelix.direction_unrotated (h : LHelix) (t : ℝ) (hn : h.needsrot = false) :
    h.direction t = (h.momentum t).Vect.Unit ∧
    ∃ pder : PDER, h.momDeriv MDir.momdir t = Except.ok (pder, (h.momentum t).Vect.Unit) := by
  have hd : h.direction t = (h.momentum t).Vect.Unit := by
    rw [LHelix.direction_eq, hn]
    simp
  refine ⟨hd, ?_⟩
  obtain ⟨p, hp⟩ := LHelix.momDeriv_momdir_unit h t
  refine ⟨p, ?_⟩
  rw [hp, hn, hd]
  simp

/-- The unit vector of the momentum of the tilted sample helix at time zero. -/
theorem tiltedHelix_momentum_Unit :
    (tiltedHelix.momentum 0).Vect.Unit = ⟨1 / Real.sqrt 2, 0, -1 / Real.sqrt 2⟩ := by
  rw [tiltedHelix_momentum]
  have hR : (tiltedMom.Vect).R = Real.sqrt 2 := by
    unfold tiltedMom Mom4.Vect Vec3.R
    norm_num
  have hne : Real.sqrt 2 ≠ 0 := ne_of_gt (Real.sqrt_pos.mpr (by norm_num))
  unfold Vec3.Unit
  rw [hR, if_neg hne]
  unfold tiltedMom Mom4.Vect
  simp

/-- What `direction` returns for the tilted sample helix at time zero. -/
theorem tiltedHelix_direction :
    tiltedHelix.direction 0 = ⟨-1 / Real.sqrt 2, 0, -1 / Real.sqrt 2⟩ := by
  rw [LHelix.direction_eq, if_pos tiltedHelix_members.1, tiltedHelix_momentum_Unit,
    tiltedHelix_members.2.1]
  unfold Rotation3D.apply
  simp only [Vec3.mk.injEq]
  refine ⟨?_, ?_, ?_⟩ <;> ring

/-- C10, the code at a failing input: for the helix the constructor returns for a field
along the lab x axis, `direction(0)` is the momentum unit direction rotated by the cached
inverse rotation a second time, `(-1, 0, -1) / sqrt 2`, which differs from
`momentum(0).Vect() / |momentum(0)| = (1, 0, -1) / sqrt 2`. -/
theorem LHelix.direction_tilted_mismatch :
    LHelix.construct tiltedPos tiltedMom (-1) tiltedField sampleRange =
      Except.ok tiltedHelix ∧
    tiltedHelix.needsrot = true ∧
    (tiltedHelix.momentum 0).Vect.Unit = ⟨1 / Real.sqrt 2, 0, -1 / Real.sqrt 2⟩ ∧
    tiltedHelix.direction 0 = tiltedHelix.brot.apply (tiltedHelix.momentum 0).Vect.Unit ∧
    tiltedHelix.direction 0 = ⟨-1 / Real.sqrt 2, 0, -1 / Real.sqrt 2⟩ ∧
    tiltedHelix.direction 0 ≠ (tiltedHelix.momentum 0).Vect.Unit := by
  have hne : Real.sqrt 2 ≠ 0 := ne_of_gt (Real.sqrt_pos.mpr (by norm_num))
  refine ⟨LHelix.construct_eq _ _ _ _ _, tiltedHelix_members.1, tiltedHelix_momentum_Unit,
    ?_, tiltedHelix_direction, ?_⟩
  · rw [LHelix.direction_eq, if_pos tiltedHelix_members.1]
  · rw [tiltedHelix_direction, tiltedHelix_momentum_Unit]
    intro heq
    have hx := congrArg Vec3.x heq
    simp only at hx
    have h2 : (1 : ℝ) / Real.sqrt 2 ≠ 0 := div_ne_zero one_ne_zero hne
    apply h2
    have : -1 / Real.sqrt 2 = -(1 / Real.sqrt 2) := by ring
    rw [this] at hx
    linarith

/-- C9, the code at a failing input: for the helix the constructor returns for a field
along the lab x axis, the momdir direction of `momDeriv` at time zero is the momentum unit
direction rotated by the cached inverse rotation three times, `(-1, 0, 1) / sqrt 2`,
which differs from the momentum direction `(1, 0, -1) / sqrt 2`. -/
theorem LHelix.momDeriv_momdir_tilted_mismatch :
    LHelix.construct tiltedPos tiltedMom (-1) tiltedField sampleRange =
      Except.ok tiltedHelix ∧
    (tiltedHelix.momentum 0).Vect.Unit = ⟨1 / Real.sqrt 2, 0, -1 / Real.sqrt 2⟩ ∧
    ∃ pder : PDER,
      tiltedHelix.momDeriv MDir.momdir 0 =
        Except.ok (pder, ⟨-1 / Real.sqrt 2, 0, 1 / Real.sqrt 2⟩) ∧
      (⟨-1 / Real.sqrt 2, 0, 1 / Real.sqrt 2⟩ : Vec3) ≠ (tiltedHelix.momentum 0).Vect.Unit := by
  have hne : Real.sqrt 2 ≠ 0 := ne_of_gt (Real.sqrt_pos.mpr (by norm_num))
  refine ⟨LHelix.construct_eq _ _ _ _ _, tiltedHelix_momentum_Unit, ?_⟩
  obtain ⟨p, hp⟩ := LHelix.momDeriv_momdir_unit tiltedHelix 0
  refine ⟨p, ?_, ?_⟩
  · rw [hp, if_pos tiltedHelix_members.1, tiltedHelix_direction, tiltedHelix_members.2.1]
    unfold Rotation3D.apply
    simp only [Except.ok.injEq, Prod.mk.injEq, Vec3.mk.injEq, true_and]
    refine ⟨?_, ?_, ?_⟩ <;> ring
  · rw [tiltedHelix_momentum_Unit]
    intro heq
    have hx := congrArg Vec3.x heq
    simp only at hx
    have h2 : (1 : ℝ) / Real.sqrt 2 ≠ 0 := div_ne_zero one_ne_zero hne
    apply h2
    have : -1 / Real.sqrt 2 = -(1 / Real.sqrt 2) := by ring
    rw [this] at hx
    linarith

/-! ## Theorems: momDeriv selectors and derivative entries -/

/-- The entries of the derivative vector returned by `momDeriv` for the theta1 selector. -/
theorem LHelix.momDeriv_theta1_entries (h : LHelix) (t : ℝ) :
    ∃ (pder : PDER) (unit : Vec3), h.momDeriv MDir.theta1 t = Except.ok (pder, unit) ∧
      pder ParamIndex.rad_ = h.lam ∧
      pder ParamIndex.lam_ = -h.rad ∧
      pder ParamIndex.t0_ = -(t - h.t0) * h.rad / h.lam ∧
      pder ParamIndex.phi0_ = -h.omega * (t - h.t0) * h.rad / h.lam ∧
      pder ParamIndex.cx_ = -h.lam * Real.sin (h.omega * (t - h.t0) + h.phi0) ∧
      pder ParamIndex.cy_ = h.lam * Real.cos (h.omega * (t - h.t0) + h.phi0) := by
  unfold LHelix.momDeriv
  simp only
  split_ifs <;> exact ⟨_, _, rfl, rfl, rfl, rfl, rfl, rfl, rfl⟩

/-- The entries of the derivative vector returned by `momDeriv` for the momdir selector. -/
theorem LHelix.momDeriv_momdir_entries (h : LHelix) (t : ℝ) :
    ∃ (pder : PDER) (unit : Vec3), h.momDeriv MDir.momdir t = Except.ok (pder, unit) ∧
      pder ParamIndex.rad_ = h.rad ∧
      pder ParamIndex.lam_ = h.lam ∧
      pder ParamIndex.t0_ = (t - h.t0) * (1.0 - h.beta * h.beta) ∧
      pder ParamIndex.phi0_ = h.omega * (t - h.t0) ∧
      pder ParamIndex.cx_ = -h.rad * Real.sin (h.omega * (t - h.t0) + h.phi0) ∧
      pder ParamIndex.cy_ = h.rad * Real.cos (h.omega * (t - h.t0) + h.phi0) := by
  unfold LHelix.momDeriv
  simp only
  split_ifs <;> exact ⟨_, _, rfl, rfl, rfl, rfl, rfl, rfl, rfl⟩

/-- C13: `momDeriv` fails with the invalid-argument error if and only if the selector is
not one of theta1, theta2, momdir: every unrecognised selector value raises the error, and
for each of the three recognised selectors the call returns a derivative vector and a
direction. -/
theorem LHelix.momDeriv_error_iff (h : LHelix) (mdir : MDir) (t : ℝ) :
    ((∃ e : InvalidArgument, h.momDeriv mdir t = Except.error e) ↔
      (mdir ≠ MDir.theta1 ∧ mdir ≠ MDir.theta2 ∧ mdir ≠ MDir.momdir)) ∧
    (∀ code : ℤ, h.momDeriv (MDir.unrecognized code) t =
      Except.error InvalidArgument.invalidDirection) ∧
    (∃ r : PDER × Vec3, h.momDeriv MDir.theta1 t = Except.ok r) ∧
    (∃ r : PDER × Vec3, h.momDeriv MDir.theta2 t = Except.ok r) ∧
    (∃ r : PDER × Vec3, h.momDeriv MDir.momdir t = Except.ok r) := by
  obtain ⟨p1, h1⟩ := LHelix.momDeriv_theta1_unit h t
  obtain ⟨p2, h2⟩ := LHelix.momDeriv_theta2_unit h t
  obtain ⟨p3, h3⟩ := LHelix.momDeriv_momdir_unit h t
  refine ⟨?_, fun _ => rfl, ⟨_, h1⟩, ⟨_, h2⟩, ⟨_, h3⟩⟩
  cases mdir with
  | theta1 =>
      rw [h1]
      constructor
      · rintro ⟨e, he⟩
        cases he
      · rintro ⟨hne, -, -⟩
        exact absurd rfl hne
  | theta2 =>
      rw [h2]
      constructor
      · rintro ⟨e, he⟩
        cases he
      · rintro ⟨-, hne, -⟩
        exact absurd rfl hne
  | momdir =>
      rw [h3]
      constructor
      · rintro ⟨e, he⟩
        cases he
      · rintro ⟨-, -, hne⟩
        exact absurd rfl hne
  | unrecognized code =>
      constructor
      · intro _
        refine ⟨?_, ?_, ?_⟩ <;> intro hcon <;> cases hcon
      · intro _
        exact ⟨InvalidArgument.invalidDirection, rfl⟩

/-- The square root of `1 + ε^2` has derivative zero at `ε = 0`. -/
theorem hasDerivAt_sqrt_one_add_sq :
    HasDerivAt (fun ε : ℝ => Real.sqrt (1 + ε ^ 2)) 0 0 := by
  have h1 : HasDerivAt (fun ε : ℝ => 1 + ε ^ 2) (2 * (0 : ℝ)) 0 := by
    have := ((hasDerivAt_id (0 : ℝ)).pow 2).const_add 1
    simpa using this
  have h2 := h1.sqrt (by norm_num)
  simpa using h2

/-- C17: for every helix and time the theta1 (polar-bend) derivative returned by
`momDeriv` leaves the momentum magnitude unchanged to first order:
`radius * pder[radius] + wavelength * pder[wavelength] = 0`, so the derivative at zero of
`radius^2 + wavelength^2`, and of `|p| = (mass / |mbar|) * sqrt(radius^2 + wavelength^2)`,
along `pder` is zero. -/
theorem LHelix.momDeriv_theta1_momentum_magnitude (h : LHelix) (t : ℝ) :
    ∃ (pder : PDER) (unit : Vec3), h.momDeriv MDir.theta1 t = Except.ok (pder, unit) ∧
      h.rad * pder ParamIndex.rad_ + h.lam * pder ParamIndex.lam_ = 0 ∧
      HasDerivAt (fun ε : ℝ => (h.rad + ε * pder ParamIndex.rad_) ^ 2 +
        (h.lam + ε * pder ParamIndex.lam_) ^ 2) 0 0 ∧
      HasDerivAt (fun ε : ℝ => h.mass / |h.mbar| *
        Real.sqrt ((h.rad + ε * pder ParamIndex.rad_) ^ 2 +
          (h.lam + ε * pder ParamIndex.lam_) ^ 2)) 0 0 := by
  obtain ⟨pder, unit, hok, hr, hl, -⟩ := LHelix.momDeriv_theta1_entries h t
  refine ⟨pder, unit, hok, ?_, ?_, ?_⟩
  · rw [hr, hl]
    ring
  · rw [hr, hl]
    have hfun : (fun ε : ℝ => (h.rad + ε * h.lam) ^ 2 + (h.lam + ε * -h.rad) ^ 2) =
        fun ε : ℝ => (h.rad * h.rad + h.lam * h.lam) * (1 + ε ^ 2) := by
      funext ε
      ring
    rw [hfun]
    have h1 : HasDerivAt (fun ε : ℝ => 1 + ε ^ 2) (2 * (0 : ℝ)) 0 := by
      have := ((hasDerivAt_id (0 : ℝ)).pow 2).const_add 1
      simpa using this
    have h2 := h1.const_mul (h.rad * h.rad + h.lam * h.lam)
    simpa using h2
  · rw [hr, hl]
    have hP : 0 ≤ h.rad * h.rad + h.lam * h.lam :=
      add_nonneg (mul_self_nonneg _) (mul_self_nonneg _)
    have hfun : (fun ε : ℝ => h.mass / |h.mbar| *
          Real.sqrt ((h.rad + ε * h.lam) ^ 2 + (h.lam + ε * -h.rad) ^ 2)) =
        fun ε : ℝ => h.mass / |h.mbar| * Real.sqrt (h.rad * h.rad + h.lam * h.lam) *
          Real.sqrt (1 + ε ^ 2) := by
      funext ε
      have : (h.rad + ε * h.lam) ^ 2 + (h.lam + ε * -h.rad) ^ 2 =
          (h.rad * h.rad + h.lam * h.lam) * (1 + ε ^ 2) := by ring
      rw [this, Real.sqrt_mul hP]
      ring
    rw [hfun]
    have h2 := hasDerivAt_sqrt_one_add_sq.const_mul
      (h.mass / |h.mbar| * Real.sqrt (h.rad * h.rad + h.lam * h.lam))
    simpa using h2

/-! ## Theorems: winding range and field alignment -/

/-- The parameters the constructor computes, as a function of its arguments, when it
returns a helix. -/
theorem LHelix.construct_ok_eq (pos0 : Vec4) (mom0 : Mom4) (charge : ℤ) (bnom : Vec3)
    (trange : TRange) (h : LHelix)
    (hc : LHelix.construct pos0 mom0 charge bnom trange = Except.ok h) :
    h = LHelix.setParameters (LHelix.initMembers mom0 charge bnom trange)
      (LHelix.workingPos pos0 bnom) (LHelix.workingMom mom0 bnom) := by
  rw [LHelix.construct_eq] at hc
  injection hc with hc
  exact hc.symm

/-- The sample helix has a non-zero wavelength and angular velocity. -/
theorem sampleHelix_lam_omega : sampleHelix.lam ≠ 0 ∧ sampleHelix.omega ≠ 0 := by
  have hl : sampleHelix.lam ≠ 0 := by
    unfold sampleHelix
    rw [sampleField_lam]
    unfold sampleMom
    exact div_ne_zero (by norm_num) (ne_of_gt c_light_pos)
  exact ⟨hl, LHelix.omega_ne_zero _ hl⟩

/-- C19: for every input position and momentum for which the helix returned by the
phase-space constructor has non-zero wavelength and angular velocity, the winding
correction puts `phi0` in the closed range from `-π` to `π`: `|phi0| ≤ π`, where
`phi0 = phibar - z / lambda + 2π * rint((z / lambda - phibar) / (2π))`. -/
theorem LHelix.construct_phi0_abs_le_pi (pos0 : Vec4) (mom0 : Mom4) (charge : ℤ)
    (bnom : Vec3) (trange : TRange) (h : LHelix)
    (hc : LHelix.construct pos0 mom0 charge bnom trange = Except.ok h)
    (hl : h.lam ≠ 0) (ho : h.omega ≠ 0) :
    h.phi0 = (LHelix.workingMom mom0 bnom).Phi - (LHelix.workingPos pos0 bnom).z / h.lam +
      2 * Real.pi * rint (((LHelix.workingPos pos0 bnom).z / h.lam -
        (LHelix.workingMom mom0 bnom).Phi) / (2 * Real.pi)) ∧
    |h.phi0| ≤ Real.pi := by
  have hh := LHelix.construct_ok_eq pos0 mom0 charge bnom trange h hc
  obtain ⟨hval, hlo, hhi, -⟩ := LHelix.setParameters_phi0 _ _ _ h hh hl ho
  exact ⟨hval, abs_le.mpr ⟨hlo, hhi⟩⟩

/-- Witness for C19: the sample electron helix. -/
theorem LHelix.construct_phi0_abs_le_pi_witness :
    (LHelix.construct samplePos sampleMom (-1) sampleField sampleRange = Except.ok sampleHelix ∧
      sampleHelix.lam ≠ 0 ∧ sampleHelix.omega ≠ 0) ∧
    |sampleHelix.phi0| ≤ Real.pi :=
  have hc := LHelix.construct_eq samplePos sampleMom (-1) sampleField sampleRange
  ⟨⟨hc, sampleHelix_lam_omega.1, sampleHelix_lam_omega.2⟩,
    (LHelix.construct_phi0_abs_le_pi samplePos sampleMom (-1) sampleField sampleRange
      sampleHelix hc sampleHelix_lam_omega.1 sampleHelix_lam_omega.2).2⟩

/-- The polar angle of a vector on the non-negative z axis is zero. -/
theorem Vec3.Theta_z_axis (r : ℝ) (hr : 0 ≤ r) : (Vec3.mk 0 0 r).Theta = 0 := by
  unfold Vec3.Theta Vec3.Rho
  simp only [mul_zero, add_zero, Real.sqrt_zero]
  exact atan2_zero_of_nonneg _ hr

/-- C20: for every non-zero nominal field vector, with polar angle `Theta` and azimuth
`Phi`, the rotation by `Theta` about the axis `(sin Phi, -cos Phi, 0)` built by the
constructor maps the field onto the positive z axis, the residual polar angle is exactly
zero, the post-rotation check does not fail, and the constructor never ends in the
"BField Error" branch: it returns a helix. -/
theorem LHelix.fieldRotation_aligns (bnom : Vec3) (hb : bnom.R ≠ 0) :
    LHelix.fieldRotation bnom =
      Rotation3D.ofAxisAngle ⟨Real.sin bnom.Phi, -Real.cos bnom.Phi, 0⟩ bnom.Theta ∧
    (LHelix.fieldRotation bnom).apply bnom = ⟨0, 0, bnom.R⟩ ∧
    0 < bnom.R ∧
    ((LHelix.fieldRotation bnom).apply bnom).Theta = 0 ∧
    ¬ (|((LHelix.fieldRotation bnom).apply bnom).Theta| > 1.0e-6) ∧
    ∀ (pos0 : Vec4) (mom0 : Mom4) (charge : ℤ) (trange : TRange),
      LHelix.construct pos0 mom0 charge bnom trange ≠
        Except.error InvalidArgument.bfieldError ∧
      ∃ h : LHelix, LHelix.construct pos0 mom0 charge bnom trange = Except.ok h := by
  have hpos : 0 < bnom.R := lt_of_le_of_ne (Real.sqrt_nonneg _) (Ne.symm hb)
  have hth : ((LHelix.fieldRotation bnom).apply bnom).Theta = 0 := by
    rw [LHelix.fieldRotation_apply_bnom]
    exact Vec3.Theta_z_axis _ (le_of_lt hpos)
  refine ⟨rfl, LHelix.fieldRotation_apply_bnom bnom, hpos, hth, ?_, ?_⟩
  · rw [hth]
    norm_num
  · intro pos0 mom0 charge trange
    rw [LHelix.construct_eq]
    exact ⟨fun hcon => (by cases hcon), _, rfl⟩

/-- Witness for C20: the field along the lab x axis is rotated onto the z axis. -/
theorem LHelix.fieldRotation_aligns_witness :
    tiltedField.R ≠ 0 ∧
    (LHelix.fieldRotation tiltedField).apply tiltedField = ⟨0, 0, 1⟩ ∧
    ((LHelix.fieldRotation tiltedField).apply tiltedField).Theta = 0 ∧
    ∃ h : LHelix, LHelix.construct tiltedPos tiltedMom (-1) tiltedField sampleRange =
      Except.ok h := by
  have hb : tiltedField.R ≠ 0 := by rw [tiltedField_angles.2.2]; exact one_ne_zero
  have h := LHelix.fieldRotation_aligns tiltedField hb
  refine ⟨hb, ?_, h.2.2.2.1, (h.2.2.2.2.2 tiltedPos tiltedMom (-1) sampleRange).2⟩
  rw [h.2.1, tiltedField_angles.2.2]

/-! ## Theorems: velocity -/

/-- The members and the radius, wavelength and reduced mass of a helix computed in the
sample field for charge -1. -/
theorem sampleField_params (pos0 : Vec4) (mom0 : Mom4) (trange : TRange) (h : LHelix)
    (hh : h = LHelix.setParameters (LHelix.initMembers mom0 (-1) sampleField trange)
      (LHelix.workingPos pos0 sampleField) (LHelix.workingMom mom0 sampleField)) :
    h.needsrot = false ∧ h.mass = mom0.m ∧ h.charge = -1 ∧ h.trange = trange ∧
    h.bnom = sampleField ∧
    h.rad = mom0.Pt * 1000 / c_light ∧ h.lam = mom0.pz * 1000 / c_light ∧
    h.mbar = mom0.m * 1000 / c_light := by
  obtain ⟨hmass, hq, htr, hbn, hflag, -, hmbar, hrad, hlam, -⟩ :=
    LHelix.setParameters_members _ _ _ h hh
  have hk : LHelix.momToRad (LHelix.initMembers mom0 (-1) sampleField trange).charge
      (LHelix.initMembers mom0 (-1) sampleField trange).bnom = -(1000 / c_light) := by
    show LHelix.momToRad (-1) sampleField = _
    unfold LHelix.momToRad
    rw [sampleField_Theta_R.2]
    push_cast
    rw [mul_one, neg_one_mul, div_neg]
    norm_num
  have hrot : ¬ (|sampleField.Theta| > 1.0e-6) := by
    rw [sampleField_Theta_R.1]
    norm_num
  rw [hk] at hmbar hrad hlam
  rw [(sampleField_working pos0 mom0).2] at hrad hlam
  refine ⟨?_, hmass, hq, htr, hbn, ?_, ?_, ?_⟩
  · rw [hflag]
    exact decide_eq_false hrot
  · rw [hrad]; ring
  · rw [hlam]; ring
  · rw [hmbar]
    show -mom0.m * -(1000 / c_light) = _
    ring

/-- A vector is its unit vector scaled by its length. -/
theorem Vec3.Unit_scale_R (v : Vec3) : v.Unit.scale v.R = v := by
  obtain ⟨x, y, z⟩ := v
  by_cases hR : (Vec3.mk x y z).R = 0
  · have hsum : x * x + y * y + z * z = 0 := by
      have h0 : 0 ≤ x * x + y * y + z * z :=
        add_nonneg (add_nonneg (mul_self_nonneg _) (mul_self_nonneg _)) (mul_self_nonneg _)
      have := Real.sqrt_eq_zero h0
      exact this.mp hR
    have hx : x = 0 := by nlinarith [mul_self_nonneg x, mul_self_nonneg y, mul_self_nonneg z]
    have hy : y = 0 := by nlinarith [mul_self_nonneg x, mul_self_nonneg y, mul_self_nonneg z]
    have hz : z = 0 := by nlinarith [mul_self_nonneg x, mul_self_nonneg y, mul_self_nonneg z]
    unfold Vec3.Unit Vec3.scale
    rw [if_pos hR, hR, hx, hy, hz]
    simp
  · unfold Vec3.Unit Vec3.scale
    rw [if_neg hR]
    simp only [Vec3.mk.injEq]
    refine ⟨?_, ?_, ?_⟩ <;> field_simp

/-- What `velocity` returns: the momentum vector times `c_light / |Q * ebar|`, rotated by
the cached rotation once more when the helix carries a rotation. -/
theorem LHelix.velocity_eq (h : LHelix) (t : ℝ) :
    h.velocity t =
      if h.needsrot = true then
        h.brot.apply (((h.momentum t).Vect.scale c_light).div |h.Q * h.ebar|)
      else ((h.momentum t).Vect.scale c_light).div |h.Q * h.ebar| := by
  unfold LHelix.velocity
  simp only

/-- The helix `tripleHelix`: no rotation, charge -1, positive `ebar`, and momentum
`(3, 0, 4)` at time zero. -/
theorem tripleHelix_facts :
    tripleHelix.needsrot = false ∧ tripleHelix.Q = -1 ∧ 0 < tripleHelix.ebar ∧
    tripleHelix.momentum 0 = tripleMom := by
  obtain ⟨hn, -, hq, -, -, -, hlam, -⟩ :=
    sampleField_params tiltedPos tripleMom sampleRange tripleHelix rfl
  have hc := c_light_pos
  have hl : tripleHelix.lam ≠ 0 := by
    rw [hlam]
    unfold tripleMom
    exact div_ne_zero (by norm_num) (ne_of_gt hc)
  refine ⟨hn, ?_, ?_, ?_⟩
  · unfold LHelix.Q
    rw [hq]
    norm_num
  · unfold LHelix.ebar
    apply Real.sqrt_pos.mpr
    have := mul_self_pos.mpr hl
    nlinarith [mul_self_nonneg tripleHelix.rad, mul_self_nonneg tripleHelix.mbar]
  · have hm : tripleMom.m ≠ 0 := by unfold tripleMom; norm_num
    have hb : sampleField.R ≠ 0 := by rw [sampleField_Theta_R.2]; exact one_ne_zero
    have hpt : (LHelix.workingMom tripleMom sampleField).Pt ≠ 0 := by
      rw [(sampleField_working tiltedPos tripleMom).2]
      unfold tripleMom Mom4.Pt
      have : (3 : ℝ) * 3 + 0 * 0 = 3 * 3 := by ring
      simp only [this]
      rw [Real.sqrt_mul_self (by norm_num)]
      norm_num
    have hpz : (LHelix.workingMom tripleMom sampleField).pz ≠ 0 := by
      rw [(sampleField_working tiltedPos tripleMom).2]
      unfold tripleMom
      norm_num
    exact (LHelix.setParameters_lab tiltedPos tripleMom (-1) sampleField sampleRange
      tripleHelix rfl hm (by decide) hb hpt hpz).2

/-- The length of the momentum `(3, 0, 4)` is 5. -/
theorem tripleMom_R : tripleMom.Vect.R = 5 := by
  unfold tripleMom Mom4.Vect Vec3.R
  have : (3 : ℝ) * 3 + 0 * 0 + 4 * 4 = 5 * 5 := by norm_num
  simp only [this]
  exact Real.sqrt_mul_self (by norm_num)

/-- The velocity of `tripleHelix` at time zero is the momentum vector `(3, 0, 4)` times
`c_light / |Q * ebar|`, five times as long as the unit vector of the momentum direction
times `c_light / |Q * ebar|`: C11 as stated fails there. -/
theorem LHelix.velocity_counterexample :
    LHelix.construct tiltedPos tripleMom (-1) sampleField sampleRange =
      Except.ok tripleHelix ∧
    (tripleHelix.momentum 0).Vect.Unit = ⟨3 / 5, 0, 4 / 5⟩ ∧
    tripleHelix.velocity 0 =
      ⟨3 * c_light / |tripleHelix.Q * tripleHelix.ebar|, 0,
        4 * c_light / |tripleHelix.Q * tripleHelix.ebar|⟩ ∧
    tripleHelix.velocity 0 ≠
      (tripleHelix.momentum 0).Vect.Unit.scale
        (c_light / |tripleHelix.Q * tripleHelix.ebar|) := by
  obtain ⟨hn, hq, he, hmom⟩ := tripleHelix_facts
  have hunit : (tripleHelix.momentum 0).Vect.Unit = ⟨3 / 5, 0, 4 / 5⟩ := by
    rw [hmom]
    unfold Vec3.Unit
    rw [tripleMom_R, if_neg (by norm_num)]
    unfold tripleMom Mom4.Vect
    simp
  have hvel : tripleHelix.velocity 0 =
      ⟨3 * c_light / |tripleHelix.Q * tripleHelix.ebar|, 0,
        4 * c_light / |tripleHelix.Q * tripleHelix.ebar|⟩ := by
    rw [LHelix.velocity_eq, hn, hmom]
    unfold tripleMom Mom4.Vect Vec3.scale Vec3.div
    simp
  refine ⟨LHelix.construct_eq _ _ _ _ _, hunit, hvel, ?_⟩
  rw [hvel, hunit]
  unfold Vec3.scale
  intro heq
  have hx := congrArg Vec3.x heq
  simp only at hx
  have habs : |tripleHelix.Q * tripleHelix.ebar| ≠ 0 := by
    rw [hq]
    simp only [neg_mul, one_mul, abs_neg]
    exact ne_of_gt (abs_pos.mpr (ne_of_gt he))
  have hc : c_light ≠ 0 := ne_of_gt c_light_pos
  field_simp at hx

/-- C11 (amended): for every helix that carries no rotation and every time `t`,
`velocity(t)` equals the momentum vector `momentum(t).Vect()` multiplied by
`c_light / |Q * ebar|`, that is the unit vector of the momentum direction multiplied by
`|momentum(t)| * c_light / |Q * ebar|`, with `Q` the charge and
`ebar = sqrt(radius^2 + wavelength^2 + mbar^2)`. -/
theorem LHelix.velocity_unrotated (h : LHelix) (t : ℝ) (hn : h.needsrot = false) :
    h.velocity t = ((h.momentum t).Vect.scale c_light).div |h.Q * h.ebar| ∧
    h.velocity t = (h.momentum t).Vect.scale (c_light / |h.Q * h.ebar|) ∧
    h.velocity t = (h.momentum t).Vect.Unit.scale
      ((h.momentum t).Vect.R * c_light / |(h.charge : ℝ) *
        Real.sqrt (h.rad * h.rad + h.lam * h.lam + h.mbar * h.mbar)|) := by
  have h1 : h.velocity t = ((h.momentum t).Vect.scale c_light).div |h.Q * h.ebar| := by
    rw [LHelix.velocity_eq, hn]
    simp
  have h2 : h.velocity t = (h.momentum t).Vect.scale (c_light / |h.Q * h.ebar|) := by
    rw [h1]
    unfold Vec3.scale Vec3.div
    simp only [Vec3.mk.injEq]
    refine ⟨?_, ?_, ?_⟩ <;> ring
  refine ⟨h1, h2, ?_⟩
  rw [h2]
  have hv := Vec3.Unit_scale_R (h.momentum t).Vect
  generalize (h.momentum t).Vect = v at *
  show v.scale (c_light / |h.Q * h.ebar|) = v.Unit.scale (v.R * c_light / |h.Q * h.ebar|)
  nth_rewrite 1 [← hv]
  unfold Vec3.scale
  simp only [Vec3.mk.injEq]
  refine ⟨?_, ?_, ?_⟩ <;> ring

/-- Witness for C11: the helix `tripleHelix`, which carries no rotation. -/
theorem LHelix.velocity_unrotated_witness :
    tripleHelix.needsrot = false ∧
    tripleHelix.velocity 0 =
      (tripleHelix.momentum 0).Vect.scale (c_light / |tripleHelix.Q * tripleHelix.ebar|) :=
  ⟨tripleHelix_facts.1, (LHelix.velocity_unrotated tripleHelix 0 tripleHelix_facts.1).2.1⟩

/-! ## Theorems: the length of the momDeriv directions -/

/-- The length of a vector is the square root of its scalar product with itself. -/
theorem Vec3.R_eq_sqrt_Dot (v : Vec3) : v.R = Real.sqrt (v.Dot v) := rfl

/-- An orthogonal rotation preserves lengths. -/
theorem Rotation3D.R_apply (r : Rotation3D) (h : r.IsOrthogonal) (v : Vec3) :
    (r.apply v).R = v.R := by
  rw [Vec3.R_eq_sqrt_Dot, Vec3.R_eq_sqrt_Dot, Rotation3D.Dot_apply r h]

/-- The unit vector of a vector of non-zero length has length one. -/
theorem Vec3.Unit_R (v : Vec3) (hv : v.R ≠ 0) : v.Unit.R = 1 := by
  have h0 : 0 ≤ v.x * v.x + v.y * v.y + v.z * v.z :=
    add_nonneg (add_nonneg (mul_self_nonneg _) (mul_self_nonneg _)) (mul_self_nonneg _)
  have hsq : v.R * v.R = v.x * v.x + v.y * v.y + v.z * v.z := Real.mul_self_sqrt h0
  unfold Vec3.Unit
  rw [if_neg hv]
  have hone : v.x / v.R * (v.x / v.R) + v.y / v.R * (v.y / v.R) + v.z / v.R * (v.z / v.R)
      = 1 := by
    field_simp
    linarith
  show Real.sqrt (v.x / v.R * (v.x / v.R) + v.y / v.R * (v.y / v.R) +
    v.z / v.R * (v.z / v.R)) = 1
  rw [hone, Real.sqrt_one]

/-- The working-frame theta1 direction has length one when radius and wavelength are not
both zero. -/
theorem LHelix.theta1_working_R (h : LHelix) (ph : ℝ) (hp : h.rad ≠ 0 ∨ h.lam ≠ 0) :
    (Vec3.scale ⟨h.lam * Real.cos ph, h.lam * Real.sin ph, -h.rad⟩
      (1.0 / copysign h.pbar h.mbar)).R = 1 := by
  have hP : 0 < h.rad * h.rad + h.lam * h.lam := by
    rcases hp with hr | hl
    · have := mul_self_pos.mpr hr
      nlinarith [mul_self_nonneg h.lam]
    · have := mul_self_pos.mpr hl
      nlinarith [mul_self_nonneg h.rad]
  have hpb : h.pbar * h.pbar = h.rad * h.rad + h.lam * h.lam :=
    Real.mul_self_sqrt (le_of_lt hP)
  have hpb0 : h.pbar ≠ 0 := by
    intro h0
    rw [h0] at hpb
    linarith
  have hcs : copysign h.pbar h.mbar * copysign h.pbar h.mbar = h.pbar * h.pbar := by
    unfold copysign
    split_ifs
    · exact abs_mul_abs_self _
    · rw [neg_mul_neg]
      exact abs_mul_abs_self _
  have hcs0 : copysign h.pbar h.mbar ≠ 0 := by
    intro h0
    rw [h0] at hcs
    exact hpb0 (mul_self_eq_zero.mp (by linarith))
  have hsc := Real.sin_sq_add_cos_sq ph
  unfold Vec3.scale Vec3.R
  simp only
  have hone : h.lam * Real.cos ph * (1.0 / copysign h.pbar h.mbar) *
        (h.lam * Real.cos ph * (1.0 / copysign h.pbar h.mbar)) +
      h.lam * Real.sin ph * (1.0 / copysign h.pbar h.mbar) *
        (h.lam * Real.sin ph * (1.0 / copysign h.pbar h.mbar)) +
      -h.rad * (1.0 / copysign h.pbar h.mbar) * (-h.rad * (1.0 / copysign h.pbar h.mbar))
      = 1 := by
    norm_num
    field_simp
    rw [hcs, hpb]
    linear_combination (h.lam * h.lam) * hsc
  rw [hone, Real.sqrt_one]

/-- The working-frame theta2 direction has length one. -/
theorem LHelix.theta2_working_R (ph : ℝ) :
    (Vec3.mk (-Real.sin ph) (Real.cos ph) 0.0).R = 1 := by
  unfold Vec3.R
  simp only
  have hone : -Real.sin ph * -Real.sin ph + Real.cos ph * Real.cos ph + (0.0 : ℝ) * 0.0 = 1 := by
    have := Real.sin_sq_add_cos_sq ph
    norm_num
    linarith [this]
  rw [hone, Real.sqrt_one]

/-- The momentum is not the zero vector when the mass and the reduced mass are non-zero and
radius and wavelength are not both zero. -/
theorem LHelix.momentum_R_ne_zero (h : LHelix) (t : ℝ) (hp : h.rad ≠ 0 ∨ h.lam ≠ 0)
    (hrot : h.needsrot = true → h.brot.IsOrthogonal) (hm : h.mass ≠ 0) (hmb : h.mbar ≠ 0) :
    (h.momentum t).Vect.R ≠ 0 := by
  have hf : h.mass / h.mbar ≠ 0 := div_ne_zero hm hmb
  have hP : 0 < h.rad * h.rad + h.lam * h.lam := by
    rcases hp with hr | hl
    · have := mul_self_pos.mpr hr
      nlinarith [mul_self_nonneg h.lam]
    · have := mul_self_pos.mpr hl
      nlinarith [mul_self_nonneg h.rad]
  have hw : ∀ ph : ℝ,
      (Mom4.Vect ⟨h.mass / h.mbar * h.rad * Real.cos ph, h.mass / h.mbar * h.rad * Real.sin ph,
        h.mass / h.mbar * h.lam, 0⟩).R ≠ 0 := by
    intro ph
    unfold Mom4.Vect Vec3.R
    simp only
    apply ne_of_gt
    apply Real.sqrt_pos.mpr
    have hsc := Real.sin_sq_add_cos_sq ph
    have hf2 := mul_self_pos.mpr hf
    have : h.mass / h.mbar * h.rad * Real.cos ph * (h.mass / h.mbar * h.rad * Real.cos ph) +
        h.mass / h.mbar * h.rad * Real.sin ph * (h.mass / h.mbar * h.rad * Real.sin ph) +
        h.mass / h.mbar * h.lam * (h.mass / h.mbar * h.lam) =
        (h.mass / h.mbar * (h.mass / h.mbar)) * (h.rad * h.rad + h.lam * h.lam) := by
      linear_combination (h.mass / h.mbar * (h.mass / h.mbar) * (h.rad * h.rad)) * hsc
    rw [this]
    positivity
  rw [LHelix.momentum_Vect]
  by_cases hn : h.needsrot = true
  · rw [if_pos hn, Rotation3D.R_apply _ (hrot hn)]
    exact hw _
  · rw [if_neg hn]
    exact hw _

/-- The direction returned by `momDeriv` for the momdir selector is the zero vector for the
helix of a particle of mass zero, although its radius is not zero: C12 as stated (length
one for every helix with radius and wavelength not both zero) fails there. -/
theorem LHelix.momDeriv_norm_counterexample :
    LHelix.construct samplePos masslessMom (-1) sampleField sampleRange =
      Except.ok masslessHelix ∧
    (masslessHelix.rad ≠ 0 ∨ masslessHelix.lam ≠ 0) ∧
    ∃ pder : PDER,
      masslessHelix.momDeriv MDir.momdir 0 = Except.ok (pder, ⟨0, 0, 0⟩) ∧
      (Vec3.mk 0 0 0).R ≠ 1 := by
  obtain ⟨hn, hmass, -, -, -, -, hlam, -⟩ :=
    sampleField_params samplePos masslessMom sampleRange masslessHelix rfl
  have hl : masslessHelix.lam ≠ 0 := by
    rw [hlam]
    unfold masslessMom
    exact div_ne_zero (by norm_num) (ne_of_gt c_light_pos)
  have hm0 : masslessHelix.mass = 0 := by rw [hmass]; rfl
  have hmomv : (masslessHelix.momentum 0).Vect = ⟨0, 0, 0⟩ := by
    rw [LHelix.momentum_Vect, hn, hm0]
    simp [Mom4.Vect]
  have hR0 : (Vec3.mk 0 0 0).R = 0 := by
    unfold Vec3.R
    simp
  have hdir : masslessHelix.direction 0 = ⟨0, 0, 0⟩ := by
    rw [LHelix.direction_eq, hn, hmomv]
    unfold Vec3.Unit
    rw [if_pos hR0]
    simp
  obtain ⟨p, hp⟩ := LHelix.momDeriv_momdir_unit masslessHelix 0
  refine ⟨LHelix.construct_eq _ _ _ _ _, Or.inr hl, p, ?_, ?_⟩
  · rw [hp, hn, hdir]
    simp
  · rw [hR0]
    norm_num

/-- C12 (amended): for every helix with radius and wavelength not both zero (the cached
rotation being a rotation, that is orthogonal) and every time `t`, the direction vector
returned by `momDeriv` has Euclidean norm exactly 1 for the selectors theta1 and theta2,
and also for momdir when the mass and the reduced mass `mbar` are non-zero; this holds
also when the helix carries a non-identity rotation. -/
theorem LHelix.momDeriv_unit_norm (h : LHelix) (t : ℝ) (hp : h.rad ≠ 0 ∨ h.lam ≠ 0)
    (hrot : h.needsrot = true → h.brot.IsOrthogonal) :
    ∃ (pder1 : PDER) (unit1 : Vec3) (pder2 : PDER) (unit2 : Vec3) (pder3 : PDER)
        (unit3 : Vec3),
      h.momDeriv MDir.theta1 t = Except.ok (pder1, unit1) ∧
      h.momDeriv MDir.theta2 t = Except.ok (pder2, unit2) ∧
      h.momDeriv MDir.momdir t = Except.ok (pder3, unit3) ∧
      unit1.R = 1 ∧ unit2.R = 1 ∧
      (h.mass ≠ 0 → h.mbar ≠ 0 → unit3.R = 1) := by
  obtain ⟨p1, h1⟩ := LHelix.momDeriv_theta1_unit h t
  obtain ⟨p2, h2⟩ := LHelix.momDeriv_theta2_unit h t
  obtain ⟨p3, h3⟩ := LHelix.momDeriv_momdir_unit h t
  refine ⟨p1, _, p2, _, p3, _, h1, h2, h3, ?_, ?_, ?_⟩
  · by_cases hn : h.needsrot = true
    · rw [if_pos hn, Rotation3D.R_apply _ (hrot hn)]
      exact LHelix.theta1_working_R h _ hp
    · rw [if_neg hn]
      exact LHelix.theta1_working_R h _ hp
  · by_cases hn : h.needsrot = true
    · rw [if_pos hn, Rotation3D.R_apply _ (hrot hn)]
      exact LHelix.theta2_working_R _
    · rw [if_neg hn]
      exact LHelix.theta2_working_R _
  · intro hm hmb
    have hne := LHelix.momentum_R_ne_zero h t hp hrot hm hmb
    have hu := Vec3.Unit_R _ hne
    rw [LHelix.direction_eq]
    by_cases hn : h.needsrot = true
    · rw [if_pos hn, if_pos hn, Rotation3D.R_apply _ (hrot hn),
        Rotation3D.R_apply _ (hrot hn)]
      exact hu
    · rw [if_neg hn, if_neg hn]
      exact hu

/-- Witness for C12: the tilted sample helix, which carries a rotation and has non-zero
mass and reduced mass. -/
theorem LHelix.momDeriv_unit_norm_witness :
    ((tiltedHelix.rad ≠ 0 ∨ tiltedHelix.lam ≠ 0) ∧
      (tiltedHelix.needsrot = true → tiltedHelix.brot.IsOrthogonal) ∧
      tiltedHelix.mass ≠ 0 ∧ tiltedHelix.mbar ≠ 0) ∧
    ∃ (unit1 unit2 unit3 : Vec3),
      (∃ pder : PDER, tiltedHelix.momDeriv MDir.theta1 0 = Except.ok (pder, unit1)) ∧
      (∃ pder : PDER, tiltedHelix.momDeriv MDir.theta2 0 = Except.ok (pder, unit2)) ∧
      (∃ pder : PDER, tiltedHelix.momDeriv MDir.momdir 0 = Except.ok (pder, unit3)) ∧
      unit1.R = 1 ∧ unit2.R = 1 ∧ unit3.R = 1 := by
  obtain ⟨hmass, hq, -, hbn, -, -, hmbar, -, hlam, -⟩ :=
    LHelix.setParameters_members _ _ _ tiltedHelix rfl
  have hk : LHelix.momToRad (-1) tiltedField ≠ 0 :=
    LHelix.momToRad_ne_zero _ _ (by decide)
      (by rw [tiltedField_angles.2.2]; exact one_ne_zero)
  have hm : tiltedHelix.mass ≠ 0 := by
    rw [hmass]
    show tiltedMom.m ≠ 0
    unfold tiltedMom
    norm_num
  have hmb : tiltedHelix.mbar ≠ 0 := by
    rw [hmbar]
    refine mul_ne_zero (neg_ne_zero.mpr ?_) hk
    show tiltedMom.m ≠ 0
    unfold tiltedMom
    norm_num
  have hl : tiltedHelix.lam ≠ 0 := by
    rw [hlam, tiltedHelix_members.2.2]
    refine mul_ne_zero ?_ hk
    norm_num
  have hrot : tiltedHelix.needsrot = true → tiltedHelix.brot.IsOrthogonal := fun _ =>
    LHelix.construct_brot_isOrthogonal tiltedPos tiltedMom (-1) tiltedField sampleRange
      tiltedHelix (LHelix.construct_eq _ _ _ _ _)
  obtain ⟨p1, u1, p2, u2, p3, u3, h1, h2, h3, n1, n2, n3⟩ :=
    LHelix.momDeriv_unit_norm tiltedHelix 0 (Or.inr hl) hrot
  exact ⟨⟨Or.inr hl, hrot, hm, hmb⟩, u1, u2, u3, ⟨p1, h1⟩, ⟨p2, h2⟩, ⟨p3, h3⟩, n1, n2,
    n3 hm hmb⟩

/-! ## Theorems: rangeInTolerance -/

/-- What the loop of `rangeInTolerance` returns: the state after some number `k` of passes,
at most the passes allowed; `drange.low()` is untouched, `drange.high()` has advanced by
`k` steps, the loop condition fails in the returned state, held in the entry state when
a pass was made, and the last pass started below the range limit. -/
theorem LHelix.rangeLoop_some (h : LHelix) (fieldVect : Vec3 → Vec3) (ptol sfac tstep : ℝ) :
    ∀ (fuel : ℕ) (s r : RangeState),
      LHelix.rangeLoop h fieldVect ptol sfac tstep fuel s = some r →
      ∃ k : ℕ, k ≤ fuel ∧
        r.drange.high = s.drange.high + (k : ℝ) * tstep ∧
        r.drange.low = s.drange.low ∧
        ¬ h.rangeCond ptol r ∧
        (k = 0 → r = s) ∧
        (0 < k → h.rangeCond ptol s ∧ r.drange.high - tstep < h.range.high) := by
  intro fuel
  induction fuel with
  | zero =>
      intro s r hr
      unfold LHelix.rangeLoop at hr
      split_ifs at hr with hc
      injection hr with hr
      subst hr
      exact ⟨0, le_refl _, by simp, rfl, hc, fun _ => rfl, fun hk => absurd hk (lt_irrefl _)⟩
  | succ n ih =>
      intro s r hr
      unfold LHelix.rangeLoop at hr
      split_ifs at hr with hc
      · obtain ⟨k, hk, hhigh, hlow, hexit, hzero, hposk⟩ := ih _ r hr
        refine ⟨k + 1, Nat.succ_le_succ hk, ?_, ?_, hexit, ?_, ?_⟩
        · rw [hhigh]
          show s.drange.high + tstep + (k : ℝ) * tstep = _
          push_cast
          ring
        · rw [hlow]
          rfl
        · intro hk0
          exact absurd hk0 (Nat.succ_ne_zero k)
        · intro _
          refine ⟨hc, ?_⟩
          rcases Nat.eq_zero_or_pos k with hk0 | hkpos
          · have hrs := hzero hk0
            rw [hrs]
            show s.drange.high + tstep - tstep < h.range.high
            have := hc.2
            linarith
          · exact (hposk hkpos).2
      · injection hr with hr
        subst hr
        exact ⟨0, Nat.zero_le _, by simp, rfl, hc, fun _ => rfl,
          fun hk => absurd hk (lt_irrefl _)⟩

/-- More passes allowed do not change what the loop returns. -/
theorem LHelix.rangeLoop_mono (h : LHelix) (fieldVect : Vec3 → Vec3) (ptol sfac tstep : ℝ) :
    ∀ (fuel : ℕ) (s r : RangeState),
      LHelix.rangeLoop h fieldVect ptol sfac tstep fuel s = some r →
      ∀ more : ℕ, LHelix.rangeLoop h fieldVect ptol sfac tstep (fuel + more) s = some r := by
  intro fuel
  induction fuel with
  | zero =>
      intro s r hr more
      unfold LHelix.rangeLoop at hr
      split_ifs at hr with hc
      cases more with
      | zero => unfold LHelix.rangeLoop; rw [if_neg hc]; exact hr
      | succ m =>
          rw [Nat.zero_add]
          unfold LHelix.rangeLoop
          rw [if_neg hc]
          exact hr
  | succ n ih =>
      intro s r hr more
      unfold LHelix.rangeLoop at hr
      rw [Nat.succ_add]
      unfold LHelix.rangeLoop
      split_ifs at hr ⊢ with hc
      · exact ih _ r hr more
      · exact hr

/-- The loop ends once the passes allowed, times the step, cover the distance to the range
limit. -/
theorem LHelix.rangeLoop_terminates (h : LHelix) (fieldVect : Vec3 → Vec3)
    (ptol sfac tstep : ℝ) :
    ∀ (fuel : ℕ) (s : RangeState), h.range.high - s.drange.high ≤ (fuel : ℝ) * tstep →
      ∃ r : RangeState, LHelix.rangeLoop h fieldVect ptol sfac tstep fuel s = some r := by
  intro fuel
  induction fuel with
  | zero =>
      intro s hs
      unfold LHelix.rangeLoop
      have hc : ¬ h.rangeCond ptol s := by
        rintro ⟨-, hlt⟩
        simp only [Nat.cast_zero, zero_mul] at hs
        linarith
      rw [if_neg hc]
      exact ⟨s, rfl⟩
  | succ n ih =>
      intro s hs
      unfold LHelix.rangeLoop
      split_ifs with hc
      · apply ih
        show h.range.high - (s.drange.high + tstep) ≤ (n : ℝ) * tstep
        push_cast at hs
        linarith
      · exact ⟨s, rfl⟩

/-- With a positive step some number of passes covers the distance to the range limit. -/
theorem exists_fuel_covering (d tstep : ℝ) (htstep : 0 < tstep) :
    ∃ fuel : ℕ, d ≤ (fuel : ℝ) * tstep := by
  obtain ⟨n, hn⟩ := exists_nat_ge (d / tstep)
  refine ⟨n, ?_⟩
  have := (div_le_iff₀ htstep).mp hn
  exact this

/-- The step of `rangeInTolerance` is positive for a positive `ebar` and a positive
direction tolerance. -/
theorem LHelix.tstep_pos (h : LHelix) (dtol : ℝ) (he : 0 < h.ebar) (hd : 0 < dtol) :
    0 < h.tstep dtol := by
  unfold LHelix.tstep
  exact div_pos (mul_pos hd he) c_light_pos

/-- The step of `rangeInTolerance` is not negative for a direction tolerance that is not
negative. -/
theorem LHelix.tstep_nonneg (h : LHelix) (dtol : ℝ) (hd : 0 ≤ dtol) : 0 ≤ h.tstep dtol := by
  unfold LHelix.tstep
  exact div_nonneg (mul_nonneg hd (Real.sqrt_nonneg _)) (le_of_lt c_light_pos)

/-- C18: for every helix with positive `ebar`, every field source and every strictly
positive direction tolerance `dtol`, the stepping loop of `rangeInTolerance` terminates
after finitely many steps of size `tstep = dtol * ebar / c_light` (whatever larger number
of passes is allowed, the same state is returned), and on return either the accumulated
distortion satisfies `|dx| >= ptol` or `range.high` is at least the helix's own
`range().high()`. -/
theorem LHelix.rangeInTolerance_terminates (h : LHelix) (speed : ℝ → ℝ)
    (fieldVect : Vec3 → Vec3) (drange : TRange) (dtol ptol : ℝ)
    (he : 0 < h.ebar) (hd : 0 < dtol) :
    ∃ (fuel : ℕ) (r : RangeState) (k : ℕ),
      h.rangeInToleranceState speed fieldVect drange dtol ptol fuel = some r ∧
      (∀ more : ℕ,
        h.rangeInToleranceState speed fieldVect drange dtol ptol (fuel + more) = some r) ∧
      k ≤ fuel ∧
      r.drange.high = drange.high + (k : ℝ) * (dtol * h.ebar / c_light) ∧
      (ptol ≤ |r.dx| ∨ h.range.high ≤ r.drange.high) := by
  have htstep : 0 < dtol * h.ebar / c_light := LHelix.tstep_pos h dtol he hd
  obtain ⟨fuel, hfuel⟩ := exists_fuel_covering (h.range.high - drange.high) _ htstep
  obtain ⟨r, hr⟩ := LHelix.rangeLoop_terminates h fieldVect ptol
    (speed drange.low * speed drange.low / (h.bnom.R * h.pbar)) (dtol * h.ebar / c_light)
    fuel ⟨0.0, drange⟩ hfuel
  obtain ⟨k, hk, hhigh, -, hexit, -, -⟩ := LHelix.rangeLoop_some h fieldVect ptol _ _ fuel _ r hr
  refine ⟨fuel, r, k, hr, ?_, hk, hhigh, ?_⟩
  · intro more
    exact LHelix.rangeLoop_mono h fieldVect ptol _ _ fuel _ r hr more
  · by_contra hcon
    push_neg at hcon
    exact hexit ⟨hcon.1, hcon.2⟩

/-- The helix `tripleHelix`: field, range, radius, wavelength, reduced mass, `pbar`, `ebar`
and `beta`. -/
theorem tripleHelix_values :
    tripleHelix.bnom = sampleField ∧ tripleHelix.range.high = 10 ∧
    tripleHelix.rad = 3000 / c_light ∧ tripleHelix.lam = 4000 / c_light ∧
    tripleHelix.mbar = 12000 / c_light ∧
    tripleHelix.pbar = 5000 / c_light ∧ tripleHelix.ebar = 13000 / c_light ∧
    tripleHelix.beta = 5 / 13 := by
  obtain ⟨-, -, -, htr, hbn, hrad, hlam, hmbar⟩ :=
    sampleField_params tiltedPos tripleMom sampleRange tripleHelix rfl
  have hc := c_light_pos
  have hc0 : c_light ≠ 0 := ne_of_gt hc
  have hpt : tripleMom.Pt = 3 := by
    unfold tripleMom Mom4.Pt
    have : (3 : ℝ) * 3 + 0 * 0 = 3 * 3 := by ring
    simp only [this]
    exact Real.sqrt_mul_self (by norm_num)
  have hrad2 : tripleHelix.rad = 3000 / c_light := by
    rw [hrad, hpt]; ring
  have hlam2 : tripleHelix.lam = 4000 / c_light := by
    rw [hlam]; unfold tripleMom; ring
  have hmbar2 : tripleHelix.mbar = 12000 / c_light := by
    rw [hmbar]; unfold tripleMom; ring
  have hpbar : tripleHelix.pbar = 5000 / c_light := by
    unfold LHelix.pbar
    rw [hrad2, hlam2]
    have : (3000 / c_light) * (3000 / c_light) + (4000 / c_light) * (4000 / c_light) =
        (5000 / c_light) * (5000 / c_light) := by ring
    rw [this]
    exact Real.sqrt_mul_self (le_of_lt (div_pos (by norm_num) hc))
  have hebar : tripleHelix.ebar = 13000 / c_light := by
    unfold LHelix.ebar
    rw [hrad2, hlam2, hmbar2]
    have : (3000 / c_light) * (3000 / c_light) + (4000 / c_light) * (4000 / c_light) +
        (12000 / c_light) * (12000 / c_light) = (13000 / c_light) * (13000 / c_light) := by
      ring
    rw [this]
    exact Real.sqrt_mul_self (le_of_lt (div_pos (by norm_num) hc))
  refine ⟨hbn, ?_, hrad2, hlam2, hmbar2, hpbar, hebar, ?_⟩
  · show tripleHelix.trange.high = 10
    rw [htr]
    rfl
  · unfold LHelix.beta
    rw [hpbar, hebar]
    field_simp
    norm_num

/-- Witness for C18: the helix `tripleHelix` with direction tolerance 1. -/
theorem LHelix.rangeInTolerance_terminates_witness :
    (0 < tripleHelix.ebar ∧ (0 : ℝ) < 1) ∧
    ∃ (fuel : ℕ) (r : RangeState),
      tripleHelix.rangeInToleranceState tripleSpeed offsetField ⟨0, 5⟩ 1 1 fuel = some r ∧
      ((1 : ℝ) ≤ |r.dx| ∨ tripleHelix.range.high ≤ r.drange.high) := by
  have he : 0 < tripleHelix.ebar := tripleHelix_facts.2.2.1
  obtain ⟨fuel, r, k, hr, -, -, -, hexit⟩ :=
    LHelix.rangeInTolerance_terminates tripleHelix tripleSpeed offsetField ⟨0, 5⟩ 1 1 he
      one_pos
  exact ⟨⟨he, one_pos⟩, fuel, r, hr, hexit⟩

/-- When the loop condition holds on entry and fails after one pass, the loop returns the
state after that pass. -/
theorem LHelix.rangeLoop_one_step (h : LHelix) (fieldVect : Vec3 → Vec3)
    (ptol sfac tstep : ℝ) (s : RangeState) (hc : h.rangeCond ptol s)
    (hexit : ¬ h.rangeCond ptol (h.rangeStep fieldVect sfac tstep s)) :
    LHelix.rangeLoop h fieldVect ptol sfac tstep 1 s =
      some (h.rangeStep fieldVect sfac tstep s) := by
  unfold LHelix.rangeLoop
  rw [if_pos hc]
  unfold LHelix.rangeLoop
  rw [if_neg hexit]

/-- The range returned by `rangeInTolerance` is the range of the state its loop returns. -/
theorem LHelix.rangeInTolerance_eq_some (h : LHelix) (speed : ℝ → ℝ)
    (fieldVect : Vec3 → Vec3) (drange : TRange) (dtol ptol : ℝ) (fuel : ℕ) (r : TRange)
    (hr : h.rangeInTolerance speed fieldVect drange dtol ptol fuel = some r) :
    ∃ st : RangeState,
      LHelix.rangeLoop h fieldVect ptol
        (speed drange.low * speed drange.low / (h.bnom.R * h.pbar)) (h.tstep dtol) fuel
        ⟨0.0, drange⟩ = some st ∧ st.drange = r := by
  unfold LHelix.rangeInTolerance at hr
  obtain ⟨st, hst, hdr⟩ := Option.map_eq_some'.mp hr
  exact ⟨st, hst, hdr⟩

/-- One step beyond the limit: for `tripleHelix`, whose own range ends at 10, an input range
ending at 9.9 and direction tolerance 1 (step `13000 / c_light^2`, about 0.145),
`rangeInTolerance` leaves `range.high` above 10: C14 as stated fails there. -/
theorem LHelix.rangeInTolerance_overshoot_counterexample :
    (TRange.mk 0 9.9).high ≤ tripleHelix.range.high ∧
    tripleHelix.rangeInTolerance tripleSpeed uniformField ⟨0, 9.9⟩ 1 1 1 =
      some ⟨0, 9.9 + 1 * tripleHelix.ebar / c_light⟩ ∧
    tripleHelix.range.high < 9.9 + 1 * tripleHelix.ebar / c_light := by
  obtain ⟨-, hhigh, -, -, -, -, hebar, -⟩ := tripleHelix_values
  have hc := c_light_pos
  have hstep : (0.1 : ℝ) < 1 * tripleHelix.ebar / c_light := by
    rw [hebar, one_mul, div_div, lt_div_iff₀ (mul_pos hc hc)]
    unfold c_light
    norm_num
  have hcond : tripleHelix.rangeCond 1 ⟨0.0, ⟨0, 9.9⟩⟩ := by
    refine ⟨by norm_num, ?_⟩
    rw [hhigh]
    norm_num
  refine ⟨?_, ?_, ?_⟩
  · rw [hhigh]
    norm_num
  · unfold LHelix.rangeInTolerance LHelix.rangeInToleranceState
    simp only
    rw [LHelix.rangeLoop_one_step _ _ _ _ _ _ hcond]
    · rfl
    · rintro ⟨-, hlt⟩
      rw [hhigh] at hlt
      have : (9.9 : ℝ) + 1 * tripleHelix.ebar / c_light < 10 := hlt
      linarith
  · rw [hhigh]
    linarith

/-- C14 (amended): for every helix, field source, tolerances and input range whose high
end does not exceed the helix's own range high end, the `range.high` left by
`rangeInTolerance` exceeds the helix's own `range().high()` by less than one step
`tstep = dtol * ebar / c_light`, and does not exceed it at all when the step is not
positive; for a positive step the function returns. -/
theorem LHelix.rangeInTolerance_high_bound (h : LHelix) (speed : ℝ → ℝ)
    (fieldVect : Vec3 → Vec3) (drange : TRange) (dtol ptol : ℝ)
    (hin : drange.high ≤ h.range.high) :
    (∀ (fuel : ℕ) (r : TRange),
      h.rangeInTolerance speed fieldVect drange dtol ptol fuel = some r →
        r.high ≤ h.range.high ∨
        (0 < dtol * h.ebar / c_light ∧ r.high < h.range.high + dtol * h.ebar / c_light)) ∧
    (0 < dtol * h.ebar / c_light →
      ∃ (fuel : ℕ) (r : TRange),
        h.rangeInTolerance speed fieldVect drange dtol ptol fuel = some r) := by
  constructor
  · intro fuel r hr
    obtain ⟨st, hst, hdr⟩ := LHelix.rangeInTolerance_eq_some h speed fieldVect drange dtol
      ptol fuel r hr
    obtain ⟨k, -, hhigh, -, -, hzero, hposk⟩ := LHelix.rangeLoop_some h fieldVect ptol _ _
      fuel _ st hst
    rw [← hdr]
    rcases Nat.eq_zero_or_pos k with hk0 | hkpos
    · left
      rw [hzero hk0]
      exact hin
    · have hlast : st.drange.high - h.tstep dtol < h.range.high := (hposk hkpos).2
      have hlast2 : st.drange.high - dtol * h.ebar / c_light < h.range.high := hlast
      by_cases hts : 0 < dtol * h.ebar / c_light
      · right
        exact ⟨hts, by linarith⟩
      · left
        linarith
  · intro hts
    obtain ⟨fuel, hfuel⟩ := exists_fuel_covering (h.range.high - drange.high) _ hts
    obtain ⟨st, hst⟩ := LHelix.rangeLoop_terminates h fieldVect ptol
      (speed drange.low * speed drange.low / (h.bnom.R * h.pbar)) (dtol * h.ebar / c_light)
      fuel ⟨0.0, drange⟩ hfuel
    refine ⟨fuel, st.drange, ?_⟩
    unfold LHelix.rangeInTolerance LHelix.rangeInToleranceState
    simp only
    rw [hst]
    rfl

/-- Witness for C14: `tripleHelix` with an input range ending at 9.9. -/
theorem LHelix.rangeInTolerance_high_bound_witness :
    (TRange.mk 0 9.9).high ≤ tripleHelix.range.high ∧
    ∀ (fuel : ℕ) (r : TRange),
      tripleHelix.rangeInTolerance tripleSpeed uniformField ⟨0, 9.9⟩ 1 1 fuel = some r →
        r.high ≤ tripleHelix.range.high ∨
        (0 < 1 * tripleHelix.ebar / c_light ∧
          r.high < tripleHelix.range.high + 1 * tripleHelix.ebar / c_light) := by
  have hin : (TRange.mk 0 9.9).high ≤ tripleHelix.range.high := by
    rw [tripleHelix_values.2.1]
    norm_num
  exact ⟨hin, (LHelix.rangeInTolerance_high_bound tripleHelix tripleSpeed uniformField
    ⟨0, 9.9⟩ 1 1 hin).1⟩

/-- A negative direction tolerance makes `rangeInTolerance` step backwards: for
`tripleHelix` in a field source 1 Tesla above nominal, with input range from 0 to 5,
direction tolerance -1 and position tolerance 1, the first pass accumulates the distortion
`-(25 / 13) * c_light` and the function returns `range.high = 5 - 13000 / c_light^2`, below
the value 5 on entry: C15 as stated fails there. -/
theorem LHelix.rangeInTolerance_decrease_counterexample :
    ∃ r : RangeState,
      tripleHelix.rangeInToleranceState tripleSpeed offsetField ⟨0, 5⟩ (-1) 1 1 = some r ∧
      tripleHelix.rangeInTolerance tripleSpeed offsetField ⟨0, 5⟩ (-1) 1 1 = some r.drange ∧
      r.dx = -(25 / 13) * c_light ∧
      r.drange.high = 5 - 13000 / (c_light * c_light) ∧
      r.drange.high < (TRange.mk 0 5).high := by
  obtain ⟨hbn, hhigh, -, -, -, hpbar, hebar, hbeta⟩ := tripleHelix_values
  have hc := c_light_pos
  have hc0 : c_light ≠ 0 := ne_of_gt hc
  have hdb : ((offsetField (tripleHelix.position (TRange.mk 0 5).high)).sub tripleHelix.bnom).R
      = 1 := by
    rw [hbn]
    unfold offsetField sampleField Vec3.sub Vec3.R
    norm_num
  have hcond : tripleHelix.rangeCond 1 ⟨0.0, ⟨0, 5⟩⟩ := by
    refine ⟨by norm_num, ?_⟩
    rw [hhigh]
    norm_num
  have hdx : (tripleHelix.rangeStep offsetField
      (tripleSpeed (TRange.mk 0 5).low * tripleSpeed (TRange.mk 0 5).low /
        (tripleHelix.bnom.R * tripleHelix.pbar)) (-1 * tripleHelix.ebar / c_light)
      ⟨0.0, ⟨0, 5⟩⟩).dx = -(25 / 13) * c_light := by
    unfold LHelix.rangeStep
    simp only
    rw [hdb]
    unfold tripleSpeed TRange.range
    rw [hbeta, hbn, sampleField_Theta_R.2, hpbar, hebar]
    norm_num
    field_simp
    ring
  have hhi : (tripleHelix.rangeStep offsetField
      (tripleSpeed (TRange.mk 0 5).low * tripleSpeed (TRange.mk 0 5).low /
        (tripleHelix.bnom.R * tripleHelix.pbar)) (-1 * tripleHelix.ebar / c_light)
      ⟨0.0, ⟨0, 5⟩⟩).drange.high = 5 - 13000 / (c_light * c_light) := by
    unfold LHelix.rangeStep
    simp only
    rw [hebar]
    field_simp
    ring
  have hexit : ¬ tripleHelix.rangeCond 1 (tripleHelix.rangeStep offsetField
      (tripleSpeed (TRange.mk 0 5).low * tripleSpeed (TRange.mk 0 5).low /
        (tripleHelix.bnom.R * tripleHelix.pbar)) (-1 * tripleHelix.ebar / c_light)
      ⟨0.0, ⟨0, 5⟩⟩) := by
    rintro ⟨hlt, -⟩
    rw [hdx, abs_lt] at hlt
    have : (1 : ℝ) < c_light := by unfold c_light; norm_num
    linarith [hlt.1]
  have hloop := LHelix.rangeLoop_one_step tripleHelix offsetField 1 _ _ _ hcond hexit
  refine ⟨_, hloop, ?_, hdx, hhi, ?_⟩
  · unfold LHelix.rangeInTolerance
    have : tripleHelix.rangeInToleranceState tripleSpeed offsetField ⟨0, 5⟩ (-1) 1 1 = _ :=
      hloop
    rw [this]
    rfl
  · rw [hhi]
    have : 0 < 13000 / (c_light * c_light) := div_pos (by norm_num) (mul_pos hc hc)
    show 5 - 13000 / (c_light * c_light) < 5
    linarith

/-- C15 (amended): for every helix, field source, input range, position tolerance and
direction tolerance that is not negative, `rangeInTolerance` never decreases
`range.high`: the value on return is greater than or equal to the value on entry, and
equal to it when the entry value already reaches the helix's own range high end or the
position tolerance is not positive (the function then returns at once); for a positive
direction tolerance and a positive `ebar` the function returns. -/
theorem LHelix.rangeInTolerance_high_nondecreasing (h : LHelix) (speed : ℝ → ℝ)
    (fieldVect : Vec3 → Vec3) (drange : TRange) (dtol ptol : ℝ) (hd : 0 ≤ dtol) :
    (∀ (fuel : ℕ) (r : TRange),
      h.rangeInTolerance speed fieldVect drange dtol ptol fuel = some r →
        drange.high ≤ r.high ∧
        ((h.range.high ≤ drange.high ∨ ptol ≤ 0) → r.high = drange.high)) ∧
    ((h.range.high ≤ drange.high ∨ ptol ≤ 0) →
      ∀ fuel : ℕ, h.rangeInTolerance speed fieldVect drange dtol ptol fuel = some drange) ∧
    (0 < dtol → 0 < h.ebar →
      ∃ (fuel : ℕ) (r : TRange),
        h.rangeInTolerance speed fieldVect drange dtol ptol fuel = some r) := by
  have hts : 0 ≤ h.tstep dtol := LHelix.tstep_nonneg h dtol hd
  have hnocond : (h.range.high ≤ drange.high ∨ ptol ≤ 0) →
      ¬ h.rangeCond ptol ⟨0.0, drange⟩ := by
    rintro (hreach | hptol) ⟨hdx, hlt⟩
    · have : drange.high < h.range.high := hlt
      linarith
    · have : |(0.0 : ℝ)| < ptol := hdx
      have h0 := abs_nonneg (0.0 : ℝ)
      linarith
  refine ⟨?_, ?_, ?_⟩
  · intro fuel r hr
    obtain ⟨st, hst, hdr⟩ := LHelix.rangeInTolerance_eq_some h speed fieldVect drange dtol
      ptol fuel r hr
    obtain ⟨k, -, hhigh, -, -, hzero, hposk⟩ := LHelix.rangeLoop_some h fieldVect ptol _ _
      fuel _ st hst
    rw [← hdr]
    constructor
    · rw [hhigh]
      have : 0 ≤ (k : ℝ) * h.tstep dtol := mul_nonneg (Nat.cast_nonneg k) hts
      show drange.high ≤ drange.high + (k : ℝ) * h.tstep dtol
      linarith
    · intro hcase
      rcases Nat.eq_zero_or_pos k with hk0 | hkpos
      · rw [hzero hk0]
      · exact absurd (hposk hkpos).1 (hnocond hcase)
  · intro hcase fuel
    have hc := hnocond hcase
    unfold LHelix.rangeInTolerance LHelix.rangeInToleranceState
    simp only
    cases fuel with
    | zero => unfold LHelix.rangeLoop; rw [if_neg hc]; rfl
    | succ n => unfold LHelix.rangeLoop; rw [if_neg hc]; rfl
  · intro hdpos he
    have htpos : 0 < dtol * h.ebar / c_light := LHelix.tstep_pos h dtol he hdpos
    obtain ⟨fuel, hfuel⟩ := exists_fuel_covering (h.range.high - drange.high) _ htpos
    obtain ⟨st, hst⟩ := LHelix.rangeLoop_terminates h fieldVect ptol
      (speed drange.low * speed drange.low / (h.bnom.R * h.pbar)) (dtol * h.ebar / c_light)
      fuel ⟨0.0, drange⟩ hfuel
    refine ⟨fuel, st.drange, ?_⟩
    unfold LHelix.rangeInTolerance LHelix.rangeInToleranceState
    simp only
    rw [hst]
    rfl

/-- Witness for C15: `tripleHelix` with direction tolerance 1. -/
theorem LHelix.rangeInTolerance_high_nondecreasing_witness :
    (0 : ℝ) ≤ 1 ∧
    (∀ (fuel : ℕ) (r : TRange),
      tripleHelix.rangeInTolerance tripleSpeed offsetField ⟨0, 5⟩ 1 1 fuel = some r →
        (TRange.mk 0 5).high ≤ r.high) ∧
    ∃ (fuel : ℕ) (r : TRange),
      tripleHelix.rangeInTolerance tripleSpeed offsetField ⟨0, 5⟩ 1 1 fuel = some r := by
  have h := LHelix.rangeInTolerance_high_nondecreasing tripleHelix tripleSpeed offsetField
    ⟨0, 5⟩ 1 1 zero_le_one
  exact ⟨zero_le_one, fun fuel r hr => (h.1 fuel r hr).1,
    h.2.2 one_pos tripleHelix_facts.2.2.1⟩

/-! ## Theorems: first-order change of the position along the derivative vectors -/

/-- An affine function of `ε` has its slope as derivative. -/
theorem hasDerivAt_affine (a d : ℝ) : HasDerivAt (fun ε : ℝ => a + ε * d) d 0 := by
  have := ((hasDerivAt_id (0 : ℝ)).mul_const d).const_add a
  simpa using this

/-- The angular velocity along a line in parameter space: its derivative at the start. -/
theorem hasDerivAt_omega (s m R L dR dL : ℝ) (hE : 0 < R * R + L * L + m * m) :
    HasDerivAt (fun ε : ℝ => s / Real.sqrt ((R + ε * dR) * (R + ε * dR) +
        (L + ε * dL) * (L + ε * dL) + m * m))
      (-(s * (R * dR + L * dL)) / (Real.sqrt (R * R + L * L + m * m) *
        (R * R + L * L + m * m))) 0 := by
  have hR := hasDerivAt_affine R dR
  have hL := hasDerivAt_affine L dL
  have hE2 := ((hR.mul hR).add (hL.mul hL)).add_const (m * m)
  have hne : (R + 0 * dR) * (R + 0 * dR) + (L + 0 * dL) * (L + 0 * dL) + m * m ≠ 0 := by
    simp only [zero_mul, add_zero]
    exact ne_of_gt hE
  have hsq := hE2.sqrt hne
  have hsne : Real.sqrt ((R + 0 * dR) * (R + 0 * dR) + (L + 0 * dL) * (L + 0 * dL) + m * m)
      ≠ 0 := by
    simp only [zero_mul, add_zero]
    exact ne_of_gt (Real.sqrt_pos.mpr hE)
  have hdiv := (hasDerivAt_const (0 : ℝ) s).div hsq hsne
  refine hdiv.congr_deriv ?_
  simp only [zero_mul, add_zero]
  have hpos := Real.sqrt_pos.mpr hE
  have hmul := Real.mul_self_sqrt (le_of_lt hE)
  generalize Real.sqrt (R * R + L * L + m * m) = E at *
  have hE0 : E ≠ 0 := ne_of_gt hpos
  rw [← hmul]
  field_simp
  ring

/-- The three coordinates of the working-frame position along a line in parameter space:
their derivatives at the start, that is the Jacobian of the position with respect to the
six parameters applied to the direction of the line. -/
theorem hasDerivAt_helix_position (s m t R L cx cy p0 t0 dR dL dcx dcy dp0 dt0 : ℝ)
    (hE : 0 < R * R + L * L + m * m) :
    HasDerivAt (fun ε : ℝ => (cx + ε * dcx) + (R + ε * dR) *
        Real.sin (s / Real.sqrt ((R + ε * dR) * (R + ε * dR) +
          (L + ε * dL) * (L + ε * dL) + m * m) * (t - (t0 + ε * dt0)) + (p0 + ε * dp0)))
      (dcx + (dR * Real.sin (s / Real.sqrt (R * R + L * L + m * m) * (t - t0) + p0) +
        R * (Real.cos (s / Real.sqrt (R * R + L * L + m * m) * (t - t0) + p0) *
          ((-(s * (R * dR + L * dL)) / (Real.sqrt (R * R + L * L + m * m) *
            (R * R + L * L + m * m))) * (t - t0) +
            s / Real.sqrt (R * R + L * L + m * m) * (0 - dt0) + dp0)))) 0 ∧
    HasDerivAt (fun ε : ℝ => (cy + ε * dcy) - (R + ε * dR) *
        Real.cos (s / Real.sqrt ((R + ε * dR) * (R + ε * dR) +
          (L + ε * dL) * (L + ε * dL) + m * m) * (t - (t0 + ε * dt0)) + (p0 + ε * dp0)))
      (dcy - (dR * Real.cos (s / Real.sqrt (R * R + L * L + m * m) * (t - t0) + p0) +
        R * (-Real.sin (s / Real.sqrt (R * R + L * L + m * m) * (t - t0) + p0) *
          ((-(s * (R * dR + L * dL)) / (Real.sqrt (R * R + L * L + m * m) *
            (R * R + L * L + m * m))) * (t - t0) +
            s / Real.sqrt (R * R + L * L + m * m) * (0 - dt0) + dp0)))) 0 ∧
    HasDerivAt (fun ε : ℝ => s / Real.sqrt ((R + ε * dR) * (R + ε * dR) +
          (L + ε * dL) * (L + ε * dL) + m * m) * (t - (t0 + ε * dt0)) * (L + ε * dL))
      (((-(s * (R * dR + L * dL)) / (Real.sqrt (R * R + L * L + m * m) *
            (R * R + L * L + m * m))) * (t - t0) +
            s / Real.sqrt (R * R + L * L + m * m) * (0 - dt0)) * L +
        s / Real.sqrt (R * R + L * L + m * m) * (t - t0) * dL) 0 := by
  have hω := hasDerivAt_omega s m R L dR dL hE
  have hdt := (hasDerivAt_const (0 : ℝ) t).sub (hasDerivAt_affine t0 dt0)
  have hturn := hω.mul hdt
  have hφ := hturn.add (hasDerivAt_affine p0 dp0)
  have hx := (hasDerivAt_affine cx dcx).add ((hasDerivAt_affine R dR).mul hφ.sin)
  have hy := (hasDerivAt_affine cy dcy).sub ((hasDerivAt_affine R dR).mul hφ.cos)
  have hz := hturn.mul (hasDerivAt_affine L dL)
  refine ⟨?_, ?_, ?_⟩
  · refine hx.congr_deriv ?_
    simp only [zero_mul, add_zero]
  · refine hy.congr_deriv ?_
    simp only [zero_mul, add_zero]
  · refine hz.congr_deriv ?_
    simp only [zero_mul, add_zero]

/-- The Jacobian of the working-frame position applied to the theta1 derivative vector is
zero (radius `R`, wavelength `L`, elapsed time `dt`, angular velocity `s / E`, `S` and `C`
the sine and cosine of the phase). -/
theorem theta1_jacobian_zero (s E E2 dt R L S C : ℝ) (hL : L ≠ 0) (hE : E ≠ 0)
    (hE2 : E2 ≠ 0) :
    -L * S + (L * S + R * (C * (-(s * (R * L + L * -R)) / (E * E2) * dt +
      s / E * (0 - -dt * R / L) + -(s / E) * dt * R / L))) = 0 ∧
    L * C - (L * C + R * (-S * (-(s * (R * L + L * -R)) / (E * E2) * dt +
      s / E * (0 - -dt * R / L) + -(s / E) * dt * R / L))) = 0 ∧
    (-(s * (R * L + L * -R)) / (E * E2) * dt + s / E * (0 - -dt * R / L)) * L +
      s / E * dt * -R = 0 := by
  refine ⟨?_, ?_, ?_⟩ <;> field_simp <;> ring

/-- The Jacobian of the working-frame position applied to the momdir derivative vector is
zero (`E2 = E^2` the squared total-energy term, `P2` the squared momentum term). -/
theorem momdir_jacobian_zero (s E E2 P2 dt R L S C : ℝ) (hE : E ≠ 0) (hE2 : E2 ≠ 0)
    (hEE : E * E = E2) (hP : R * R + L * L = P2) :
    -R * S + (R * S + R * (C * (-(s * (R * R + L * L)) / (E * E2) * dt +
      s / E * (0 - dt * (1 - P2 / E2)) + s / E * dt))) = 0 ∧
    R * C - (R * C + R * (-S * (-(s * (R * R + L * L)) / (E * E2) * dt +
      s / E * (0 - dt * (1 - P2 / E2)) + s / E * dt))) = 0 ∧
    (-(s * (R * R + L * L)) / (E * E2) * dt + s / E * (0 - dt * (1 - P2 / E2))) * L +
      s / E * dt * L = 0 := by
  subst hP
  subst hEE
  refine ⟨?_, ?_, ?_⟩ <;> field_simp <;> ring

/-- The z coordinate is unchanged to first order along a momdir-like vector only for the
`t0` entry `dt * (1 - P2 / E2)`. -/
theorem momdir_t0_entry_unique (s E E2 P2 dt L tau : ℝ) (hs : s ≠ 0) (hL : L ≠ 0)
    (hE : E ≠ 0) (hE2 : E2 ≠ 0) (hEE : E * E = E2)
    (hz : (-(s * P2) / (E * E2) * dt + s / E * (0 - tau)) * L + s / E * dt * L = 0) :
    tau = dt * (1 - P2 / E2) := by
  subst hEE
  have h2 : s / E * L * (dt * (1 - P2 / (E * E)) - tau) = 0 := by
    rw [← hz]
    field_simp
    ring
  have hne : s / E * L ≠ 0 := mul_ne_zero (div_ne_zero hs hE) hL
  rcases mul_eq_zero.mp h2 with h3 | h3
  · exact absurd h3 hne
  · linarith

/-- C16: for the theta1 (polar-bend) and the momdir (momentum-magnitude) selectors, the
parameter derivative `pder` returned by `momDeriv` at time `t` leaves the working-frame
position at `t` unchanged to first order. With the position `x = cx + R sin(phi0 + omega
(t - t0))`, `y = cy - R cos(phi0 + omega (t - t0))`, `z = omega (t - t0) lambda`,
`omega = copysign(c_light, mbar) / sqrt(R^2 + lambda^2 + mbar^2)` as a function of the six
parameters (`mbar` fixed), each coordinate has derivative zero along `pder`, that is the
Jacobian applied to `pder` is the zero vector. This is stated where the Jacobian exists
(`ebar > 0`) and, for theta1, where the entries of `pder` that divide by the wavelength are
defined (`lambda ≠ 0`). For momdir the `t0` entry is `(t - t0) (1 - beta^2)` with
`beta^2 = (R^2 + lambda^2) / (R^2 + lambda^2 + mbar^2)`, and for a non-zero wavelength no
other value of that entry leaves the z coordinate unchanged to first order. -/
theorem LHelix.momDeriv_position_first_order (h : LHelix) (t : ℝ) (hE : 0 < h.ebar) :
    (h.lam ≠ 0 →
      ∃ (pder : PDER) (unit : Vec3), h.momDeriv MDir.theta1 t = Except.ok (pder, unit) ∧
        HasDerivAt (fun ε : ℝ => (h.positionOfPars (h.shiftedPars pder ε) t).x) 0 0 ∧
        HasDerivAt (fun ε : ℝ => (h.positionOfPars (h.shiftedPars pder ε) t).y) 0 0 ∧
        HasDerivAt (fun ε : ℝ => (h.positionOfPars (h.shiftedPars pder ε) t).z) 0 0) ∧
    (∃ (pder : PDER) (unit : Vec3), h.momDeriv MDir.momdir t = Except.ok (pder, unit) ∧
        HasDerivAt (fun ε : ℝ => (h.positionOfPars (h.shiftedPars pder ε) t).x) 0 0 ∧
        HasDerivAt (fun ε : ℝ => (h.positionOfPars (h.shiftedPars pder ε) t).y) 0 0 ∧
        HasDerivAt (fun ε : ℝ => (h.positionOfPars (h.shiftedPars pder ε) t).z) 0 0 ∧
        pder ParamIndex.t0_ = (t - h.t0) *
          (1 - (h.rad ^ 2 + h.lam ^ 2) / (h.rad ^ 2 + h.lam ^ 2 + h.mbar ^ 2)) ∧
        (h.lam ≠ 0 → ∀ tau : ℝ,
          HasDerivAt (fun ε : ℝ => (h.positionOfPars
            (h.shiftedPars (Function.update pder ParamIndex.t0_ tau) ε) t).z) 0 0 →
          tau = pder ParamIndex.t0_)) := by
  have hE2 : 0 < h.rad * h.rad + h.lam * h.lam + h.mbar * h.mbar := Real.sqrt_pos.mp hE
  have hE2ne : h.rad * h.rad + h.lam * h.lam + h.mbar * h.mbar ≠ 0 := ne_of_gt hE2
  have hP2 : 0 ≤ h.rad * h.rad + h.lam * h.lam :=
    add_nonneg (mul_self_nonneg _) (mul_self_nonneg _)
  have hmul : Real.sqrt (h.rad * h.rad + h.lam * h.lam + h.mbar * h.mbar) *
      Real.sqrt (h.rad * h.rad + h.lam * h.lam + h.mbar * h.mbar) =
      h.rad * h.rad + h.lam * h.lam + h.mbar * h.mbar := Real.mul_self_sqrt (le_of_lt hE2)
  have hPmul : Real.sqrt (h.rad * h.rad + h.lam * h.lam) *
      Real.sqrt (h.rad * h.rad + h.lam * h.lam) = h.rad * h.rad + h.lam * h.lam :=
    Real.mul_self_sqrt hP2
  have hEne : Real.sqrt (h.rad * h.rad + h.lam * h.lam + h.mbar * h.mbar) ≠ 0 :=
    ne_of_gt (Real.sqrt_pos.mpr hE2)
  have hfx : ∀ d : PDER, (fun ε : ℝ => (h.positionOfPars (h.shiftedPars d ε) t).x) =
      fun ε : ℝ => (h.cx + ε * d ParamIndex.cx_) + (h.rad + ε * d ParamIndex.rad_) *
        Real.sin (copysign c_light h.mbar /
          Real.sqrt ((h.rad + ε * d ParamIndex.rad_) * (h.rad + ε * d ParamIndex.rad_) +
            (h.lam + ε * d ParamIndex.lam_) * (h.lam + ε * d ParamIndex.lam_) +
            h.mbar * h.mbar) * (t - (h.t0 + ε * d ParamIndex.t0_)) +
          (h.phi0 + ε * d ParamIndex.phi0_)) := fun _ => rfl
  have hfy : ∀ d : PDER, (fun ε : ℝ => (h.positionOfPars (h.shiftedPars d ε) t).y) =
      fun ε : ℝ => (h.cy + ε * d ParamIndex.cy_) - (h.rad + ε * d ParamIndex.rad_) *
        Real.cos (copysign c_light h.mbar /
          Real.sqrt ((h.rad + ε * d ParamIndex.rad_) * (h.rad + ε * d ParamIndex.rad_) +
            (h.lam + ε * d ParamIndex.lam_) * (h.lam + ε * d ParamIndex.lam_) +
            h.mbar * h.mbar) * (t - (h.t0 + ε * d ParamIndex.t0_)) +
          (h.phi0 + ε * d ParamIndex.phi0_)) := fun _ => rfl
  have hfz : ∀ d : PDER, (fun ε : ℝ => (h.positionOfPars (h.shiftedPars d ε) t).z) =
      fun ε : ℝ => copysign c_light h.mbar /
          Real.sqrt ((h.rad + ε * d ParamIndex.rad_) * (h.rad + ε * d ParamIndex.rad_) +
            (h.lam + ε * d ParamIndex.lam_) * (h.lam + ε * d ParamIndex.lam_) +
            h.mbar * h.mbar) * (t - (h.t0 + ε * d ParamIndex.t0_)) *
          (h.lam + ε * d ParamIndex.lam_) := fun _ => rfl
  have hom : h.omega = copysign c_light h.mbar /
      Real.sqrt (h.rad * h.rad + h.lam * h.lam + h.mbar * h.mbar) := rfl
  constructor
  · intro hl
    obtain ⟨pder, unit, hok, hr, hla, ht0, hp0, hcx, hcy⟩ := LHelix.momDeriv_theta1_entries h t
    have key := hasDerivAt_helix_position (copysign c_light h.mbar) h.mbar t h.rad h.lam h.cx
      h.cy h.phi0 h.t0 (pder ParamIndex.rad_) (pder ParamIndex.lam_) (pder ParamIndex.cx_)
      (pder ParamIndex.cy_) (pder ParamIndex.phi0_) (pder ParamIndex.t0_) hE2
    have alg := theta1_jacobian_zero (copysign c_light h.mbar)
      (Real.sqrt (h.rad * h.rad + h.lam * h.lam + h.mbar * h.mbar))
      (h.rad * h.rad + h.lam * h.lam + h.mbar * h.mbar) (t - h.t0) h.rad h.lam
      (Real.sin (copysign c_light h.mbar /
        Real.sqrt (h.rad * h.rad + h.lam * h.lam + h.mbar * h.mbar) * (t - h.t0) + h.phi0))
      (Real.cos (copysign c_light h.mbar /
        Real.sqrt (h.rad * h.rad + h.lam * h.lam + h.mbar * h.mbar) * (t - h.t0) + h.phi0))
      hl hEne hE2ne
    rw [hom] at hp0 hcx hcy
    refine ⟨pder, unit, hok, ?_, ?_, ?_⟩
    · rw [hfx]
      refine key.1.congr_deriv ?_
      rw [hr, hla, ht0, hp0, hcx]
      exact alg.1
    · rw [hfy]
      refine key.2.1.congr_deriv ?_
      rw [hr, hla, ht0, hp0, hcy]
      exact alg.2.1
    · rw [hfz]
      refine key.2.2.congr_deriv ?_
      rw [hr, hla, ht0]
      exact alg.2.2
  · obtain ⟨pder, unit, hok, hr, hla, ht0, hp0, hcx, hcy⟩ := LHelix.momDeriv_momdir_entries h t
    have key := hasDerivAt_helix_position (copysign c_light h.mbar) h.mbar t h.rad h.lam h.cx
      h.cy h.phi0 h.t0 (pder ParamIndex.rad_) (pder ParamIndex.lam_) (pder ParamIndex.cx_)
      (pder ParamIndex.cy_) (pder ParamIndex.phi0_) (pder ParamIndex.t0_) hE2
    have hbeta : h.beta * h.beta =
        (h.rad * h.rad + h.lam * h.lam) / (h.rad * h.rad + h.lam * h.lam + h.mbar * h.mbar) := by
      unfold LHelix.beta LHelix.pbar LHelix.ebar
      rw [div_mul_div_comm, hPmul, hmul]
    have ht0' : pder ParamIndex.t0_ = (t - h.t0) *
        (1 - (h.rad * h.rad + h.lam * h.lam) /
          (h.rad * h.rad + h.lam * h.lam + h.mbar * h.mbar)) := by
      rw [ht0, hbeta]
      norm_num
    have alg := momdir_jacobian_zero (copysign c_light h.mbar)
      (Real.sqrt (h.rad * h.rad + h.lam * h.lam + h.mbar * h.mbar))
      (h.rad * h.rad + h.lam * h.lam + h.mbar * h.mbar) (h.rad * h.rad + h.lam * h.lam)
      (t - h.t0) h.rad h.lam
      (Real.sin (copysign c_light h.mbar /
        Real.sqrt (h.rad * h.rad + h.lam * h.lam + h.mbar * h.mbar) * (t - h.t0) + h.phi0))
      (Real.cos (copysign c_light h.mbar /
        Real.sqrt (h.rad * h.rad + h.lam * h.lam + h.mbar * h.mbar) * (t - h.t0) + h.phi0))
      hEne hE2ne hmul rfl
    rw [hom] at hp0 hcx hcy
    refine ⟨pder, unit, hok, ?_, ?_, ?_, ?_, ?_⟩
    · rw [hfx]
      refine key.1.congr_deriv ?_
      rw [hr, hla, ht0', hp0, hcx]
      exact alg.1
    · rw [hfy]
      refine key.2.1.congr_deriv ?_
      rw [hr, hla, ht0', hp0, hcy]
      exact alg.2.1
    · rw [hfz]
      refine key.2.2.congr_deriv ?_
      rw [hr, hla, ht0']
      exact alg.2.2
    · rw [ht0']
      congr 2
      ring
    · intro hl tau hder
      have hs : copysign c_light h.mbar ≠ 0 := by
        unfold copysign
        have := abs_pos.mpr (ne_of_gt c_light_pos)
        split_ifs
        · exact ne_of_gt this
        · exact ne_of_lt (by linarith)
      have key2 := (hasDerivAt_helix_position (copysign c_light h.mbar) h.mbar t h.rad h.lam
        h.cx h.cy h.phi0 h.t0 (pder ParamIndex.rad_) (pder ParamIndex.lam_)
        (pder ParamIndex.cx_) (pder ParamIndex.cy_) (pder ParamIndex.phi0_) tau hE2).2.2
      rw [hfz] at hder
      have hupd : (fun ε : ℝ => copysign c_light h.mbar /
          Real.sqrt ((h.rad + ε * Function.update pder ParamIndex.t0_ tau ParamIndex.rad_) *
              (h.rad + ε * Function.update pder ParamIndex.t0_ tau ParamIndex.rad_) +
            (h.lam + ε * Function.update pder ParamIndex.t0_ tau ParamIndex.lam_) *
              (h.lam + ε * Function.update pder ParamIndex.t0_ tau ParamIndex.lam_) +
            h.mbar * h.mbar) *
            (t - (h.t0 + ε * Function.update pder ParamIndex.t0_ tau ParamIndex.t0_)) *
          (h.lam + ε * Function.update pder ParamIndex.t0_ tau ParamIndex.lam_)) =
          fun ε : ℝ => copysign c_light h.mbar /
          Real.sqrt ((h.rad + ε * pder ParamIndex.rad_) * (h.rad + ε * pder ParamIndex.rad_) +
            (h.lam + ε * pder ParamIndex.lam_) * (h.lam + ε * pder ParamIndex.lam_) +
            h.mbar * h.mbar) * (t - (h.t0 + ε * tau)) *
          (h.lam + ε * pder ParamIndex.lam_) := by
        funext ε
        simp [Function.update]
      rw [hupd] at hder
      have hzero := key2.unique hder
      rw [hr, hla] at hzero
      rw [ht0']
      exact momdir_t0_entry_unique (copysign c_light h.mbar)
        (Real.sqrt (h.rad * h.rad + h.lam * h.lam + h.mbar * h.mbar))
        (h.rad * h.rad + h.lam * h.lam + h.mbar * h.mbar) (h.rad * h.rad + h.lam * h.lam)
        (t - h.t0) h.lam tau hs hl hEne hE2ne hmul hzero

/-- Witness for C16: the helix `tripleHelix` at time 1. -/
theorem LHelix.momDeriv_position_first_order_witness :
    (0 < tripleHelix.ebar ∧ tripleHelix.lam ≠ 0) ∧
    (∃ (pder : PDER) (unit : Vec3),
      tripleHelix.momDeriv MDir.theta1 1 = Except.ok (pder, unit) ∧
      HasDerivAt (fun ε : ℝ =>
        (tripleHelix.positionOfPars (tripleHelix.shiftedPars pder ε) 1).z) 0 0) ∧
    (∃ (pder : PDER) (unit : Vec3),
      tripleHelix.momDeriv MDir.momdir 1 = Except.ok (pder, unit) ∧
      HasDerivAt (fun ε : ℝ =>
        (tripleHelix.positionOfPars (tripleHelix.shiftedPars pder ε) 1).z) 0 0) := by
  have he : 0 < tripleHelix.ebar := tripleHelix_facts.2.2.1
  have hl : tripleHelix.lam ≠ 0 := by
    rw [tripleHelix_values.2.2.2.1]
    exact div_ne_zero (by norm_num) (ne_of_gt c_light_pos)
  obtain ⟨h1, h2⟩ := LHelix.momDeriv_position_first_order tripleHelix 1 he
  obtain ⟨p1, u1, hok1, -, -, hz1⟩ := h1 hl
  obtain ⟨p2, u2, hok2, -, -, hz2, -⟩ := h2
  exact ⟨⟨he, hl⟩, ⟨p1, u1, hok1, hz1⟩, ⟨p2, u2, hok2, hz2⟩⟩

/-! ## Theorems: MoyalDist -/

/-- The square root of two, squared. -/
theorem sqrt_two_mul_self : Real.sqrt 2 * Real.sqrt 2 = 2 :=
  Real.mul_self_sqrt (by norm_num)

/-- What the mode/sigma constructor stores: the given sigma, the mean
`mode + sigma * MFACTOR`, and in `_rms` the value `(π sigma)^2 / 2`, which the comment in
the other constructor calls the variance. -/
theorem MoyalDist.fromModeSigma_values (mode sigma : ℝ) (max : ℤ) :
    (MoyalDist.fromModeSigma ⟨mode, sigma⟩ max).getMean = mode + sigma * MoyalDist.MFACTOR ∧
    (MoyalDist.fromModeSigma ⟨mode, sigma⟩ max).getSigma = sigma ∧
    (MoyalDist.fromModeSigma ⟨mode, sigma⟩ max).getRMS = (Real.pi * sigma) ^ 2 / 2 := by
  refine ⟨rfl, rfl, ?_⟩
  show 0.5 * (Real.pi * sigma) ^ 2 = (Real.pi * sigma) ^ 2 / 2
  norm_num
  ring

/-- What the mean/rms constructor stores: the given mean and rms, and a sigma with
`rms^2 = (π sigma)^2 / 2`. -/
theorem MoyalDist.fromMeanRMS_values (mean rms : ℝ) (max : ℤ) :
    (MoyalDist.fromMeanRMS ⟨mean, rms⟩ max).getMean = mean ∧
    (MoyalDist.fromMeanRMS ⟨mean, rms⟩ max).getRMS = rms ∧
    (MoyalDist.fromMeanRMS ⟨mean, rms⟩ max).getSigma = Real.sqrt 2 * rms / Real.pi ∧
    (MoyalDist.fromMeanRMS ⟨mean, rms⟩ max).getRMS ^ 2 =
      (Real.pi * (MoyalDist.fromMeanRMS ⟨mean, rms⟩ max).getSigma) ^ 2 / 2 := by
  have hpi : Real.pi ≠ 0 := ne_of_gt Real.pi_pos
  have h2 : (2.0 : ℝ) = 2 := by norm_num
  have hs : (MoyalDist.fromMeanRMS ⟨mean, rms⟩ max).getSigma = Real.sqrt 2 * rms / Real.pi := by
    show Real.sqrt 2.0 * rms / Real.pi = _
    rw [h2]
  refine ⟨rfl, rfl, hs, ?_⟩
  rw [hs]
  show rms ^ 2 = _
  have : Real.pi * (Real.sqrt 2 * rms / Real.pi) = Real.sqrt 2 * rms := by
    field_simp
  rw [this, mul_pow, pow_two (Real.sqrt 2), sqrt_two_mul_self]
  ring

/-- The round trip through the two constructors: mean and rms come back, the sigma comes
back as `π sigma^2 / sqrt 2`. -/
theorem MoyalDist.rebuild_values (mode sigma : ℝ) (max : ℤ) :
    ((MoyalDist.fromModeSigma ⟨mode, sigma⟩ max).rebuild max).getMean =
      (MoyalDist.fromModeSigma ⟨mode, sigma⟩ max).getMean ∧
    ((MoyalDist.fromModeSigma ⟨mode, sigma⟩ max).rebuild max).getRMS =
      (MoyalDist.fromModeSigma ⟨mode, sigma⟩ max).getRMS ∧
    ((MoyalDist.fromModeSigma ⟨mode, sigma⟩ max).rebuild max).getSigma =
      Real.sqrt 2 * Real.pi * sigma ^ 2 / 2 := by
  have hpi : Real.pi ≠ 0 := ne_of_gt Real.pi_pos
  refine ⟨rfl, rfl, ?_⟩
  unfold MoyalDist.rebuild
  rw [(MoyalDist.fromMeanRMS_values _ _ max).2.2.1, (MoyalDist.fromModeSigma_values _ _ max).2.2]
  field_simp
  ring

/-- For a positive sigma the round trip gives the sigma back only for
`sigma = sqrt 2 / π`. -/
theorem MoyalDist.rebuild_sigma_iff (mode sigma : ℝ) (max : ℤ) (hs : 0 < sigma) :
    ((MoyalDist.fromModeSigma ⟨mode, sigma⟩ max).rebuild max).getSigma =
      (MoyalDist.fromModeSigma ⟨mode, sigma⟩ max).getSigma ↔
    sigma = Real.sqrt 2 / Real.pi := by
  have hpi : Real.pi ≠ 0 := ne_of_gt Real.pi_pos
  have hsq := sqrt_two_mul_self
  have hsq0 : Real.sqrt 2 ≠ 0 := by
    intro h0
    rw [h0] at hsq
    norm_num at hsq
  rw [(MoyalDist.rebuild_values mode sigma max).2.2, (MoyalDist.fromModeSigma_values _ _ max).2.1]
  constructor
  · intro h
    have h1 : sigma * (Real.sqrt 2 * Real.pi * sigma - 2) = 0 := by linarith
    rcases mul_eq_zero.mp h1 with h2 | h2
    · exact absurd h2 (ne_of_gt hs)
    · rw [eq_div_iff hpi]
      have h3 : Real.sqrt 2 * (Real.sqrt 2 * Real.pi * sigma - 2) = 0 := by rw [h2, mul_zero]
      have h4 : Real.sqrt 2 * Real.sqrt 2 * (Real.pi * sigma) - 2 * Real.sqrt 2 = 0 := by
        linarith
      rw [hsq] at h4
      linarith
  · intro h
    rw [h]
    field_simp
    ring

/-- C21, the code at a failing input: for mode 0 and sigma 1 the distribution built by the
mode/sigma constructor reports sigma 1 and rms `π^2 / 2`, and the distribution rebuilt by
the mean/rms constructor from its mean and rms reports the same mean and rms but the sigma
`sqrt 2 * π / 2`, which is not 1; the first constructor's rms does not satisfy
`rms^2 = (π sigma)^2 / 2`, the second's does. -/
theorem MoyalDist.rebuild_sigma_mismatch :
    (MoyalDist.fromModeSigma ⟨0, 1⟩ 20).getSigma = 1 ∧
    (MoyalDist.fromModeSigma ⟨0, 1⟩ 20).getRMS = Real.pi ^ 2 / 2 ∧
    ((MoyalDist.fromModeSigma ⟨0, 1⟩ 20).rebuild 20).getMean =
      (MoyalDist.fromModeSigma ⟨0, 1⟩ 20).getMean ∧
    ((MoyalDist.fromModeSigma ⟨0, 1⟩ 20).rebuild 20).getRMS =
      (MoyalDist.fromModeSigma ⟨0, 1⟩ 20).getRMS ∧
    ((MoyalDist.fromModeSigma ⟨0, 1⟩ 20).rebuild 20).getSigma = Real.sqrt 2 * Real.pi / 2 ∧
    ((MoyalDist.fromModeSigma ⟨0, 1⟩ 20).rebuild 20).getSigma ≠
      (MoyalDist.fromModeSigma ⟨0, 1⟩ 20).getSigma ∧
    (MoyalDist.fromModeSigma ⟨0, 1⟩ 20).getRMS ^ 2 ≠
      (Real.pi * (MoyalDist.fromModeSigma ⟨0, 1⟩ 20).getSigma) ^ 2 / 2 ∧
    ((MoyalDist.fromModeSigma ⟨0, 1⟩ 20).rebuild 20).getRMS ^ 2 =
      (Real.pi * ((MoyalDist.fromModeSigma ⟨0, 1⟩ 20).rebuild 20).getSigma) ^ 2 / 2 := by
  have hpi3 := Real.pi_gt_three
  have hpi : Real.pi ≠ 0 := ne_of_gt Real.pi_pos
  have hsq := sqrt_two_mul_self
  have hsqnn : 0 ≤ Real.sqrt 2 := Real.sqrt_nonneg 2
  obtain ⟨hm, hr, hsg⟩ := MoyalDist.rebuild_values 0 1 20
  obtain ⟨-, hs1, hr1⟩ := MoyalDist.fromModeSigma_values 0 1 20
  have hsg2 : ((MoyalDist.fromModeSigma ⟨0, 1⟩ 20).rebuild 20).getSigma =
      Real.sqrt 2 * Real.pi / 2 := by
    rw [hsg]
    ring
  have hr2 : (MoyalDist.fromModeSigma ⟨0, 1⟩ 20).getRMS = Real.pi ^ 2 / 2 := by
    rw [hr1, mul_one]
  refine ⟨hs1, hr2, hm, hr, hsg2, ?_, ?_, ?_⟩
  · rw [hsg2, hs1]
    intro h
    have h1 : Real.sqrt 2 * Real.pi = 2 := by linarith
    have h2 : Real.sqrt 2 * (Real.sqrt 2 * Real.pi) = Real.sqrt 2 * 2 := by rw [h1]
    have h3 : 2 * Real.pi = Real.sqrt 2 * 2 := by
      rw [← h2, ← mul_assoc, hsq]
    have h4 : Real.sqrt 2 ≤ 2 := by nlinarith
    linarith
  · rw [hr2, hs1, mul_one]
    intro h
    have h1 : Real.pi ^ 2 * (Real.pi ^ 2 - 2) = 0 := by nlinarith
    rcases mul_eq_zero.mp h1 with h2 | h2
    · exact hpi (pow_eq_zero_iff (by norm_num) |>.mp h2)
    · nlinarith
  · unfold MoyalDist.rebuild
    exact (MoyalDist.fromMeanRMS_values _ _ 20).2.2.2

end KinKal
